import Mathlib

/-!
# HIOSO OLT REST adapter: parser, identifiers, cache, services and worker pool

A shallow embedding of `internal/parser` (`parser.go`, `onu_parser.go`,
`system_parser.go`, `pon_parser.go`), of the identifier rules of
`internal/handlers/onu.go`, of the cache of `internal/database`, of the unit
services of `internal/service/onu_service.go` and of the worker pool of
`internal/scraper/pool.go`, with the library routines they call (`regexp`,
`strings`, `strconv`, `float64` arithmetic, `gorm` on the table of the cache),
followed by the properties of the specification that concern them.

Conventions.
* A Go `string` is a `List Char`: the text is taken to be valid UTF-8, which is
  what `regexp`, `strings.TrimSpace` and `range` decode it to.
* Go `int` is the 64-bit `int` of the platforms the server is built for.
* A `float64` is carried exactly, as an integer multiple of `2^-1074` or an
  infinity or NaN, and every operation rounds to nearest even.
* A Go `(T, error)` result is an `Except`; a nil slice is the empty list.
* A regular expression is the composition of its pieces, each taking the rest
  of the pattern as its continuation, tried in the order of a backtracking
  search: this is the leftmost-first match of Go `regexp`.
* The table of the cache is the list of its rows, and a function on it returns
  the table after the call; the clock is explicit, an instant being an integer
  number of nanoseconds.
* A service takes the outcomes of the device and of the JSON encoder as
  parameters, works on the table of the cache, and records its accesses to the
  cache and to the device in the order in which it makes them.
* The goroutines of the worker pool are a transition system: a run is a
  sequence of atomic steps, each taken by one goroutine.
-/

set_option autoImplicit false

namespace Hioso

/-- A Go string, as its sequence of code points. -/
abbrev Str := List Char

/-! ## Library: `regexp` (RE2 syntax, leftmost-first matching) -/

/-- The Perl class `\s` of Go `regexp`: `[\t\n\f\r ]`. -/
def isReSpace (c : Char) : Bool :=
  c = '\t' || c = '\n' || c = '\x0c' || c = '\r' || c = ' '

/-- A literal piece `p` of a pattern, followed by the rest of the pattern `k`. -/
def reLit {α : Type} (p : Str) (k : Str → Option α) (s : Str) : Option α :=
  if p.isPrefixOf s then k (s.drop p.length) else none

/-- Greedy `\s*` followed by the rest of the pattern `k`: the longest run of
white space is tried first, shorter ones on failure of `k`. -/
def reStar {α : Type} (k : Str → Option α) : Str → Option α
  | [] => k []
  | c :: cs =>
    if isReSpace c then
      match reStar k cs with
      | some r => some r
      | none => k (c :: cs)
    else k (c :: cs)

/-- Greedy `\s+` followed by the rest of the pattern `k`. -/
def rePlus {α : Type} (k : Str → Option α) : Str → Option α
  | [] => none
  | c :: cs => if isReSpace c then reStar k cs else none

/-- The lazy capture group `([\s\S]*?)` followed by the rest of the pattern `k`:
the shortest text after which `k` matches; the result is the captured text. -/
def reLazyCapture (k : Str → Bool) : Str → Option Str
  | [] => if k [] then some [] else none
  | c :: cs => if k (c :: cs) then some [] else (reLazyCapture k cs).map (c :: ·)

/-- The leftmost match: the pattern `m` tried at every position from the left. -/
def reFindFirst {α : Type} (m : Str → Option α) : Str → Option α
  | [] => m []
  | c :: cs =>
    match m (c :: cs) with
    | some r => some r
    | none => reFindFirst m cs

/-! ## Library: `strings` -/

/-- Go `unicode.IsSpace`: the Latin-1 spaces `\t \n \v \f \r`, space, U+0085,
U+00A0, and the other code points of the property White_Space. -/
def isUnicodeSpace (c : Char) : Bool :=
  let n := c.toNat
  (0x09 ≤ n && n ≤ 0x0d) || n = 0x20 || n = 0x85 || n = 0xa0 || n = 0x1680 ||
  (0x2000 ≤ n && n ≤ 0x200a) || n = 0x2028 || n = 0x2029 || n = 0x202f ||
  n = 0x205f || n = 0x3000

/-- Go `strings.TrimSpace`. -/
def TrimSpace (s : Str) : Str :=
  ((s.dropWhile isUnicodeSpace).reverse.dropWhile isUnicodeSpace).reverse

namespace strings

/-- Go `strings.Split(s, sep)` for a separator of one ASCII character: the
texts between the occurrences of the separator, in order, one more than there
are occurrences. -/
def Split (s : Str) (sep : Char) : List Str :=
  match s with
  | [] => [[]]
  | c :: cs =>
    if c = sep then [] :: Split cs sep
    else
      match Split cs sep with
      | [] => [[c]]
      | p :: ps => (c :: p) :: ps

/-- Go `strings.ToLower`: every code point is mapped by `unicode.ToLower`, which
maps `A-Z` to `a-z` and leaves the rest of ASCII alone; its table for the code
points outside ASCII is the parameter. -/
def ToLower (unicodeToLower : Char → Char) (s : Str) : Str :=
  s.map (fun c =>
    if c.toNat < 128 then (if 'A' ≤ c ∧ c ≤ 'Z' then Char.ofNat (c.toNat + 32) else c)
    else unicodeToLower c)

end strings


/-! ## Library: `float64` (IEEE 754 binary64, round to nearest even) -/

/-- A `float64` value. Every finite `float64` is a multiple of `2^-1074`:
`finite n` is the value `n * 2^-1074`. Negative zero is identified with zero
(the code only compares, multiplies and subtracts it). -/
inductive F64 where
  | finite (n : Int)
  | inf (neg : Bool)
  | nan
  deriving DecidableEq, Repr

namespace F64

/-- The scaled integer of `1.0`. -/
def one : Nat := 2 ^ 1074

/-- The finite values reach up to `(2^53 - 1) * 2^971`; rounded results from
`2^1024` on overflow. -/
def overflowBound : Nat := 2 ^ (1024 + 1074)

/-- The integer `v` as a `float64` constant (exact for the small constants of
the code). -/
def ofInt (v : Int) : F64 := finite (v * one)

/-- The number of binary digits of `n`, 0 for 0; the first argument bounds the
recursion and `n` itself is enough. -/
def bitLength : Nat → Nat → Nat
  | 0, _ => 0
  | fuel + 1, n => if n = 0 then 0 else bitLength fuel (n / 2) + 1

/-- Round to nearest even the magnitude `num / den` (`den > 0`), counted in
units of `2^-1074`: 53 significant bits, and nothing below the unit. -/
def roundNat (num den : Nat) : Nat :=
  let q := num / den
  let shift := bitLength q q - 53
  let d := den * 2 ^ shift
  let m := num / d
  let r := num % d
  let m := if 2 * r > d ∨ (2 * r = d ∧ m % 2 = 1) then m + 1 else m
  m * 2 ^ shift

/-- Round to nearest even the value `num / den * 2^-1074` (`den > 0`), with
the sign `neg`: infinity from `2^1024` on. -/
def round (neg : Bool) (num den : Nat) : F64 :=
  let n := roundNat num den
  if n ≥ overflowBound then inf neg
  else finite (if neg then -(n : Int) else n)

/-- The value `m * 10^e10 * 2^e2` correctly rounded, with the sign `neg`. -/
def ofScientific (neg : Bool) (m : Nat) (e10 e2 : Int) : F64 :=
  let num := m * 10 ^ e10.toNat * 2 ^ (e2 + 1074).toNat
  let den := 10 ^ (-e10).toNat * 2 ^ (-(e2 + 1074)).toNat
  round neg num den

/-- Float64 multiplication. -/
def mul : F64 → F64 → F64
  | nan, _ => nan
  | _, nan => nan
  | inf a, inf b => inf (a != b)
  | inf a, finite n => if n = 0 then nan else inf (a != decide (n < 0))
  | finite n, inf b => if n = 0 then nan else inf (decide (n < 0) != b)
  | finite a, finite b => round (decide (a < 0) != decide (b < 0)) (a.natAbs * b.natAbs) one

/-- Float64 subtraction. -/
def sub : F64 → F64 → F64
  | nan, _ => nan
  | _, nan => nan
  | inf a, inf b => if a = b then nan else inf a
  | inf a, finite _ => inf a
  | finite _, inf b => inf (!b)
  | finite a, finite b => round (decide (a - b < 0)) (a - b).natAbs 1

/-- Float64 `<`; false when an operand is NaN. -/
def lt : F64 → F64 → Bool
  | nan, _ => false
  | _, nan => false
  | inf a, inf b => a && !b
  | inf a, finite _ => a
  | finite _, inf b => !b
  | finite a, finite b => decide (a < b)

/-- Float64 `==`; false when an operand is NaN. -/
def eq : F64 → F64 → Bool
  | nan, _ => false
  | _, nan => false
  | inf a, inf b => a == b
  | inf _, finite _ => false
  | finite _, inf _ => false
  | finite a, finite b => decide (a = b)

/-- Float64 `>`. -/
def gt (x y : F64) : Bool := lt y x

/-- Float64 `<=`; false when an operand is NaN. -/
def le (x y : F64) : Bool := lt x y || eq x y

/-- The Go conversion `int(f)`: the value truncated toward zero. For NaN, an
infinity or a value out of the range of `int` the language leaves the result
to the implementation; the model takes that of amd64, `-2^63`. -/
def toInt : F64 → Int
  | finite n =>
    let t : Int := if n < 0 then -((n.natAbs / one : Nat) : Int) else ((n.natAbs / one : Nat) : Int)
    if -(2 ^ 63 : Int) ≤ t ∧ t < 2 ^ 63 then t else -(2 ^ 63 : Int)
  | _ => -(2 ^ 63 : Int)

/-- The exact value of a finite float. -/
def toRat? : F64 → Option ℚ
  | finite n => some ((n : ℚ) / 2 ^ 1074)
  | _ => none

end F64

/-! ## Library: `strconv` -/

namespace strconv

/-- The error of a conversion: none, `ErrSyntax` or `ErrRange`. -/
inductive NumError where
  | nil
  | ErrSyntax
  | ErrRange
  deriving DecidableEq, Repr

/-- The value of a decimal digit. -/
def digitVal (c : Char) : Nat := c.toNat - '0'.toNat

/-- Go `lower(c)`, `c | ('x' - 'X')`, on the bytes of ASCII; other code points
are left alone (their bytes are no letters). -/
def lower (c : Char) : Char :=
  if 'A' ≤ c ∧ c ≤ 'Z' then Char.ofNat (c.toNat + 32) else c

/-- The length in bytes of the UTF-8 text. -/
def byteLen (s : Str) : Nat := (s.map (fun c => c.utf8Size)).sum

/-- The loop of `ParseUint(s, 10, 64)`: the value so far is `n`; a character
that is no digit is a syntax error, an overflow of `uint64` a range error with
the value `maxUint64`. -/
def parseUintLoop : Nat → Str → Nat × NumError
  | n, [] => (n, .nil)
  | n, c :: cs =>
    if '0' ≤ c ∧ c ≤ '9' then
      if n ≥ (2 ^ 64 - 1) / 10 + 1 then (2 ^ 64 - 1, .ErrRange)
      else
        let n1 := n * 10 + digitVal c
        if n1 > 2 ^ 64 - 1 then (2 ^ 64 - 1, .ErrRange)
        else parseUintLoop n1 cs
    else (0, .ErrSyntax)

/-- Go `strconv.ParseUint(s, 10, 64)`. -/
def ParseUint (s : Str) : Nat × NumError :=
  if s = [] then (0, .ErrSyntax) else parseUintLoop 0 s

/-- Go `strconv.ParseInt(s, 10, 0)` with a 64-bit `int`. -/
def ParseInt (s : Str) : Int × NumError :=
  match s with
  | [] => (0, .ErrSyntax)
  | c :: cs =>
    let neg := decide (c = '-')
    let digits := if c = '+' ∨ c = '-' then cs else c :: cs
    match ParseUint digits with
    | (_, .ErrSyntax) => (0, .ErrSyntax)
    | (un, _) =>
      if ¬ neg ∧ un ≥ 2 ^ 63 then (2 ^ 63 - 1, .ErrRange)
      else if neg ∧ un > 2 ^ 63 then (-(2 ^ 63 : Int), .ErrRange)
      else (if neg then -(un : Int) else (un : Int), .nil)

/-- The loop of the fast path of `Atoi`. -/
def atoiFast : Int → Str → Int × NumError
  | n, [] => (n, .nil)
  | n, c :: cs =>
    if '0' ≤ c ∧ c ≤ '9' then atoiFast (n * 10 + digitVal c) cs else (0, .ErrSyntax)

/-- Go `strconv.Atoi` with a 64-bit `int`: a fast path for the texts of fewer
than 19 bytes, else `ParseInt(s, 10, 0)`. -/
def Atoi (s : Str) : Int × NumError :=
  match s with
  | [] => ParseInt s
  | c :: cs =>
    if byteLen s < 19 then
      let digits := if c = '-' ∨ c = '+' then cs else c :: cs
      if digits = [] then (0, .ErrSyntax)
      else
        match atoiFast 0 digits with
        | (n, .nil) => (if c = '-' then -n else n, .nil)
        | (_, e) => (0, e)
    else ParseInt s

/-- Go `commonPrefixLenIgnoreCase(s, p)`, for a lower-case `p`. -/
def commonPrefixLenIgnoreCase : Str → Str → Nat
  | c :: cs, p :: ps => if lower c = p then commonPrefixLenIgnoreCase cs ps + 1 else 0
  | _, _ => 0

/-- Go `special(s)`: the infinities and NaN, with the number of characters
read. -/
def special (s : Str) : Option (F64 × Nat) :=
  match s with
  | [] => none
  | c :: cs =>
    if c = '+' ∨ c = '-' ∨ c = 'i' ∨ c = 'I' then
      let signed := decide (c = '+' ∨ c = '-')
      let body := if signed then cs else c :: cs
      let n := commonPrefixLenIgnoreCase body "infinity".toList
      let n := if 3 < n ∧ n < 8 then 3 else n
      if n = 3 ∨ n = 8 then some (.inf (decide (c = '-')), (if signed then 1 else 0) + n)
      else none
    else if c = 'n' ∨ c = 'N' then
      if commonPrefixLenIgnoreCase (c :: cs) "nan".toList = 3 then some (.nan, 3) else none
    else none

/-- The state of the mantissa loop of `readFloat`: all the digits read (`mant`,
`nd` of them after the leading zeros), the place of the point `dp`, and what
was seen. -/
structure FloatScan where
  mant : Nat := 0
  nd : Nat := 0
  dp : Int := 0
  sawdot : Bool := false
  sawdigits : Bool := false
  underscores : Bool := false
  deriving Repr

/-- One more digit `d` of the mantissa in the base `base`. -/
def FloatScan.digit (st : FloatScan) (base d : Nat) : FloatScan :=
  { st with sawdigits := true, nd := st.nd + 1, mant := st.mant * base + d }

/-- The mantissa loop of `readFloat` in base 10 or 16; the result is the state
and the text left. -/
def scanMantissa (hex : Bool) : FloatScan → Str → FloatScan × Str
  | st, [] => (st, [])
  | st, c :: cs =>
    if c = '_' then scanMantissa hex { st with underscores := true } cs
    else if c = '.' then
      if st.sawdot then (st, c :: cs)
      else scanMantissa hex { st with sawdot := true, dp := st.nd } cs
    else if '0' ≤ c ∧ c ≤ '9' then
      if c = '0' ∧ st.nd = 0 then
        scanMantissa hex { st with sawdigits := true, dp := st.dp - 1 } cs
      else
        scanMantissa hex (st.digit (if hex then 16 else 10) (digitVal c)) cs
    else if hex ∧ 'a' ≤ lower c ∧ lower c ≤ 'f' then
      scanMantissa hex (st.digit 16 ((lower c).toNat - 'a'.toNat + 10)) cs
    else (st, c :: cs)

/-- The digits of the exponent of `readFloat`: the value so far is `e` (it
stops growing at 10000); the result is the value, whether an underscore was
seen, and the text left. -/
def scanExponent : Nat → Bool → Str → Nat × Bool × Str
  | e, u, [] => (e, u, [])
  | e, u, c :: cs =>
    if c = '_' then scanExponent e true cs
    else if '0' ≤ c ∧ c ≤ '9' then
      scanExponent (if e < 10000 then e * 10 + digitVal c else e) u cs
    else (e, u, c :: cs)

/-- The loop of `underscoreOK` over the number proper; `saw` is the last kind
of character seen: `'0'` a digit, `'_'` an underscore, `'!'` another, `'^'`
the beginning. -/
def underscoreLoop (hex : Bool) : Char → Str → Bool
  | saw, [] => saw ≠ '_'
  | saw, c :: cs =>
    if ('0' ≤ c ∧ c ≤ '9') ∨ (hex ∧ 'a' ≤ lower c ∧ lower c ≤ 'f') then underscoreLoop hex '0' cs
    else if c = '_' then
      if saw ≠ '0' then false else underscoreLoop hex '_' cs
    else if saw = '_' then false
    else underscoreLoop hex '!' cs

/-- Go `underscoreOK(s)`: an underscore only between digits or between a base
prefix and a digit. -/
def underscoreOK (s : Str) : Bool :=
  let s := match s with
    | c :: cs => if c = '-' ∨ c = '+' then cs else c :: cs
    | [] => []
  match s with
  | '0' :: b :: rest =>
    if lower b = 'b' ∨ lower b = 'o' ∨ lower b = 'x' then
      underscoreLoop (lower b = 'x') '0' rest
    else underscoreLoop false '^' s
  | _ => underscoreLoop false '^' s

/-- Go `readFloat(s)` together with the conversion of what it read: the
float64 nearest to the decimal or hexadecimal number that begins the text and
the text left after it, or nothing when no number begins the text. -/
def readFloat (s : Str) : Option (F64 × Str) :=
  let (neg, body) := match s with
    | c :: cs => if c = '+' then (false, cs) else if c = '-' then (true, cs) else (false, c :: cs)
    | [] => (false, [])
  if s = [] then none else
  let (hex, digits) := match body with
    | '0' :: x :: d :: rest => if lower x = 'x' then (true, d :: rest) else (false, body)
    | _ => (false, body)
  let (st, rest) := scanMantissa hex {} digits
  if ¬ st.sawdigits then none else
  let dp : Int := if st.sawdot then st.dp else st.nd
  let dp := if hex then dp * 4 else dp
  let nd : Int := if hex then st.nd * 4 else st.nd
  let finish (dp : Int) (underscores : Bool) (rest : Str) : Option (F64 × Str) :=
    if underscores ∧ ¬ underscoreOK (s.take (s.length - rest.length)) then none
    else
      let exp : Int := if st.mant ≠ 0 then dp - nd else 0
      some (if hex then F64.ofScientific neg st.mant 0 exp
            else F64.ofScientific neg st.mant exp 0, rest)
  match rest with
  | c :: cs =>
    if lower c = (if hex then 'p' else 'e') then
      match cs with
      | [] => none
      | d :: ds =>
        let (esign, ds) : Int × Str :=
          if d = '+' then (1, ds) else if d = '-' then (-1, ds) else (1, d :: ds)
        match ds with
        | [] => none
        | f :: _ =>
          if ¬ ('0' ≤ f ∧ f ≤ '9') then none
          else
            let (e, u, rest) := scanExponent 0 st.underscores ds
            finish (dp + e * esign) u rest
    else if hex then none
    else finish dp st.underscores rest
  | [] => if hex then none else finish dp st.underscores rest

/-- Go `strconv.ParseFloat(s, 64)`: the value and the error. With a syntax
error the value is 0, with a range error a signed infinity. -/
def ParseFloat (s : Str) : F64 × NumError :=
  match special s with
  | some (v, n) => if n = s.length then (v, .nil) else (.finite 0, .ErrSyntax)
  | none =>
    match readFloat s with
    | none => (.finite 0, .ErrSyntax)
    | some (v, rest) =>
      if rest ≠ [] then (.finite 0, .ErrSyntax)
      else
        match v with
        | .inf _ => (v, .ErrRange)
        | _ => (v, .nil)

end strconv

namespace Parser

/-! ## `parser.go` -/

/-- The errors of the parser package. -/
inductive ParseError where
  /-- The error of `ExtractJSArray`: variable not found in HTML. -/
  | notFound (varName : Str)
  /-- The error of the fixed-arity records: got `got` fields, expected `want`. -/
  | incomplete (what : Str) (got want : Nat)
  deriving DecidableEq, Repr

deriving instance DecidableEq for Except

/-- The end of the pattern of `ExtractJSArray`: the literal `\);`. -/
def closesArray (s : Str) : Bool := ");".toList.isPrefixOf s

/-- The pattern of `ExtractJSArray`, matched at the start of the text:
`var\s+NAME\s*=\s*new\s+Array\s*\(([\s\S]*?)\);` with `NAME` the quoted
variable name; the result is capture group 1. -/
def declPattern (varName : Str) : Str → Option Str :=
  reLit "var".toList <| rePlus <| reLit varName <| reStar <| reLit "=".toList <|
  reStar <| reLit "new".toList <| rePlus <| reLit "Array".toList <| reStar <|
  reLit "(".toList <| reLazyCapture closesArray

/-- The first alternative or the second of `'([^']*)'|"([^"]*)"`, after the
opening quote `q`: the text up to the next `q`. -/
def untilQuote (q : Char) : Str → Option Str
  | [] => none
  | c :: cs => if c = q then some [] else (untilQuote q cs).map (c :: ·)

/-- The pattern `'([^']*)'|"([^"]*)"` matched at the start of the text: capture
groups 1 and 2 (an unmatched group is the empty string, as in
`FindAllStringSubmatch`) and the length of the match. -/
def quotedAt : Str → Option (Str × Str × Nat)
  | [] => none
  | c :: cs =>
    if c = '\'' then (untilQuote '\'' cs).map (fun v => (v, [], v.length + 2))
    else if c = '"' then (untilQuote '"' cs).map (fun v => ([], v, v.length + 2))
    else none

/-- The non-overlapping matches of the quoted-literal pattern, left to right
(`FindAllStringSubmatch(content, -1)`); `skip` counts the characters of the
previous match still to be passed over. -/
def findAllQuoted : Nat → Str → List (Str × Str)
  | _, [] => []
  | skip + 1, _ :: cs => findAllQuoted skip cs
  | 0, c :: cs =>
    match quotedAt (c :: cs) with
    | some (g1, g2, len) => (g1, g2) :: findAllQuoted (len - 1) cs
    | none => findAllQuoted 0 cs

/-- The replacement of every match of `//.*` by the empty string (`.` does not
match a newline); the flag tells that the scan is inside a match. -/
def stripComments : Bool → Str → Str
  | _, [] => []
  | true, c :: cs =>
    if c = '\n' then c :: stripComments false cs else stripComments true cs
  | false, c :: cs =>
    if c = '/' ∧ cs.head? = some '/' then stripComments true cs
    else c :: stripComments false cs

/-- The replacement of every match of `\s+` by one space; the flag tells that
the scan is inside a match. -/
def collapseSpaces : Bool → Str → Str
  | _, [] => []
  | inRun, c :: cs =>
    if isReSpace c then
      if inRun then collapseSpaces true cs else ' ' :: collapseSpaces true cs
    else c :: collapseSpaces false cs

/-- The loop of `parseArrayContent` over the matches: group 1 when it is not
empty, else group 2 when it is not empty, else nothing. -/
def appendMatch (values : List Str) (m : Str × Str) : List Str :=
  if m.1 ≠ [] then values ++ [m.1]
  else if m.2 ≠ [] then values ++ [m.2]
  else values

/-- Transcription of `parseArrayContent`. -/
def parseArrayContent (content : Str) : List Str :=
  let content := stripComments false content
  let content := collapseSpaces false content
  let content := TrimSpace content
  let found := findAllQuoted 0 content
  found.foldl appendMatch []

/-- Transcription of `ExtractJSArray`. -/
def ExtractJSArray (html varName : Str) : Except ParseError (List Str) :=
  match reFindFirst (declPattern varName) html with
  | none => .error (.notFound varName)
  | some content => .ok (parseArrayContent content)

/-- The loop of `ChunkArray`: `i` is the loop variable, the first argument
bounds the number of iterations. -/
def chunkLoop {α : Type} (data : List α) (size : Nat) : Nat → Nat → List (List α)
  | 0, _ => []
  | fuel + 1, i =>
    if i < data.length then
      let stop := if i + size > data.length then data.length else i + size
      ((data.take stop).drop i) :: chunkLoop data size fuel (i + size)
    else []

/-- Transcription of `ChunkArray`; the loop runs at most `len(data)` times. -/
def ChunkArray {α : Type} (data : List α) (size : Int) : List (List α) :=
  if size ≤ 0 then [] else chunkLoop data size.toNat data.length 0

/-- Transcription of `MapCTCStatus`. -/
def MapCTCStatus (code : Str) : Str :=
  let statusMap : List (Str × Str) :=
    [("0".toList, "--".toList),
     ("1".toList, "MpcpDiscovery".toList),
     ("2".toList, "MpcpSla".toList),
     ("3".toList, "CtcInfo".toList),
     ("4".toList, "RequestCfg".toList),
     ("5".toList, "CtcNegDone".toList)]
  match statusMap.lookup code with
  | some status => status
  | none => "unknown".toList

/-- Transcription of `MapActivateStatus`. -/
def MapActivateStatus (code : Str) : Bool :=
  code ≠ "2".toList

/-- Transcription of `MapOnlineStatus`. -/
def MapOnlineStatus (status : Str) : Str :=
  let statusMap : List (Str × Str) :=
    [("0".toList, "offline".toList),
     ("1".toList, "online".toList),
     ("2".toList, "poweroff".toList)]
  match statusMap.lookup status with
  | some s => s
  | none => status



/-- Transcription of `ParseFloat`. -/
def ParseFloat (s : Str) : F64 :=
  let s := TrimSpace s
  if s = [] ∨ s = "N/A".toList ∨ s = "--".toList then .finite 0
  else (strconv.ParseFloat s).1

/-- Transcription of `ParseInt`. -/
def ParseInt (s : Str) : Int :=
  let s := TrimSpace s
  if s = [] ∨ s = "N/A".toList ∨ s = "--".toList then 0
  else (strconv.Atoi s).1

/-- The clamp of `CalculateDistance` on the computed distance. -/
def clampDistance (distance : F64) : F64 :=
  if F64.gt distance (F64.ofInt 157) then F64.sub distance (F64.ofInt 157)
  else if F64.le distance (F64.ofInt 0) then F64.ofInt 1
  else distance

/-- The first statement of `CalculateDistance`: `rawFloat*1.6393 - 157`, the
product rounded before the subtraction as on amd64 (Go lets an implementation
fuse the two operations); the constant `1.6393` is the nearest float64. -/
def rawDistance (rawFloat : F64) : F64 :=
  F64.sub (F64.mul rawFloat (F64.ofScientific false 16393 (-4) 0)) (F64.ofInt 157)

/-- Transcription of `CalculateDistance`. -/
def CalculateDistance (raw : Str) : Int :=
  let rawFloat := ParseFloat raw
  if F64.eq rawFloat (F64.ofInt 0) then 0
  else F64.toInt (clampDistance (rawDistance rawFloat))

/-! ## `onu_parser.go` -/

/-- Transcription of `ONUMetrics`. -/
structure ONUMetrics where
  Temperature : F64
  Voltage : F64
  Current : F64
  TxPower : F64
  RxPower : F64
  deriving DecidableEq

/-- Transcription of `ONUResponse`. -/
structure ONUResponse where
  ONUID : Str
  Name : Str
  MacAddress : Str
  Status : Str
  FwVersion : Str
  ChipID : Str
  Ports : Int
  Distance : Int
  CTCStatus : Str
  CTCVersion : Str
  IsActivated : Bool
  Metrics : ONUMetrics
  deriving DecidableEq

/-- The record that `ParseONUList` builds from one chunk; the indexing is
guarded by `len(chunk) >= 16`. -/
def decodeONU (chunk : List Str) : ONUResponse where
  ONUID := chunk.getD 0 []
  Name := chunk.getD 1 []
  MacAddress := chunk.getD 2 []
  Status := MapOnlineStatus (chunk.getD 3 [])
  FwVersion := chunk.getD 4 []
  ChipID := chunk.getD 5 []
  Ports := ParseInt (chunk.getD 6 [])
  CTCStatus := MapCTCStatus (chunk.getD 7 [])
  CTCVersion := chunk.getD 8 []
  IsActivated := MapActivateStatus (chunk.getD 9 [])
  Distance := CalculateDistance (chunk.getD 10 [])
  Metrics :=
    { Temperature := ParseFloat (chunk.getD 11 [])
      Voltage := ParseFloat (chunk.getD 12 [])
      Current := ParseFloat (chunk.getD 13 [])
      TxPower := ParseFloat (chunk.getD 14 [])
      RxPower := ParseFloat (chunk.getD 15 []) }

/-- The body of the loop of `ParseONUList`. -/
def appendONU (onus : List ONUResponse) (chunk : List Str) : List ONUResponse :=
  if chunk.length ≥ 16 then onus ++ [decodeONU chunk] else onus

/-- Transcription of `ParseONUList`. -/
def ParseONUList (html : Str) : Except ParseError (List ONUResponse) :=
  match ExtractJSArray html "onutable".toList with
  | .error err => .error err
  | .ok data =>
    let chunks := ChunkArray data 16
    .ok (chunks.foldl appendONU [])

/-- A unit-overview page with one unit and one field more. -/
def sampleONUPage : Str :=
  ("var onutable=new Array('0/1:1','ONU-A','aa:bb:cc:dd:ee:ff','1','V1.0','ZX279',"
    ++ "'4','5','2.0','1','200','40.5','3.3','12','2.1','-20.5','0/1:2');").toList

/-- The fields of `sampleONUPage`. -/
def sampleONUFields : List Str :=
  ["0/1:1".toList, "ONU-A".toList, "aa:bb:cc:dd:ee:ff".toList, "1".toList, "V1.0".toList,
   "ZX279".toList, "4".toList, "5".toList, "2.0".toList, "1".toList, "200".toList,
   "40.5".toList, "3.3".toList, "12".toList, "2.1".toList, "-20.5".toList, "0/1:2".toList]

/-- Transcription of `OpticalModuleInfo`. -/
structure OpticalModuleInfo where
  Temperature : F64
  Voltage : F64
  BiasCurrent : F64
  TxPower : F64
  RxPower : F64
  deriving DecidableEq

/-- Transcription of `ONUDetailResponse`; the pointer `OpticalModule` is an
`Option`, nil being `none`. -/
structure ONUDetailResponse where
  ONUID : Str
  Name : Str
  MacAddress : Str
  Status : Str
  FwVersion : Str
  ChipID : Str
  Ports : Int
  FirstUptime : Str
  LastUptime : Str
  LastOfftime : Str
  IsActivated : Bool
  OpticalModule : Option OpticalModuleInfo
  deriving DecidableEq

/-- The record that `ParseONUDetail` builds from the fields of `onuinfo`; the
indexing is guarded by `len(onuInfo) >= 13`. -/
def decodeONUDetail (onuInfo : List Str) : ONUDetailResponse where
  ONUID := onuInfo.getD 0 []
  Name := onuInfo.getD 1 []
  MacAddress := onuInfo.getD 2 []
  Status := MapOnlineStatus (onuInfo.getD 3 [])
  FwVersion := onuInfo.getD 4 []
  ChipID := onuInfo.getD 5 []
  Ports := ParseInt (onuInfo.getD 6 [])
  FirstUptime := onuInfo.getD 7 []
  LastUptime := onuInfo.getD 8 []
  LastOfftime := onuInfo.getD 9 []
  IsActivated := MapActivateStatus (onuInfo.getD 12 [])
  OpticalModule := none

/-- The record that `ParseONUDetail` builds from the fields of `onuOpmInfo`;
the indexing is guarded by `len(onuOpm) >= 6`. -/
def decodeOpticalModule (onuOpm : List Str) : OpticalModuleInfo where
  Temperature := ParseFloat (onuOpm.getD 1 [])
  Voltage := ParseFloat (onuOpm.getD 2 [])
  BiasCurrent := ParseFloat (onuOpm.getD 3 [])
  TxPower := ParseFloat (onuOpm.getD 4 [])
  RxPower := ParseFloat (onuOpm.getD 5 [])

/-- Transcription of `ParseONUDetail`. -/
def ParseONUDetail (html : Str) : Except ParseError ONUDetailResponse :=
  match ExtractJSArray html "onuinfo".toList with
  | .error err => .error err
  | .ok onuInfo =>
    if onuInfo.length < 13 then .error (.incomplete "onuinfo".toList onuInfo.length 13)
    else
      let detail := decodeONUDetail onuInfo
      match ExtractJSArray html "onuOpmInfo".toList with
      | .ok onuOpm =>
        if onuOpm.length ≥ 6 then
          .ok { detail with OpticalModule := some (decodeOpticalModule onuOpm) }
        else .ok detail
      | .error _ => .ok detail

/-! ## `system_parser.go` -/

/-- Transcription of `SystemInfoResponse`. -/
structure SystemInfoResponse where
  SystemName : Str
  SystemDescription : Str
  SystemLocation : Str
  SwitchType : Str
  SoftwareVersion : Str
  Revision : Str
  MACAddress : Str
  IPAddress : Str
  RunTime : Str
  HardwareVersion : Str
  SerialNumber : Str
  CPUUsage : F64
  MemoryUsage : F64
  deriving DecidableEq

/-- The record that `ParseSystemInfo` builds from the fields of `sysInfo`; the
indexing is guarded by `len(data) >= 13`. -/
def decodeSystemInfo (data : List Str) : SystemInfoResponse where
  SystemName := data.getD 0 []
  SystemDescription := data.getD 1 []
  SystemLocation := data.getD 2 []
  SwitchType := data.getD 3 []
  SoftwareVersion := data.getD 4 []
  Revision := data.getD 5 []
  MACAddress := data.getD 6 []
  IPAddress := data.getD 7 []
  RunTime := data.getD 8 []
  HardwareVersion := data.getD 9 []
  SerialNumber := data.getD 10 []
  CPUUsage := ParseFloat (data.getD 11 [])
  MemoryUsage := ParseFloat (data.getD 12 [])

/-- Transcription of `ParseSystemInfo`. -/
def ParseSystemInfo (html : Str) : Except ParseError SystemInfoResponse :=
  match ExtractJSArray html "sysInfo".toList with
  | .error err => .error err
  | .ok data =>
    if data.length < 13 then .error (.incomplete "sysInfo".toList data.length 13)
    else .ok (decodeSystemInfo data)

/-! ## `pon_parser.go` -/

/-- Transcription of `PONResponse`. -/
structure PONResponse where
  PONID : Str
  FullID : Str
  Info : Str
  deriving DecidableEq

/-- The short id that `ParsePONList` computes from the full id: the second part
when the full id splits on `/` into exactly two parts, else the full id. -/
def simplifiedID (fullID : Str) : Str :=
  let parts := strings.Split fullID '/'
  if parts.length = 2 then parts.getD 1 [] else fullID

/-- The body of the loop of `ParsePONList`. -/
def appendPON (pons : List PONResponse) (chunk : List Str) : List PONResponse :=
  if chunk.length ≥ 2 then
    let fullID := chunk.getD 0 []
    pons ++ [{ PONID := simplifiedID fullID, FullID := fullID, Info := chunk.getD 1 [] }]
  else pons

/-- Transcription of `ParsePONList`. -/
def ParsePONList (html : Str) : Except ParseError (List PONResponse) :=
  match ExtractJSArray html "ponListTable".toList with
  | .error err => .error err
  | .ok data =>
    let chunks := ChunkArray data 2
    .ok (chunks.foldl appendPON [])

/-- A unit-detail page with the 13 fields of `onuinfo` and no optical module. -/
def sampleDetailPage : Str :=
  ("var onuinfo=new Array('0/1:1','ONU-A','aa:bb:cc:dd:ee:ff','1','V1.0','ZX279',"
    ++ "'4','2024-01-01','2024-01-02','2024-01-03','x','y','2');").toList

/-- The fields of `sampleDetailPage`. -/
def sampleDetailFields : List Str :=
  ["0/1:1".toList, "ONU-A".toList, "aa:bb:cc:dd:ee:ff".toList, "1".toList, "V1.0".toList,
   "ZX279".toList, "4".toList, "2024-01-01".toList, "2024-01-02".toList,
   "2024-01-03".toList, "x".toList, "y".toList, "2".toList]

/-- A system page with its 13 fields. -/
def sampleSystemPage : Str :=
  ("var sysInfo = new Array(\"EPON\",\"waru\",\"Unknown\",\"OLT\",\"V2.3.1\",\"r1\","
    ++ "\"00:11:22:33:44:55\",\"10.0.0.1\",\"3 days\",\"V1.0\",\"SN1\",\"12\",\"3.5\");").toList

/-- The fields of `sampleSystemPage`. -/
def sampleSystemFields : List Str :=
  ["EPON".toList, "waru".toList, "Unknown".toList, "OLT".toList, "V2.3.1".toList,
   "r1".toList, "00:11:22:33:44:55".toList, "10.0.0.1".toList, "3 days".toList,
   "V1.0".toList, "SN1".toList, "12".toList, "3.5".toList]

/-- A port-overview page with two ports. -/
def samplePONPage : Str := "var ponListTable=new Array('0/1','N/A','0/2','N/A');".toList

end Parser

/-! ## `handlers/onu.go` -/

namespace handlers

/-- Transcription of `normalizeONUID`. -/
def normalizeONUID (onuID : Str) : Str :=
  let parts := strings.Split onuID ':'
  if parts.length = 2 then
    let ponPart := parts.getD 0 []
    let onuPart := parts.getD 1 []
    if (strconv.Atoi ponPart).2 = .nil then "0/".toList ++ ponPart ++ ":".toList ++ onuPart
    else onuID
  else onuID

/-- The statement of `GetONUs` on its path parameter `pon_id`: a port id that
`strconv.Atoi` accepts gets the shelf `0`. -/
def normalizePONID (ponID : Str) : Str :=
  if (strconv.Atoi ponID).2 = .nil then "0/".toList ++ ponID else ponID

end handlers

/-! ## `database/models.go` -/

namespace database

/-- Transcription of `CacheEntry`; a `time.Time` is an instant, counted in
nanoseconds. -/
structure CacheEntry where
  Key : Str
  Value : Str
  ExpiresAt : Int
  deriving DecidableEq, Repr

/-- Transcription of `IsExpired`, with the reading `now` of the clock:
`time.Now().After(c.ExpiresAt)`. -/
def CacheEntry.IsExpired (c : CacheEntry) (now : Int) : Bool := decide (c.ExpiresAt < now)

end database

/-! ## Library: `gorm`, on the table of the cache entries -/

namespace gorm

open database

/-- The table `cache_entries`: its rows. The column `key` is the primary key,
so no two rows of a table have the same key. -/
abbrev DB := List CacheEntry

/-- The errors of the operations on the table. -/
inductive Error where
  | ErrRecordNotFound
  | ErrMissingWhereClause
  | ErrUniqueConstraint
  deriving DecidableEq, Repr

/-- The query `db.Where("key = ?", key).First(&entry)`: the row of that key, or
`ErrRecordNotFound`. -/
def First (db : DB) (key : Str) : Except Error CacheEntry :=
  match db.find? (fun r => r.Key = key) with
  | some entry => .ok entry
  | none => .error .ErrRecordNotFound

/-- The statement `db.Delete(&entry)`: the row of the primary key of `entry`
is deleted. A primary key that is the zero value (the empty string) gives no
condition, and a delete without a condition is refused with
`ErrMissingWhereClause`. -/
def Delete (db : DB) (entry : CacheEntry) : DB × Option Error :=
  if entry.Key = [] then (db, some .ErrMissingWhereClause)
  else (db.filter (fun r => r.Key ≠ entry.Key), none)

/-- The statement `db.Where("key = ?", key).Delete(&CacheEntry{})`: the rows of
that key are deleted; deleting no row is no error. -/
def DeleteWhere (db : DB) (key : Str) : DB × Option Error :=
  (db.filter (fun r => r.Key ≠ key), none)

/-- The statement `db.Save(&entry)`. With a primary key that is the zero value
(the empty string) the record is inserted, which the primary key refuses when
the table has a row of that key. Otherwise the row of the key is updated, all
columns, and when there is none the record is inserted. -/
def Save (db : DB) (entry : CacheEntry) : DB × Option Error :=
  if entry.Key = [] then
    if db.any (fun r => r.Key = entry.Key) then (db, some .ErrUniqueConstraint)
    else (db ++ [entry], none)
  else if db.any (fun r => r.Key = entry.Key) then
    (db.map (fun r => if r.Key = entry.Key then entry else r), none)
  else (db ++ [entry], none)

end gorm

/-! ## `database/database.go` -/

namespace database

/-- Transcription of `GetCache`, with the reading `now` of the clock; the
second component is the table after the call. -/
def GetCache (db : gorm.DB) (now : Int) (key : Str) : (Str × Bool) × gorm.DB :=
  match gorm.First db key with
  | .error _ => (([], false), db)
  | .ok entry =>
    if entry.IsExpired now then (([], false), (gorm.Delete db entry).1)
    else ((entry.Value, true), db)

/-- Transcription of `SetCache`, with the reading `now` of the clock; the
first component is the table after the call, the second the error. -/
def SetCache (db : gorm.DB) (now : Int) (key value : Str) (ttl : Int) :
    gorm.DB × Option gorm.Error :=
  let entry : CacheEntry := { Key := key, Value := value, ExpiresAt := now + ttl }
  gorm.Save db entry

end database

/-! ## `service/onu_service.go` -/

namespace service

open Parser

/-- An access of a service to the cache or to a device, as a run records them in
order: `database.GetCache`, `database.SetCache`, the delete by key, `GetClient`,
`client.Get` and `client.Post`. -/
inductive Event where
  | cacheGet (key : Str)
  | cacheSet (key value : Str)
  | cacheDelete (key : Str)
  | getClient (deviceID : Str)
  | get (deviceID endpoint : Str) (params : List (Str × Str))
  | post (deviceID endpoint : Str) (formData : List (Str × Str))
  deriving DecidableEq

/-- The errors that the services return. -/
inductive Error where
  /-- The error `invalid ONU ID format: ...`. -/
  | invalidONUID (onuID : Str)
  /-- The error `unsupported action: ...`. -/
  | unsupportedAction (action : Str)
  /-- The error of `GetClient`, returned as it is. -/
  | client (err : Str)
  /-- The error of a request to the device, wrapped: `failed to ...: err`. -/
  | request (what err : Str)
  /-- The error of the parser, wrapped: `failed to parse ...: err`. -/
  | parse (what : Str) (err : ParseError)
  /-- The error of `GetONUDetail` inside `PerformAction`, wrapped. -/
  | detail (err : Error)
  deriving DecidableEq

/-- What a service is given: the configuration of the cache, the successive
readings of the clock (one for each access to the cache), the outcomes of
`GetClient` and of the requests to the devices, the JSON encodings of the
records, and the lower-case mapping of the code points outside ASCII. -/
structure Env where
  CacheEnabled : Bool
  CacheTTL : Int
  clock : Nat → Int
  getClient : Str → Option Str
  get : Str → Str → List (Str × Str) → Except Str Str
  post : Str → Str → List (Str × Str) → Except Str Str
  marshalONUs : List ONUResponse → Option Str
  unmarshalONUs : Str → Option (List ONUResponse)
  marshalDetail : ONUDetailResponse → Option Str
  unmarshalDetail : Str → Option ONUDetailResponse
  unicodeToLower : Char → Char

/-- The state that a service works on: the table of the cache, the number of
accesses to the cache so far, and the accesses recorded so far. -/
structure State where
  db : gorm.DB
  ticks : Nat
  trace : List Event

/-- The call `database.GetCache(s.db, key)`. -/
def cacheGet (env : Env) (key : Str) (st : State) : (Str × Bool) × State :=
  let r := database.GetCache st.db (env.clock st.ticks) key
  (r.1, { db := r.2, ticks := st.ticks + 1, trace := st.trace ++ [.cacheGet key] })

/-- The call `database.SetCache(s.db, key, value, s.cfg.Cache.TTL)`, its error
dropped. -/
def cacheSet (env : Env) (key value : Str) (st : State) : State :=
  let r := database.SetCache st.db (env.clock st.ticks) key value env.CacheTTL
  { db := r.1, ticks := st.ticks + 1, trace := st.trace ++ [.cacheSet key value] }

/-- The statement `s.db.Where("key = ?", key).Delete(&database.CacheEntry{})`,
its error dropped. -/
def cacheDelete (key : Str) (st : State) : State :=
  { st with db := (gorm.DeleteWhere st.db key).1, trace := st.trace ++ [.cacheDelete key] }

/-- The recording of an access to a device. -/
def record (e : Event) (st : State) : State := { st with trace := st.trace ++ [e] }

/-- Go `fmt.Sprintf("onus:%s:%s", deviceID, ponID)`. -/
def onusKey (deviceID ponID : Str) : Str :=
  "onus:".toList ++ deviceID ++ ":".toList ++ ponID

/-- Go `fmt.Sprintf("onu-detail:%s:%s", deviceID, onuID)`. -/
def onuDetailKey (deviceID onuID : Str) : Str :=
  "onu-detail:".toList ++ deviceID ++ ":".toList ++ onuID

/-- Transcription of `filterONUs`. -/
def filterONUs (env : Env) (onus : List ONUResponse) (filter : Str) : List ONUResponse :=
  if filter = [] then onus
  else
    let filter := strings.ToLower env.unicodeToLower filter
    onus.filter (fun onu => strings.ToLower env.unicodeToLower onu.Status = filter)

/-- Transcription of `GetONUsByPON` (the log of the history is left out). -/
def GetONUsByPON (env : Env) (deviceID ponID filter : Str) (st : State) :
    Except Error (List ONUResponse) × State :=
  let cacheKey := onusKey deviceID ponID
  let read : Option (List ONUResponse) × State :=
    if env.CacheEnabled then
      let r := cacheGet env cacheKey st
      if r.1.2 then (env.unmarshalONUs r.1.1, r.2) else (none, r.2)
    else (none, st)
  match read.1 with
  | some onus => (.ok (filterONUs env onus filter), read.2)
  | none =>
    let st := record (.getClient deviceID) read.2
    match env.getClient deviceID with
    | some err => (.error (.client err), st)
    | none =>
      let params := [("oltponno".toList, ponID)]
      let st := record (.get deviceID "/onuOverview.asp".toList params) st
      match env.get deviceID "/onuOverview.asp".toList params with
      | .error err => (.error (.request "fetch ONU list".toList err), st)
      | .ok html =>
        match ParseONUList html with
        | .error err => (.error (.parse "ONU list".toList err), st)
        | .ok onus =>
          let st :=
            if env.CacheEnabled ∧ onus.length > 0 then
              match env.marshalONUs onus with
              | some data => cacheSet env cacheKey data st
              | none => st
            else st
          (.ok (filterONUs env onus filter), st)

/-- Transcription of `GetONUDetail`. -/
def GetONUDetail (env : Env) (deviceID onuID : Str) (st : State) :
    Except Error ONUDetailResponse × State :=
  let parts := strings.Split onuID ':'
  if parts.length ≠ 2 then (.error (.invalidONUID onuID), st)
  else
    let ponNo := parts.getD 0 []
    let cacheKey := onuDetailKey deviceID onuID
    let read : Option ONUDetailResponse × State :=
      if env.CacheEnabled then
        let r := cacheGet env cacheKey st
        if r.1.2 then (env.unmarshalDetail r.1.1, r.2) else (none, r.2)
      else (none, st)
    match read.1 with
    | some detail => (.ok detail, read.2)
    | none =>
      let st := record (.getClient deviceID) read.2
      match env.getClient deviceID with
      | some err => (.error (.client err), st)
      | none =>
        let params := [("oltponno".toList, ponNo), ("onuno".toList, onuID)]
        let st := record (.get deviceID "/onuConfig.asp".toList params) st
        match env.get deviceID "/onuConfig.asp".toList params with
        | .error err => (.error (.request "fetch ONU detail".toList err), st)
        | .ok html =>
          match ParseONUDetail html with
          | .error err => (.error (.parse "ONU detail".toList err), st)
          | .ok detail =>
            let st :=
              if env.CacheEnabled then
                match env.marshalDetail detail with
                | some data => cacheSet env cacheKey data st
                | none => st
              else st
            (.ok detail, st)

/-- Transcription of `UpdateONUName`; `none` is the nil error. -/
def UpdateONUName (env : Env) (deviceID onuID newName : Str) (st : State) :
    Option Error × State :=
  let parts := strings.Split onuID ':'
  if parts.length ≠ 2 then (some (.invalidONUID onuID), st)
  else
    let st := record (.getClient deviceID) st
    match env.getClient deviceID with
    | some err => (some (.client err), st)
    | none =>
      let formData := [("oltponno".toList, parts.getD 0 []), ("onuId".toList, onuID),
        ("onuName".toList, newName), ("onuOperation".toList, "nonOp".toList)]
      let st := record (.post deviceID "/goform/setOnu".toList formData) st
      match env.post deviceID "/goform/setOnu".toList formData with
      | .error err => (some (.request "update ONU name".toList err), st)
      | .ok _ =>
        let ponNo := parts.getD 0 []
        let cacheKey := onusKey deviceID ponNo
        let st := cacheDelete cacheKey st
        let detailCacheKey := onuDetailKey deviceID onuID
        let st := cacheDelete detailCacheKey st
        (none, st)

/-- The `switch` of `PerformAction` on the lower-cased action. -/
def onuOperationOf (action : Str) : Option Str :=
  if action = "reboot".toList then some "rebootOp".toList
  else if action = "activate".toList then some "activeOp".toList
  else if action = "deactivate".toList then some "noactiveOp".toList
  else if action = "factory".toList then some "restoreOp".toList
  else if action = "cleanloop".toList then some "cleanLoopOp".toList
  else none

/-- Transcription of `PerformAction`; `none` is the nil error. -/
def PerformAction (env : Env) (deviceID onuID action : Str) (st : State) :
    Option Error × State :=
  let parts := strings.Split onuID ':'
  if parts.length ≠ 2 then (some (.invalidONUID onuID), st)
  else
    let ponNo := parts.getD 0 []
    match onuOperationOf (strings.ToLower env.unicodeToLower action) with
    | none => (some (.unsupportedAction action), st)
    | some onuOperation =>
      match GetONUDetail env deviceID onuID st with
      | (.error err, st) => (some (.detail err), st)
      | (.ok detail, st) =>
        let currentName :=
          if detail.Name = [] ∨ detail.Name = "NA".toList then "ONU".toList else detail.Name
        let st := record (.getClient deviceID) st
        match env.getClient deviceID with
        | some err => (some (.client err), st)
        | none =>
          let formData := [("onuId".toList, onuID), ("onuName".toList, currentName),
            ("onuOperation".toList, onuOperation)]
          let st := record (.post deviceID "/goform/setOnu".toList formData) st
          match env.post deviceID "/goform/setOnu".toList formData with
          | .error err => (some (.request "perform".toList err), st)
          | .ok _ =>
            let cacheKey := onusKey deviceID ponNo
            let st := cacheDelete cacheKey st
            let detailCacheKey := onuDetailKey deviceID onuID
            let st := cacheDelete detailCacheKey st
            (none, st)

/-- Transcription of `DeleteONU`; `none` is the nil error. -/
def DeleteONU (env : Env) (deviceID onuID : Str) (st : State) : Option Error × State :=
  let parts := strings.Split onuID ':'
  if parts.length ≠ 2 then (some (.invalidONUID onuID), st)
  else
    let ponNo := parts.getD 0 []
    let onuNum := parts.getD 1 []
    let st := record (.getClient deviceID) st
    match env.getClient deviceID with
    | some err => (some (.client err), st)
    | none =>
      let formData := [("chk".toList ++ onuNum, "on".toList), ("onuId".toList, onuID)]
      let st := record (.post deviceID "/goform/deleteOnu".toList formData) st
      match env.post deviceID "/goform/deleteOnu".toList formData with
      | .error err => (some (.request "delete ONU".toList err), st)
      | .ok _ =>
        let cacheKey := onusKey deviceID ponNo
        let st := cacheDelete cacheKey st
        let detailCacheKey := onuDetailKey deviceID onuID
        let st := cacheDelete detailCacheKey st
        (none, st)

/-- A device that answers every request, with the cache enabled. -/
def sampleEnv : Env where
  CacheEnabled := true
  CacheTTL := 100
  clock := fun n => n
  getClient := fun _ => none
  get := fun _ _ _ => .ok Parser.sampleDetailPage
  post := fun _ _ _ => .ok []
  marshalONUs := fun _ => some "onus".toList
  unmarshalONUs := fun _ => none
  marshalDetail := fun _ => some "detail".toList
  unmarshalDetail := fun _ => none
  unicodeToLower := fun c => c

/-- An empty cache, before any access. -/
def sampleState : State := { db := [], ticks := 0, trace := [] }

end service

/-! ## `scraper/pool.go` -/

namespace scraper

/-- Transcription of `BatchResult`; the error is an `Option`, nil being
`none`. -/
structure BatchResult (R E : Type) where
  Index : Nat
  Result : R
  Error : Option E
  deriving DecidableEq

/-- A goroutine of `worker`: blocked on the receive from the queue; inside the
task of `Process` for the item `itm` of index `idx`, before the write of its
slot; or after the task, before `p.wg.Done()`. -/
inductive Worker (T : Type) where
  | idle
  | running (idx : Nat) (itm : T)
  | finishing
  deriving DecidableEq

/-- The state of a `WorkerPool` during a call of `Process`: the goroutines of
the workers, the buffer of `taskQueue` (a task of `Process` is given by its
`idx` and `itm`) and its capacity, the counter of `wg`, the flag `closed`; the
items that the loop of `Process` has still to submit, the slice `results`, and
whether `Process` has returned. -/
structure Pool (T R E : Type) where
  workers : List (Worker T)
  taskQueue : List (Nat × T)
  capacity : Nat
  wg : Nat
  closed : Bool
  todo : List (Nat × T)
  results : List (BatchResult R E)
  returned : Bool

/-- Transcription of `NewWorkerPool`: the goroutines are started, idle. -/
def NewWorkerPool (T R E : Type) (workers : Int) : Pool T R E :=
  let workers := if workers ≤ 0 then 10 else workers
  { workers := List.replicate workers.toNat Worker.idle
    taskQueue := []
    capacity := (workers * 2).toNat
    wg := 0
    closed := false
    todo := []
    results := []
    returned := false }

/-- The start of `Process`: `results` is allocated with the zero value in every
slot, and the loop has every item to submit, with its index. -/
def Process.start {T R E : Type} (zero : R) (pool : Pool T R E) (items : List T) : Pool T R E :=
  { pool with
    todo := items.enum
    results := List.replicate items.length { Index := 0, Result := zero, Error := none }
    returned := false }

/-- The atomic steps of the goroutines during `Process`: the submitting
goroutine passes `Submit` for its next item; a worker receives a task; a worker
runs the mapper and writes the slot of its task, under the lock; a worker calls
`Done`; `Wait` returns and `Process` returns `results`. -/
inductive Action where
  | submit
  | receive (w : Nat)
  | write (w : Nat)
  | done (w : Nat)
  | wait
  deriving DecidableEq

/-- One step of `Process` on the pool; `none` when the goroutine cannot take
the step in this state (it is blocked, or elsewhere in its code). -/
def Process.step {T R E : Type} (fn : T → R × Option E) (a : Action) (p : Pool T R E) :
    Option (Pool T R E) :=
  match a with
  | .submit =>
    match p.todo with
    | [] => none
    | t :: rest =>
      if p.returned then none
      else if p.closed then some { p with todo := rest }
      else if p.taskQueue.length < p.capacity then
        some { p with todo := rest, wg := p.wg + 1, taskQueue := p.taskQueue ++ [t] }
      else none
  | .receive w =>
    match p.workers[w]?, p.taskQueue with
    | some .idle, t :: rest =>
      some { p with workers := p.workers.set w (.running t.1 t.2), taskQueue := rest }
    | _, _ => none
  | .write w =>
    match p.workers[w]? with
    | some (.running idx itm) =>
      some { p with
        workers := p.workers.set w .finishing
        results := p.results.set idx
          { Index := idx, Result := (fn itm).1, Error := (fn itm).2 } }
    | _ => none
  | .done w =>
    match p.workers[w]? with
    | some .finishing => some { p with workers := p.workers.set w .idle, wg := p.wg - 1 }
    | _ => none
  | .wait =>
    match p.todo with
    | [] => if p.wg = 0 ∧ p.returned = false then some { p with returned := true } else none
    | _ :: _ => none

/-- A run of `Process`: the steps of a schedule, one after the other. -/
def Process.run {T R E : Type} (fn : T → R × Option E) :
    List Action → Pool T R E → Option (Pool T R E)
  | [], p => some p
  | a :: as, p =>
    match Process.step fn a p with
    | some q => Process.run fn as q
    | none => none

/-- A mapper that fails on the item 2. -/
def sampleMapper (x : Nat) : Nat × Option String :=
  (x * 10, if x = 2 then some "bad" else none)

/-- A schedule of two workers on three items, in which the slots are written in
the order 1, 2, 0. -/
def sampleSchedule : List Action :=
  [.submit, .submit, .receive 0, .receive 1, .write 1, .submit, .done 1, .receive 1,
   .write 1, .write 0, .done 0, .done 1, .wait]

end scraper

/-! ## `service/pon_service.go` -/

namespace service

open Parser

/-- The JSON encodings of the port records, which `PONService` uses for the
cache. -/
structure PONCodec where
  marshalPONs : List PONResponse → Option Str
  unmarshalPONs : Str → Option (List PONResponse)

/-- Go `fmt.Sprintf("pons:%s", deviceID)`. -/
def ponsKey (deviceID : Str) : Str := "pons:".toList ++ deviceID

/-- Transcription of `GetPONList`; the request has no parameters. -/
def GetPONList (env : Env) (codec : PONCodec) (deviceID : Str) (st : State) :
    Except Error (List PONResponse) × State :=
  let cacheKey := ponsKey deviceID
  let read : Option (List PONResponse) × State :=
    if env.CacheEnabled then
      let r := cacheGet env cacheKey st
      if r.1.2 then (codec.unmarshalPONs r.1.1, r.2) else (none, r.2)
    else (none, st)
  match read.1 with
  | some pons => (.ok pons, read.2)
  | none =>
    let st := record (.getClient deviceID) read.2
    match env.getClient deviceID with
    | some err => (.error (.client err), st)
    | none =>
      let st := record (.get deviceID "/onuOverviewPonList.asp".toList []) st
      match env.get deviceID "/onuOverviewPonList.asp".toList [] with
      | .error err => (.error (.request "fetch PON list".toList err), st)
      | .ok html =>
        match ParsePONList html with
        | .error err => (.error (.parse "PON list".toList err), st)
        | .ok pons =>
          let st :=
            if env.CacheEnabled ∧ pons.length > 0 then
              match codec.marshalPONs pons with
              | some data => cacheSet env cacheKey data st
              | none => st
            else st
          (.ok pons, st)

/-- A device whose unit-overview page declares an empty table, with the cache
enabled. -/
def emptyListEnv : Env where
  CacheEnabled := true
  CacheTTL := 100
  clock := fun n => n
  getClient := fun _ => none
  get := fun _ _ _ => .ok "var onutable=new Array();".toList
  post := fun _ _ _ => .ok []
  marshalONUs := fun _ => some "[]".toList
  unmarshalONUs := fun _ => none
  marshalDetail := fun _ => some "detail".toList
  unmarshalDetail := fun _ => none
  unicodeToLower := fun c => c

/-- A device that cannot be reached, with the cache enabled. -/
def downEnv : Env where
  CacheEnabled := true
  CacheTTL := 100
  clock := fun n => n
  getClient := fun _ => some "down".toList
  get := fun _ _ _ => .error "down".toList
  post := fun _ _ _ => .error "down".toList
  marshalONUs := fun _ => some "[]".toList
  unmarshalONUs := fun _ => none
  marshalDetail := fun _ => some "detail".toList
  unmarshalDetail := fun _ => none
  unicodeToLower := fun c => c

/-- A codec of the port records that encodes every list. -/
def sampleCodec : PONCodec where
  marshalPONs := fun _ => some "pons".toList
  unmarshalPONs := fun _ => none

end service

/-! ## `scraper/pool.go`: `Submit` and `Close` -/

namespace scraper

/-- Transcription of `Close`: the first call sets the flag and closes the
channel, whose buffered tasks the workers still receive; a later call does
nothing. -/
def Close {T R E : Type} (p : Pool T R E) : Pool T R E :=
  if !p.closed then { p with closed := true } else p

/-- Transcription of `Submit`, for a task of `Process` given by its index and
item: on a closed pool the call returns at once; else the counter of `wg` is
incremented and the task is sent to the queue. The result is `none` while the
send blocks on a full buffer. -/
def Submit {T R E : Type} (task : Nat × T) (p : Pool T R E) : Option (Pool T R E) :=
  if p.closed then some p
  else if p.taskQueue.length < p.capacity then
    some { p with wg := p.wg + 1, taskQueue := p.taskQueue ++ [task] }
  else none

end scraper

/-! ## `scraper/client.go` -/

namespace strings

/-- Go `strings.TrimRight(s, cutset)`: the text without its trailing characters
that are in the cutset. -/
def TrimRight (s cutset : Str) : Str :=
  (s.reverse.dropWhile (fun c => cutset.contains c)).reverse

end strings

namespace scraper

/-- Transcription of `Client`; the `http.Client` and its timeout are part of the
network. -/
structure Client where
  baseURL : Str
  username : Str
  password : Str
  deriving DecidableEq

/-- Transcription of `NewClient`. -/
def NewClient (baseURL username password : Str) : Client :=
  let baseURL := strings.TrimRight baseURL "/".toList
  { baseURL := baseURL, username := username, password := password }

/-- A request as `Get` hands it to `httpClient.Do`: the method, the URL without
the query, the credentials of the basic authentication, and the parameters of
the query. -/
structure Request where
  method : Str
  url : Str
  username : Str
  password : Str
  query : List (Str × Str)
  deriving DecidableEq

/-- The outcome of `httpClient.Do(req)` followed by `io.ReadAll(resp.Body)`: a
transport error, or a response with its status code and its body, whose read
gives the text or fails. -/
inductive Outcome where
  | transportError (err : Str)
  | response (status : Int) (body : Except Str Str)
  deriving DecidableEq

/-- The network that a client works on: whether `http.NewRequest` accepts a
URL, and the outcome of a request. -/
structure Network where
  validURL : Str → Bool
  roundTrip : Request → Outcome

/-- The errors of `Get`: `failed to create request`, `request failed: err`,
`HTTP <code>: <status>` and `failed to read response: err`. -/
inductive ClientError where
  | createRequest
  | requestFailed (err : Str)
  | httpStatus (code : Int)
  | readResponse (err : Str)
  deriving DecidableEq

/-- Go `http.StatusOK`. -/
def StatusOK : Int := 200

/-- The request that `Get` builds. -/
def Client.getRequest (c : Client) (endpoint : Str) (params : List (Str × Str)) : Request :=
  { method := "GET".toList
    url := c.baseURL ++ endpoint
    username := c.username
    password := c.password
    query := if params.length > 0 then params else [] }

/-- Transcription of `Get`, with the network as a parameter; the second
component lists the requests handed to `httpClient.Do` during the call. -/
def Client.Get (c : Client) (net : Network) (endpoint : Str) (params : List (Str × Str)) :
    Except ClientError Str × List Request :=
  let fullURL := c.baseURL ++ endpoint
  if net.validURL fullURL = false then (.error .createRequest, [])
  else
    let req := c.getRequest endpoint params
    match net.roundTrip req with
    | .transportError err => (.error (.requestFailed err), [req])
    | .response status body =>
      if status ≠ StatusOK then (.error (.httpStatus status), [req])
      else
        match body with
        | .error err => (.error (.readResponse err), [req])
        | .ok text => (.ok text, [req])

/-- A device that answers every request with the status 204 and an empty
body. -/
def noContentNetwork : Network where
  validURL := fun _ => true
  roundTrip := fun _ => .response 204 (.ok [])

/-- A device that answers every request with the status 200 and the
port-overview page. -/
def sampleNetwork : Network where
  validURL := fun _ => true
  roundTrip := fun _ => .response 200 (.ok Parser.samplePONPage)

end scraper

/-! ## `service/onu_service.go`: `GetAllONUs` -/

namespace service

open Parser

/-- The task that `GetAllONUs` submits for a port: the request of the units of
the port, whose units are appended to `allONUs`; a failure is logged and the
task returns. -/
def fetchPort (env : Env) (deviceID : Str) (acc : List ONUResponse × State)
    (ponID : Str) : List ONUResponse × State :=
  let params := [("oltponno".toList, ponID)]
  let st := record (.get deviceID "/onuOverview.asp".toList params) acc.2
  match env.get deviceID "/onuOverview.asp".toList params with
  | .error _ => (acc.1, st)
  | .ok html =>
    match ParseONUList html with
    | .error _ => (acc.1, st)
    | .ok onus => (acc.1 ++ onus, st)

/-- Transcription of `GetAllONUs`. The pool is new and open, so every submitted
task runs before `Wait` returns; the tasks are taken here in the order of their
submission (another schedule of the workers permutes the requests and the
units appended, not what a request carries). -/
def GetAllONUs (env : Env) (codec : PONCodec) (deviceID filter : Str) (st : State) :
    Except Error (List ONUResponse) × State :=
  match GetPONList env codec deviceID st with
  | (.error err, st) => (.error err, st)
  | (.ok pons, st) =>
    let st := record (.getClient deviceID) st
    match env.getClient deviceID with
    | some err => (.error (.client err), st)
    | none =>
      let r := pons.foldl (fun acc pon => fetchPort env deviceID acc pon.PONID) ([], st)
      (.ok (filterONUs env r.1 filter), r.2)

/-- A device with the two ports `0/1` and `0/2`, which answers every
unit-overview request with the page of one unit; the cache is disabled. -/
def portsEnv : Env where
  CacheEnabled := false
  CacheTTL := 100
  clock := fun n => n
  getClient := fun _ => none
  get := fun _ endpoint _ =>
    if endpoint = "/onuOverviewPonList.asp".toList then .ok samplePONPage
    else .ok sampleONUPage
  post := fun _ _ _ => .ok []
  marshalONUs := fun _ => some "onus".toList
  unmarshalONUs := fun _ => none
  marshalDetail := fun _ => some "detail".toList
  unmarshalDetail := fun _ => none
  unicodeToLower := fun c => c

end service

/-! ## `service/device_service.go` -/

namespace strconv

/-- Go `fmt.Sprintf("%d", n)` on an `int`: the decimal digits, after a `-` for
a negative number. -/
def FormatInt (n : Int) : Str :=
  if n < 0 then '-' :: Nat.toDigits 10 n.natAbs else Nat.toDigits 10 n.natAbs

end strconv

namespace database

/-- Transcription of `Device`, without its two time stamps. -/
structure Device where
  ID : Str
  Name : Str
  BaseURL : Str
  Port : Int
  Username : Str
  Password : Str
  Status : Str
  deriving DecidableEq

end database

namespace service

/-- Transcription of `GetByID` on the table of the devices: the row of that id,
or the error `device '<id>' not found`, which is given by the id. -/
def GetByID (devices : List database.Device) (id : Str) : Except Str database.Device :=
  match devices.find? (fun dev => dev.ID = id) with
  | some device => .ok device
  | none => .error id

/-- The base URL that `GetClient` hands to `NewClient`:
`fmt.Sprintf("%s:%d", device.BaseURL, device.Port)` when the port is set and is
not 80. -/
def clientURL (device : database.Device) : Str :=
  if device.Port > 0 ∧ device.Port ≠ 80 then
    device.BaseURL ++ ":".toList ++ strconv.FormatInt device.Port
  else device.BaseURL

/-- Transcription of `GetClient`; the timeout of the configuration is left
out. -/
def GetClient (devices : List database.Device) (deviceID : Str) :
    Except Str scraper.Client :=
  match GetByID devices deviceID with
  | .error err => .error err
  | .ok device =>
    let baseURL := clientURL device
    .ok (scraper.NewClient baseURL device.Username device.Password)

/-- A stored device whose base URL ends in `/`, with the port 8080. -/
def sampleDevice : database.Device where
  ID := "olt".toList
  Name := "OLT".toList
  BaseURL := "http://olt/".toList
  Port := 8080
  Username := "admin".toList
  Password := "pw".toList
  Status := "active".toList

end service

/-! ## The specification side -/

/-- Every character of the text is in the class `\s`. -/
def AllReSpace (w : Str) : Prop := ∀ c ∈ w, isReSpace c = true

instance AllReSpace.decidable (w : Str) : Decidable (AllReSpace w) :=
  inferInstanceAs (Decidable (∀ c ∈ w, isReSpace c = true))

/-- A continuation of a pattern that fails on every text beginning with white
space. -/
def RejectsSpace {α : Type} (k : Str → Option α) : Prop :=
  ∀ c cs, isReSpace c = true → k (c :: cs) = none

namespace Parser

/-- The pattern of `ExtractJSArray` after the variable name. -/
def patternTail : Str → Option Str :=
  reStar <| reLit "=".toList <| reStar <| reLit "new".toList <| rePlus <|
  reLit "Array".toList <| reStar <| reLit "(".toList <| reLazyCapture closesArray

/-- The text of a declaration after the variable name: `=`, `new`, `Array`,
`(`, the content and `);`, with the white space `w2 .. w5` between them,
followed by the rest of the document. -/
def declTail (w2 w3 w4 w5 content post : Str) : Str :=
  w2 ++ ("=".toList ++ (w3 ++ ("new".toList ++ (w4 ++ ("Array".toList ++
    (w5 ++ ("(".toList ++ (content ++ (");".toList ++ post)))))))))

/-- The text `s` begins with a declaration `var NAME = new Array(CONTENT);` of
the variable `varName`: white space is required after `var` and `new`, allowed
around `=` and before `(`, and the content runs up to the first `);`. -/
def DeclarationAt (varName content s : Str) : Prop :=
  ∃ w1 w2 w3 w4 w5 post : Str,
    AllReSpace w1 ∧ w1 ≠ [] ∧ AllReSpace w2 ∧ AllReSpace w3 ∧ AllReSpace w4 ∧ w4 ≠ [] ∧
    AllReSpace w5 ∧ ¬ (");".toList <:+: content) ∧
    s = "var".toList ++ (w1 ++ (varName ++ declTail w2 w3 w4 w5 content post))

/-- The document holds a declaration of the variable. -/
def HasDeclaration (html varName : Str) : Prop :=
  ∃ pre content rest, html = pre ++ rest ∧ DeclarationAt varName content rest

/-- The first declaration of the variable in the document has this content:
a declaration begins after `pre`, and none at an earlier position. -/
def FirstDeclaration (html varName content : Str) : Prop :=
  ∃ pre rest, html = pre ++ rest ∧ DeclarationAt varName content rest ∧
    ∀ p q, pre = p ++ q → q ≠ [] → ∀ c, ¬ DeclarationAt varName c (q ++ rest)

/-! ### The content of an array literal -/

/-- The quote of a literal: double or single. -/
def quoteChar (dq : Bool) : Char := if dq then '"' else '\''

/-- One item of the content of an array literal, as the specification lists
them: a quoted string, a comma, a white-space character, a `//` line comment
(closed by its newline). -/
inductive Item where
  | literal (dq : Bool) (value : Str)
  | comma
  | space (c : Char)
  | comment (text : Str)

/-- The text of an item. -/
def Item.render : Item → Str
  | .literal dq v => quoteChar dq :: (v ++ [quoteChar dq])
  | .comma => [',']
  | .space c => [c]
  | .comment text => '/' :: '/' :: (text ++ ['\n'])

/-- The text of a sequence of items. -/
def renderItems : List Item → Str
  | [] => []
  | it :: its => it.render ++ renderItems its

/-- The quoted values of a sequence of items, in order. -/
def literalValues : List Item → List Str
  | [] => []
  | .literal _ v :: its => v :: literalValues its
  | _ :: its => literalValues its

/-- White space occurs in the text only as single blanks: every `\s` character
is a space and is not followed by another `\s` character. -/
def SingleSpaced : Str → Prop
  | [] => True
  | c :: cs =>
    (isReSpace c = true → c = ' ' ∧ ∀ d, cs.head? = some d → isReSpace d = false) ∧
    SingleSpaced cs

/-- The items on which the extraction is the identity: a literal is not empty,
does not hold its own quote nor `//`, and is single-spaced; a space is a `\s`
character; a comment holds no newline. -/
def Item.Valid : Item → Prop
  | .literal dq v =>
    v ≠ [] ∧ quoteChar dq ∉ v ∧ ¬ ("//".toList <:+: v) ∧ SingleSpaced v
  | .comma => True
  | .space c => isReSpace c = true
  | .comment text => '\n' ∉ text

/-- The capture groups of the match of a literal. -/
def literalGroups (dq : Bool) (v : Str) : Str × Str := if dq then ([], v) else (v, [])

/-- The matches of the quoted-literal pattern in a sequence of items. -/
def itemGroups : List Item → List (Str × Str)
  | [] => []
  | .literal dq v :: its => literalGroups dq v :: itemGroups its
  | _ :: its => itemGroups its

/-- The text holds no quote character. -/
def NoQuote (w : Str) : Prop := '\'' ∉ w ∧ '"' ∉ w

/-- The text holds a quoted literal: two quotes of the same kind. -/
def HoldsQuotedLiteral (content : Str) : Prop :=
  ∃ (q : Char) (a v b : Str), (q = '\'' ∨ q = '"') ∧ content = a ++ q :: (v ++ q :: b)

/-- The clamp of the distance as the specification words it, two steps in
sequence: if `d > 157` then `d := d - 157`; then if `d <= 0` then `d := 1`. -/
def specClamp (d : F64) : F64 :=
  let d1 := if F64.gt d (F64.ofInt 157) then F64.sub d (F64.ofInt 157) else d
  if F64.le d1 (F64.ofInt 0) then F64.ofInt 1 else d1

/-- The distance as the words of the specification compute it in exact
arithmetic on a value `v`: 0 for `v = 0`, else `d = v*1.6393 - 157`; if
`d > 157` then `d := d - 157`; then if `d <= 0` then `d := 1`; the result is
`d` truncated toward zero. -/
def exactDistance (v : ℚ) : Int :=
  if v = 0 then 0
  else
    let d := v * (16393 / 10000) - 157
    let d := if d > 157 then d - 157 else d
    let d := if d ≤ 0 then 1 else d
    if 0 ≤ d then ⌊d⌋ else ⌈d⌉

end Parser

/-! ### Identifiers -/

/-- The value of a text of decimal digits, after the digits of value `n`. -/
def decimalFrom (n : Nat) (ds : Str) : Nat :=
  ds.foldl (fun n c => n * 10 + strconv.digitVal c) n

/-- The text is made of decimal digits. -/
def AllDigits (ds : Str) : Prop := ∀ c ∈ ds, '0' ≤ c ∧ c ≤ '9'

/-- The text parses as a plain integer: an optional sign, one or more decimal
digits, and a value in the range of `int`. -/
def IsPlainInteger (p : Str) : Prop :=
  ∃ sign digits : Str, p = sign ++ digits ∧ (sign = [] ∨ sign = ['+'] ∨ sign = ['-']) ∧
    digits ≠ [] ∧ AllDigits digits ∧
    decimalFrom 0 digits ≤ (if sign = ['-'] then 2 ^ 63 else 2 ^ 63 - 1)

namespace Parser

/-- The text of a full id after its first `/`; the empty text when there is
none. -/
def afterFirstSlash (f : Str) : Str := (f.dropWhile (fun c => c != '/')).drop 1

end Parser

/-! ### The cache -/

/-- The primary key of the table of the cache: no two rows have the same
key. -/
def KeysUnique (db : gorm.DB) : Prop := (db.map (fun r => r.Key)).Nodup

instance KeysUnique.decidable (db : gorm.DB) : Decidable (KeysUnique db) :=
  inferInstanceAs (Decidable (List.Nodup (db.map (fun r : database.CacheEntry => r.Key))))

/-- The table holds no entry under the key. -/
def NoEntry (db : gorm.DB) (key : Str) : Prop := ∀ r ∈ db, r.Key ≠ key

namespace service

/-- The keys that the accesses of a run delete from the cache, in order. -/
def deletedKeys (trace : List Event) : List Str :=
  trace.filterMap (fun e => match e with | .cacheDelete k => some k | _ => none)

/-- The keys that the accesses of a run read or write in the cache, in
order. -/
def accessedKeys (trace : List Event) : List Str :=
  trace.filterMap (fun e =>
    match e with
    | .cacheGet k => some k
    | .cacheSet k _ => some k
    | _ => none)

end service

/-! ### The worker pool -/

namespace scraper

/-- The slice that the specification describes: slot `i` holds the index `i`
and the result and the error of the mapper on item `i`. -/
def expectedResults {T R E : Type} (fn : T → R × Option E) (items : List T) :
    List (BatchResult R E) :=
  items.enum.map (fun t => { Index := t.1, Result := (fn t.2).1, Error := (fn t.2).2 })

/-- The number of steps that a worker has still to take for its task. -/
def Worker.weight {T : Type} : Worker T → Nat
  | .idle => 0
  | .running _ _ => 2
  | .finishing => 1

/-- The worker holds a task that `wg` counts. -/
def Worker.busy {T : Type} : Worker T → Nat
  | .idle => 0
  | .running _ _ => 1
  | .finishing => 1

/-- The number of steps that a run of `Process` has still to take: four for an
item to submit, three for a task in the queue, the steps of the workers, and
the return. -/
def Process.measure {T R E : Type} (p : Pool T R E) : Nat :=
  4 * p.todo.length + 3 * p.taskQueue.length + (p.workers.map Worker.weight).sum +
    (if p.returned then 0 else 1)

/-- The slot of a task, as the mapper fills it. -/
def slotOf {T R E : Type} (fn : T → R × Option E) (t : Nat × T) : BatchResult R E :=
  { Index := t.1, Result := (fn t.2).1, Error := (fn t.2).2 }

/-- The states of a run of `Process` on an open pool of `W` workers: the
counter of `wg` is the number of tasks in the queue or with a worker; every
task of `items` is still to submit, or in the queue, or with a worker, or has
its slot written; and there is no other task. -/
structure Process.Inv {T R E : Type} (fn : T → R × Option E) (items : List T) (W : Nat)
    (p : Pool T R E) : Prop where
  workers : p.workers.length = W
  capacity : p.capacity = 2 * W
  isOpen : p.closed = false
  len : p.results.length = items.length
  wg : p.wg = p.taskQueue.length + (p.workers.map Worker.busy).sum
  tasks : ∀ t ∈ items.enum, t ∈ p.todo ∨ t ∈ p.taskQueue ∨
    Worker.running t.1 t.2 ∈ p.workers ∨ p.results[t.1]? = some (slotOf fn t)
  todo : ∀ t ∈ p.todo, t ∈ items.enum
  queue : ∀ t ∈ p.taskQueue, t ∈ items.enum
  running : ∀ i itm, Worker.running i itm ∈ p.workers → (i, itm) ∈ items.enum
  ret : p.returned = true → p.todo = [] ∧ p.wg = 0

/-- The writes of the slots of the tasks, in a given order. -/
def writeSlots {T R E : Type} (fn : T → R × Option E) (order : List (Nat × T))
    (results : List (BatchResult R E)) : List (BatchResult R E) :=
  order.foldl (fun rs t => rs.set t.1 { Index := t.1, Result := (fn t.2).1, Error := (fn t.2).2 })
    results

end scraper

namespace Parser

/-- The items whose literals are read in full: a literal is not empty and holds
neither its own quote nor `//` (white space in it is free); a space is a `\s`
character; a comment holds no newline. -/
def Item.Readable : Item → Prop
  | .literal dq v => v ≠ [] ∧ quoteChar dq ∉ v ∧ ¬ ("//".toList <:+: v)
  | .comma => True
  | .space c => isReSpace c = true
  | .comment text => '\n' ∉ text

/-- The matches of the quoted-literal pattern in a sequence of items after the
collapse of white space. -/
def collapsedGroups : List Item → List (Str × Str)
  | [] => []
  | .literal dq v :: its => literalGroups dq (collapseSpaces false v) :: collapsedGroups its
  | _ :: its => collapsedGroups its

end Parser

namespace service

/-- The read of the cache is a miss: `GetCache` reports no value, or the value
does not decode. -/
def CacheMiss {α : Type} (env : Env) (key : Str) (decode : Str → Option α) (st : State) :
    Prop :=
  (cacheGet env key st).1.2 = false ∨ decode (cacheGet env key st).1.1 = none

/-- The table holds under the key the value with the expiry, and the rows of the
other keys are those of the table `before`. -/
def Stored (db before : gorm.DB) (key value : Str) (expiry : Int) : Prop :=
  KeysUnique db ∧ (⟨key, value, expiry⟩ : database.CacheEntry) ∈ db ∧
  ∀ r : database.CacheEntry, r.Key ≠ key → (r ∈ db ↔ r ∈ before)

end service

namespace scraper

/-- A closed pool at rest: the flag is set, the queue is empty, the counter of
`wg` is zero and every worker is idle. -/
def Process.AtRest {T R E : Type} (p : Pool T R E) : Prop :=
  p.closed = true ∧ p.taskQueue = [] ∧ p.wg = 0 ∧ ∀ w ∈ p.workers, w = Worker.idle

end scraper

namespace service

/-- The forms that the accesses of a run post to a device, with their
endpoints, in order. -/
def postedForms (trace : List Event) : List (Str × List (Str × Str)) :=
  trace.filterMap (fun e => match e with | .post _ ep form => some (ep, form) | _ => none)

/-- The table of the actions as the specification gives it: the name of the
action and the value of `onuOperation`. -/
def actionTable : List (Str × Str) :=
  [("reboot".toList, "rebootOp".toList), ("activate".toList, "activeOp".toList),
   ("deactivate".toList, "noactiveOp".toList), ("factory".toList, "restoreOp".toList),
   ("cleanloop".toList, "cleanLoopOp".toList)]

/-- The lower case of an ASCII letter; the other characters stay. -/
def asciiLower (c : Char) : Char :=
  if 'A' ≤ c ∧ c ≤ 'Z' then Char.ofNat (c.toNat + 32) else c

end service

namespace service

/-- The requests that the accesses of a run send with `client.Get`, with their
endpoints and parameters, in order. -/
def getRequests (trace : List Event) : List (Str × List (Str × Str)) :=
  trace.filterMap (fun e => match e with | .get _ ep params => some (ep, params) | _ => none)

end service

namespace service

/-- The effective base URL as the specification gives it: the base URL without
its trailing `/`, followed by `:` and the port when the port is set and is not
80. -/
def specBaseURL (b : Str) (p : Int) : Str :=
  strings.TrimRight b "/".toList ++
    (if p > 0 ∧ p ≠ 80 then ":".toList ++ strconv.FormatInt p else [])

end service

/-! ## Lemmas: `regexp` -/



theorem reLit_append {α : Type} (p : Str) (k : Str → Option α) (t : Str) :
    reLit p k (p ++ t) = k t := by
  simp [reLit]

theorem reLit_eq_some {α : Type} {p : Str} {k : Str → Option α} {s : Str} {r : α}
    (h : reLit p k s = some r) : ∃ t, s = p ++ t ∧ k t = some r := by
  unfold reLit at h
  split at h
  · rename_i hp
    obtain ⟨t, rfl⟩ := List.isPrefixOf_iff_prefix.mp hp
    exact ⟨t, rfl, by simpa using h⟩
  · cases h

theorem reStar_sound {α : Type} {k : Str → Option α} :
    ∀ {s : Str} {r : α}, reStar k s = some r →
      ∃ w t, s = w ++ t ∧ AllReSpace w ∧ k t = some r := by
  intro s
  induction s with
  | nil => intro r h; exact ⟨[], [], rfl, by simp [AllReSpace], h⟩
  | cons c cs ih =>
    intro r h
    unfold reStar at h
    split at h
    · rename_i hc
      cases hrec : reStar k cs with
      | some r' =>
        rw [hrec] at h
        obtain ⟨w, t, rfl, hw, hk⟩ := ih hrec
        refine ⟨c :: w, t, rfl, ?_, ?_⟩
        · intro x hx
          rcases List.mem_cons.mp hx with rfl | hx
          · exact hc
          · exact hw x hx
        · simpa using h ▸ hk
      | none =>
        rw [hrec] at h
        exact ⟨[], c :: cs, rfl, by simp [AllReSpace], h⟩
    · exact ⟨[], c :: cs, rfl, by simp [AllReSpace], h⟩

theorem reStar_complete {α : Type} {k : Str → Option α} :
    ∀ (w t : Str), AllReSpace w → (k t).isSome → (reStar k (w ++ t)).isSome := by
  intro w
  induction w with
  | nil =>
    intro t _ hk
    cases t with
    | nil => simpa [reStar] using hk
    | cons c cs =>
      simp only [List.nil_append]
      unfold reStar
      split
      · cases hrec : reStar k cs with
        | some r' => simp
        | none => simpa using hk
      · exact hk
  | cons c w ih =>
    intro t hw hk
    have hc : isReSpace c = true := hw c (List.mem_cons_self _ _)
    have := ih t (fun x hx => hw x (List.mem_cons_of_mem _ hx)) hk
    simp only [List.cons_append]
    unfold reStar
    simp only [hc, if_true]
    cases hrec : reStar k (w ++ t) with
    | some r' => simp
    | none => rw [hrec] at this; cases this

theorem rePlus_sound {α : Type} {k : Str → Option α} {s : Str} {r : α}
    (h : rePlus k s = some r) :
    ∃ w t, s = w ++ t ∧ AllReSpace w ∧ w ≠ [] ∧ k t = some r := by
  cases s with
  | nil => cases h
  | cons c cs =>
    by_cases hc : isReSpace c = true
    · simp only [rePlus, hc, if_true] at h
      obtain ⟨w, t, rfl, hw, hk⟩ := reStar_sound h
      refine ⟨c :: w, t, rfl, ?_, by simp, hk⟩
      intro x hx
      rcases List.mem_cons.mp hx with rfl | hx
      · exact hc
      · exact hw x hx
    · simp [rePlus, hc] at h

theorem rePlus_complete {α : Type} {k : Str → Option α} (w t : Str)
    (hw : AllReSpace w) (hne : w ≠ []) (hk : (k t).isSome) : (rePlus k (w ++ t)).isSome := by
  cases w with
  | nil => exact absurd rfl hne
  | cons c w =>
    have hc : isReSpace c = true := hw c (List.mem_cons_self _ _)
    simp only [List.cons_append, rePlus, hc, if_true]
    exact reStar_complete w t (fun x hx => hw x (List.mem_cons_of_mem _ hx)) hk

theorem reStar_dropWhile {α : Type} {k : Str → Option α} (hk : RejectsSpace k) :
    ∀ s : Str, reStar k s = k (s.dropWhile isReSpace) := by
  intro s
  induction s with
  | nil => rfl
  | cons c cs ih =>
    unfold reStar
    by_cases hc : isReSpace c = true
    · simp only [hc, if_true, List.dropWhile_cons_of_pos]
      rw [ih, hk c cs hc]
      cases k (List.dropWhile isReSpace cs) <;> rfl
    · rw [List.dropWhile_cons_of_neg hc]
      simp [hc]

theorem reLit_rejectsSpace {α : Type} (c : Char) (p : Str) (k : Str → Option α)
    (hc : isReSpace c = false) : RejectsSpace (reLit (c :: p) k) := by
  intro x xs hx
  have : x ≠ c := by rintro rfl; rw [hx] at hc; cases hc
  simp [reLit, List.isPrefixOf, this.symm]

theorem dropWhile_reSpace_append (w t : Str) (hw : AllReSpace w) :
    (w ++ t).dropWhile isReSpace = t.dropWhile isReSpace := by
  induction w with
  | nil => rfl
  | cons c w ih =>
    have hc : isReSpace c = true := hw c (List.mem_cons_self _ _)
    simp only [List.cons_append, List.dropWhile_cons_of_pos hc]
    exact ih (fun x hx => hw x (List.mem_cons_of_mem _ hx))

theorem dropWhile_append_of_mem_not {p : Char → Bool} (l r : Str)
    (h : ∃ x ∈ l, ¬ p x = true) : (l ++ r).dropWhile p = l.dropWhile p ++ r := by
  induction l with
  | nil => simp at h
  | cons c l ih =>
    by_cases hc : p c = true
    · simp only [List.cons_append, List.dropWhile_cons_of_pos hc]
      apply ih
      obtain ⟨x, hx, hpx⟩ := h
      rcases List.mem_cons.mp hx with rfl | hx
      · exact absurd hc hpx
      · exact ⟨x, hx, hpx⟩
    · simp only [List.cons_append, List.dropWhile_cons_of_neg hc]

/-- Where the two readings of `\s+NAME\s*` of one text end, up to white space. -/
theorem name_split_unique (name a b r r' : Str) (ha : AllReSpace a) (hb : AllReSpace b)
    (h : a ++ (name ++ r) = b ++ (name ++ r')) :
    r.dropWhile isReSpace = r'.dropWhile isReSpace := by
  have h1 := congrArg (List.dropWhile isReSpace) h
  rw [dropWhile_reSpace_append a _ ha, dropWhile_reSpace_append b _ hb] at h1
  by_cases hn : AllReSpace name
  · rwa [dropWhile_reSpace_append name _ hn, dropWhile_reSpace_append name _ hn] at h1
  · have hex : ∃ x ∈ name, ¬ isReSpace x = true := by
      simpa [AllReSpace] using hn
    rw [dropWhile_append_of_mem_not name r hex,
      dropWhile_append_of_mem_not name r' hex] at h1
    rw [List.append_cancel_left h1]

theorem reLazyCapture_sound {k : Str → Bool} :
    ∀ {s c : Str}, reLazyCapture k s = some c →
      ∃ t, s = c ++ t ∧ k t = true ∧
        ∀ c1 c2, c = c1 ++ c2 → c2 ≠ [] → k (c2 ++ t) = false := by
  intro s
  induction s with
  | nil =>
    intro c h
    by_cases hk : k [] = true
    · simp only [reLazyCapture, hk, if_true, Option.some.injEq] at h
      subst h
      refine ⟨[], rfl, hk, ?_⟩
      intro c1 c2 e hne
      simp at e
      exact absurd e.2 hne
    · simp [reLazyCapture, hk] at h
  | cons x xs ih =>
    intro c h
    by_cases hk : k (x :: xs) = true
    · simp only [reLazyCapture, hk, if_true, Option.some.injEq] at h
      subst h
      refine ⟨x :: xs, rfl, hk, ?_⟩
      intro c1 c2 e hne
      simp at e
      exact absurd e.2 hne
    · simp only [reLazyCapture, hk] at h
      cases hrec : reLazyCapture k xs with
      | none => simp [hrec] at h
      | some c' =>
        simp only [hrec, Option.map_some', Option.some.injEq, if_false, Bool.false_eq_true] at h
        subst h
        obtain ⟨t, rfl, hkt, hmin⟩ := ih hrec
        refine ⟨t, rfl, hkt, ?_⟩
        intro c1 c2 e hne
        cases c1 with
        | nil =>
          simp only [List.nil_append] at e
          subst e
          simpa using hk
        | cons y c1 =>
          simp only [List.cons_append, List.cons.injEq] at e
          exact hmin c1 c2 e.2 hne

theorem reLazyCapture_exact {k : Str → Bool} (t : Str) (hk : k t = true) :
    ∀ c : Str, (∀ c1 c2, c = c1 ++ c2 → c2 ≠ [] → k (c2 ++ t) = false) →
      reLazyCapture k (c ++ t) = some c := by
  intro c
  induction c with
  | nil =>
    intro _
    cases t with
    | nil => simp [reLazyCapture, hk]
    | cons x xs => simp [reLazyCapture, hk]
  | cons x c ih =>
    intro hmin
    have h1 : k (x :: (c ++ t)) = false := by
      simpa using hmin [] (x :: c) rfl (by simp)
    have h2 := ih (fun c1 c2 e hne => hmin (x :: c1) c2 (by simp [e]) hne)
    simp [reLazyCapture, h1, h2]

theorem Parser.closesArray_minimal (c post : Str) (h : ¬ (");".toList <:+: c)) :
    ∀ c1 c2, c = c1 ++ c2 → c2 ≠ [] → Parser.closesArray (c2 ++ (");".toList ++ post)) = false := by
  intro c1 c2 e hne
  cases c2 with
  | nil => exact absurd rfl hne
  | cons x c2 =>
    cases c2 with
    | nil =>
      simp [Parser.closesArray, List.isPrefixOf]
    | cons y c2 =>
      by_contra hc
      simp only [Parser.closesArray, Bool.not_eq_false] at hc
      have hu := List.isPrefixOf_iff_prefix.mp hc
      obtain ⟨u, hu⟩ := hu
      simp at hu
      apply h
      refine ⟨c1, c2, ?_⟩
      rw [e, ← hu.1, ← hu.2.1]
      simp

theorem Parser.closesArray_minimal_conv (c t : Str)
    (hmin : ∀ c1 c2, c = c1 ++ c2 → c2 ≠ [] → Parser.closesArray (c2 ++ t) = false) :
    ¬ (");".toList <:+: c) := by
  rintro ⟨a, b, e⟩
  have := hmin a (");".toList ++ b) (by simp [← e]) (by simp)
  simp [Parser.closesArray, List.isPrefixOf] at this

theorem reStar_lit {α : Type} (c : Char) (p w t : Str) (k : Str → Option α)
    (hc : isReSpace c = false) (hw : AllReSpace w) :
    reStar (reLit (c :: p) k) (w ++ ((c :: p) ++ t)) = k t := by
  rw [reStar_dropWhile (reLit_rejectsSpace c p k hc), dropWhile_reSpace_append w _ hw,
    List.cons_append, List.dropWhile_cons_of_neg (by simp [hc]), ← List.cons_append,
    reLit_append]

theorem rePlus_lit {α : Type} (c : Char) (p w t : Str) (k : Str → Option α)
    (hc : isReSpace c = false) (hw : AllReSpace w) (hne : w ≠ []) :
    rePlus (reLit (c :: p) k) (w ++ ((c :: p) ++ t)) = k t := by
  cases w with
  | nil => exact absurd rfl hne
  | cons x w =>
    have hx : isReSpace x = true := hw x (List.mem_cons_self _ _)
    simp only [List.cons_append, rePlus, hx, if_true]
    exact reStar_lit c p w t k hc (fun y hy => hw y (List.mem_cons_of_mem _ hy))

namespace Parser

theorem declPattern_eq (varName : Str) :
    declPattern varName = reLit "var".toList (rePlus (reLit varName patternTail)) := rfl

theorem patternTail_exact (w2 w3 w4 w5 content post : Str)
    (h2 : AllReSpace w2) (h3 : AllReSpace w3) (h4 : AllReSpace w4) (h4n : w4 ≠ [])
    (h5 : AllReSpace w5) (hc : ¬ (");".toList <:+: content)) :
    patternTail (declTail w2 w3 w4 w5 content post) = some content := by
  unfold patternTail declTail
  show reStar (reLit ('=' :: []) _) (w2 ++ (('=' :: []) ++ _)) = _
  rw [reStar_lit '=' [] w2 _ _ rfl h2]
  show reStar (reLit ('n' :: ['e', 'w']) _) (w3 ++ (('n' :: ['e', 'w']) ++ _)) = _
  rw [reStar_lit 'n' _ w3 _ _ rfl h3]
  show rePlus (reLit ('A' :: ['r', 'r', 'a', 'y']) _) (w4 ++ (('A' :: ['r', 'r', 'a', 'y']) ++ _)) = _
  rw [rePlus_lit 'A' _ w4 _ _ rfl h4 h4n]
  show reStar (reLit ('(' :: []) _) (w5 ++ (('(' :: []) ++ _)) = _
  rw [reStar_lit '(' [] w5 _ _ rfl h5]
  exact reLazyCapture_exact _ (by simp [closesArray]) content
    (closesArray_minimal content post hc)

theorem patternTail_sound {r content : Str} (h : patternTail r = some content) :
    ∃ w2 w3 w4 w5 post : Str,
      AllReSpace w2 ∧ AllReSpace w3 ∧ AllReSpace w4 ∧ w4 ≠ [] ∧ AllReSpace w5 ∧
      ¬ (");".toList <:+: content) ∧ r = declTail w2 w3 w4 w5 content post := by
  unfold patternTail at h
  obtain ⟨w2, t2, rfl, h2, ha⟩ := reStar_sound h
  obtain ⟨u2, rfl, hb⟩ := reLit_eq_some ha
  obtain ⟨w3, t3, rfl, h3, hc⟩ := reStar_sound hb
  obtain ⟨u3, rfl, hd⟩ := reLit_eq_some hc
  obtain ⟨w4, t4, rfl, h4, h4n, he⟩ := rePlus_sound hd
  obtain ⟨u4, rfl, hf⟩ := reLit_eq_some he
  obtain ⟨w5, t5, rfl, h5, hg⟩ := reStar_sound hf
  obtain ⟨u5, rfl, hh⟩ := reLit_eq_some hg
  obtain ⟨t, rfl, hk, hmin⟩ := reLazyCapture_sound hh
  obtain ⟨post, rfl⟩ := List.isPrefixOf_iff_prefix.mp hk
  exact ⟨w2, w3, w4, w5, post, h2, h3, h4, h4n, h5,
    closesArray_minimal_conv content _ hmin, rfl⟩

theorem patternTail_dropWhile (r : Str) :
    patternTail r = patternTail (r.dropWhile isReSpace) := by
  unfold patternTail
  show reStar (reLit ('=' :: []) _) _ = reStar (reLit ('=' :: []) _) _
  rw [reStar_dropWhile (reLit_rejectsSpace '=' [] _ rfl),
    reStar_dropWhile (reLit_rejectsSpace '=' [] _ rfl), List.dropWhile_idempotent]

/-- The pattern of `ExtractJSArray` matches at the start of a text, with
capture `content`, exactly when the text begins with a declaration of the
variable with that content. -/
theorem declPattern_iff (varName content s : Str) :
    declPattern varName s = some content ↔ DeclarationAt varName content s := by
  rw [declPattern_eq]
  constructor
  · intro h
    obtain ⟨t, rfl, ha⟩ := reLit_eq_some h
    obtain ⟨w1, t1, rfl, h1, h1n, hb⟩ := rePlus_sound ha
    obtain ⟨u1, rfl, hd⟩ := reLit_eq_some hb
    obtain ⟨w2, w3, w4, w5, post, h2, h3, h4, h4n, h5, hc, rfl⟩ := patternTail_sound hd
    exact ⟨w1, w2, w3, w4, w5, post, h1, h1n, h2, h3, h4, h4n, h5, hc, rfl⟩
  · rintro ⟨w1, w2, w3, w4, w5, post, h1, h1n, h2, h3, h4, h4n, h5, hc, rfl⟩
    rw [reLit_append]
    have hex := patternTail_exact w2 w3 w4 w5 content post h2 h3 h4 h4n h5 hc
    have hsome : (rePlus (reLit varName patternTail)
        (w1 ++ (varName ++ declTail w2 w3 w4 w5 content post))).isSome :=
      rePlus_complete w1 _ h1 h1n (by rw [reLit_append, hex]; rfl)
    obtain ⟨c', hc'⟩ := Option.isSome_iff_exists.mp hsome
    rw [hc']
    obtain ⟨w, t, e, hw, _, hk⟩ := rePlus_sound hc'
    obtain ⟨r', rfl, hk'⟩ := reLit_eq_some hk
    have hu := name_split_unique varName w1 w _ r' h1 hw e
    rw [patternTail_dropWhile, ← hu, ← patternTail_dropWhile, hex] at hk'
    exact hk'.symm

end Parser

theorem reFindFirst_eq_none {α : Type} {m : Str → Option α} :
    ∀ {s : Str}, reFindFirst m s = none ↔ ∀ pre rest, s = pre ++ rest → m rest = none := by
  intro s
  induction s with
  | nil =>
    constructor
    · intro h pre rest e
      have : rest = [] := by
        have := congrArg List.length e
        simp at this
        exact List.length_eq_zero.mp (by omega)
      subst this
      exact h
    · intro h
      exact h [] [] rfl
  | cons c cs ih =>
    constructor
    · intro h pre rest e
      unfold reFindFirst at h
      cases hm : m (c :: cs) with
      | some r => rw [hm] at h; cases h
      | none =>
        rw [hm] at h
        cases pre with
        | nil => simp at e; rw [← e]; exact hm
        | cons x pre =>
          simp only [List.cons_append, List.cons.injEq] at e
          exact ih.mp h pre rest e.2
    · intro h
      unfold reFindFirst
      rw [h [] (c :: cs) rfl]
      exact ih.mpr (fun pre rest e => h (c :: pre) rest (by simp [e]))

theorem reFindFirst_eq_some {α : Type} {m : Str → Option α} :
    ∀ {s : Str} {r : α}, reFindFirst m s = some r ↔
      ∃ pre rest, s = pre ++ rest ∧ m rest = some r ∧
        ∀ p q, pre = p ++ q → q ≠ [] → m (q ++ rest) = none := by
  intro s
  induction s with
  | nil =>
    intro r
    constructor
    · intro h
      refine ⟨[], [], rfl, h, ?_⟩
      intro p q e hq
      simp at e
      exact absurd e.2 hq
    · rintro ⟨pre, rest, e, h, _⟩
      have : rest = [] := by
        have := congrArg List.length e
        simp at this
        exact List.length_eq_zero.mp (by omega)
      subst this
      exact h
  | cons c cs ih =>
    intro r
    constructor
    · intro h
      unfold reFindFirst at h
      cases hm : m (c :: cs) with
      | some r' =>
        rw [hm] at h
        refine ⟨[], c :: cs, rfl, by rw [hm]; exact h, ?_⟩
        intro p q e hq
        simp at e
        exact absurd e.2 hq
      | none =>
        rw [hm] at h
        obtain ⟨pre, rest, rfl, hr, hmin⟩ := ih.mp h
        refine ⟨c :: pre, rest, rfl, hr, ?_⟩
        intro p q e hq
        cases p with
        | nil => simp at e; rw [← e]; exact hm
        | cons x p =>
          simp only [List.cons_append, List.cons.injEq] at e
          exact hmin p q e.2 hq
    · rintro ⟨pre, rest, e, hr, hmin⟩
      unfold reFindFirst
      cases pre with
      | nil =>
        simp only [List.nil_append] at e
        rw [e, hr]
      | cons x pre =>
        simp only [List.cons_append, List.cons.injEq] at e
        obtain ⟨rfl, rfl⟩ := e
        have h0 := hmin [] (c :: pre) rfl (by simp)
        simp only [List.cons_append] at h0
        rw [h0]
        exact ih.mpr ⟨pre, rest, rfl, hr, fun p q e hq => hmin (c :: p) q (by simp [e]) hq⟩

namespace Parser

theorem stripComments_false_cons (c : Char) (cs : Str) :
    stripComments false (c :: cs) =
      if c = '/' ∧ cs.head? = some '/' then stripComments true cs
      else c :: stripComments false cs := by
  rw [stripComments]

theorem stripComments_true_cons (c : Char) (cs : Str) :
    stripComments true (c :: cs) =
      if c = '\n' then c :: stripComments false cs else stripComments true cs := by
  rw [stripComments]

theorem collapseSpaces_cons (inRun : Bool) (c : Char) (cs : Str) :
    collapseSpaces inRun (c :: cs) =
      if isReSpace c then
        if inRun then collapseSpaces true cs else ' ' :: collapseSpaces true cs
      else c :: collapseSpaces false cs := by
  rw [collapseSpaces]

theorem stripComments_text :
    ∀ (v : Str), ¬ ("//".toList <:+: v) → ∀ (c : Char) (rest : Str), c ≠ '/' →
      stripComments false (v ++ c :: rest) = v ++ stripComments false (c :: rest) := by
  intro v
  induction v with
  | nil => intro _ c rest _; rfl
  | cons x v ih =>
    intro hv c rest hc
    have hv' : ¬ ("//".toList <:+: v) := fun ⟨a, b, e⟩ => hv ⟨x :: a, b, by simp [← e]⟩
    have hcond : ¬ (x = '/' ∧ (v ++ c :: rest).head? = some '/') := by
      rintro ⟨rfl, hh⟩
      cases v with
      | nil => simp at hh; exact hc hh
      | cons y v =>
        simp at hh
        subst hh
        exact hv ⟨[], v, rfl⟩
    rw [List.cons_append, stripComments_false_cons, if_neg hcond, ih hv' c rest hc,
      List.cons_append]

theorem stripComments_comment :
    ∀ (text : Str), '\n' ∉ text → ∀ (rest : Str),
      stripComments true (text ++ '\n' :: rest) = '\n' :: stripComments false rest := by
  intro text
  induction text with
  | nil => intro _ rest; simp [stripComments]
  | cons x t ih =>
    intro h rest
    have hx : x ≠ '\n' := fun e => h (e ▸ List.mem_cons_self _ _)
    rw [List.cons_append, stripComments_true_cons, if_neg hx]
    exact ih (fun hm => h (List.mem_cons_of_mem _ hm)) rest

theorem collapseSpaces_text :
    ∀ (v : Str), SingleSpaced v → ∀ (inRun : Bool) (c : Char) (rest : Str),
      isReSpace c = false →
      (inRun = true → ∀ d, v.head? = some d → isReSpace d = false) →
      collapseSpaces inRun (v ++ c :: rest) = v ++ c :: collapseSpaces false rest := by
  intro v
  induction v with
  | nil =>
    intro _ inRun c rest hc _
    simp [collapseSpaces, hc]
  | cons x v ih =>
    intro hv inRun c rest hc hrun
    obtain ⟨hx, hv'⟩ := hv
    by_cases hxs : isReSpace x = true
    · obtain ⟨rfl, hnext⟩ := hx hxs
      have hfl : inRun = false := by
        cases inRun with
        | false => rfl
        | true => have := hrun rfl ' ' rfl; rw [hxs] at this; cases this
      subst hfl
      rw [List.cons_append, collapseSpaces_cons, if_pos hxs, if_neg (by simp),
        ih hv' true c rest hc (fun _ => hnext), List.cons_append]
    · rw [List.cons_append, collapseSpaces_cons, if_neg hxs,
        ih hv' false c rest hc (fun h => by cases h), List.cons_append]

theorem untilQuote_closed (q : Char) :
    ∀ (v : Str), q ∉ v → ∀ rest, untilQuote q (v ++ q :: rest) = some v := by
  intro v
  induction v with
  | nil => intro _ rest; simp [untilQuote]
  | cons x v ih =>
    intro h rest
    have hx : x ≠ q := fun e => h (e ▸ List.mem_cons_self _ _)
    simp [untilQuote, hx, ih (fun hm => h (List.mem_cons_of_mem _ hm)) rest]

theorem findAllQuoted_skip :
    ∀ (a s : Str), findAllQuoted a.length (a ++ s) = findAllQuoted 0 s := by
  intro a
  induction a with
  | nil => intro s; rfl
  | cons x a ih => intro s; simpa [findAllQuoted] using ih s

theorem findAllQuoted_other (c : Char) (s : Str) (h1 : c ≠ '\'') (h2 : c ≠ '"') :
    findAllQuoted 0 (c :: s) = findAllQuoted 0 s := by
  simp [findAllQuoted, quotedAt, h1, h2]

theorem findAllQuoted_literal (dq : Bool) (v s : Str) (h : quoteChar dq ∉ v) :
    findAllQuoted 0 (quoteChar dq :: (v ++ quoteChar dq :: s)) =
      literalGroups dq v :: findAllQuoted 0 s := by
  have hu := untilQuote_closed (quoteChar dq) v h s
  have hs := findAllQuoted_skip (v ++ [quoteChar dq]) s
  simp only [List.length_append, List.length_singleton, List.append_assoc,
    List.singleton_append] at hs
  cases dq with
  | false =>
    simp only [quoteChar, Bool.false_eq_true, if_false] at hu hs ⊢
    simp [findAllQuoted, quotedAt, hu, literalGroups, hs]
  | true =>
    simp only [quoteChar, if_true] at hu hs ⊢
    simp [findAllQuoted, quotedAt, hu, literalGroups, hs]

theorem isReSpace_not_quote {c : Char} (h : isReSpace c = true) :
    c ≠ '\'' ∧ c ≠ '"' ∧ c ≠ '/' := by
  refine ⟨?_, ?_, ?_⟩ <;> rintro rfl <;> revert h <;> decide

/-- The matches found in the content of valid items, after the removal of
comments and the collapse of white space. -/
theorem findAllQuoted_items :
    ∀ (items : List Item), (∀ it ∈ items, it.Valid) → ∀ (inRun : Bool),
      findAllQuoted 0 (collapseSpaces inRun (stripComments false (renderItems items))) =
        itemGroups items := by
  intro items
  induction items with
  | nil => intro _ inRun; cases inRun <;> rfl
  | cons it its ih =>
    intro hv inRun
    have hits : ∀ it ∈ its, it.Valid := fun x hx => hv x (List.mem_cons_of_mem _ hx)
    have hit : it.Valid := hv it (List.mem_cons_self _ _)
    cases it with
    | comma =>
      simp only [renderItems, Item.render, List.singleton_append, itemGroups]
      have h1 : stripComments false (',' :: renderItems its) =
          ',' :: stripComments false (renderItems its) := by
        simp [stripComments]
      rw [h1]
      have h2 : collapseSpaces inRun (',' :: stripComments false (renderItems its)) =
          ',' :: collapseSpaces false (stripComments false (renderItems its)) := by
        simp [collapseSpaces, isReSpace]
      rw [h2, findAllQuoted_other _ _ (by decide) (by decide)]
      exact ih hits false
    | space c =>
      have hc : isReSpace c = true := hit
      obtain ⟨q1, q2, q3⟩ := isReSpace_not_quote hc
      simp only [renderItems, Item.render, List.singleton_append, itemGroups]
      have h1 : stripComments false (c :: renderItems its) =
          c :: stripComments false (renderItems its) := by
        simp [stripComments, q3]
      rw [h1]
      cases inRun with
      | true =>
        simp only [collapseSpaces, hc, if_true]
        exact ih hits true
      | false =>
        simp only [collapseSpaces, hc, if_true, Bool.false_eq_true, if_false]
        rw [findAllQuoted_other _ _ (by decide) (by decide)]
        exact ih hits true
    | comment text =>
      have ht : '\n' ∉ text := hit
      simp only [renderItems, Item.render, itemGroups, List.cons_append, List.append_assoc,
        List.singleton_append, List.nil_append]
      have h1 : stripComments false ('/' :: '/' :: (text ++ '\n' :: renderItems its)) =
          '\n' :: stripComments false (renderItems its) := by
        have := stripComments_comment text ht (renderItems its)
        simp [stripComments, this]
      rw [h1]
      have hc : isReSpace '\n' = true := by decide
      cases inRun with
      | true =>
        simp only [collapseSpaces, hc, if_true]
        exact ih hits true
      | false =>
        simp only [collapseSpaces, hc, if_true, Bool.false_eq_true, if_false]
        rw [findAllQuoted_other _ _ (by decide) (by decide)]
        exact ih hits true
    | literal dq v =>
      obtain ⟨_, hq, hsl, hsp⟩ := hit
      have hqs : quoteChar dq ≠ '/' := by cases dq <;> decide
      have hqw : isReSpace (quoteChar dq) = false := by cases dq <;> decide
      simp only [renderItems, Item.render, itemGroups, List.cons_append, List.append_assoc,
        List.singleton_append, List.nil_append]
      have h1 : stripComments false (quoteChar dq :: (v ++ quoteChar dq :: renderItems its)) =
          quoteChar dq :: (v ++ quoteChar dq :: stripComments false (renderItems its)) := by
        have e1 := stripComments_text v hsl (quoteChar dq) (renderItems its) hqs
        simp [stripComments, hqs, e1]
      rw [h1]
      have h2 : collapseSpaces inRun
          (quoteChar dq :: (v ++ quoteChar dq :: stripComments false (renderItems its))) =
          quoteChar dq ::
            (v ++ quoteChar dq :: collapseSpaces false (stripComments false (renderItems its))) := by
        have e2 := collapseSpaces_text v hsp false (quoteChar dq)
          (stripComments false (renderItems its)) hqw (fun h => by cases h)
        simp [collapseSpaces, hqw, e2]
      rw [h2, findAllQuoted_literal dq v _ hq, ih hits false]

end Parser

namespace Parser

theorem untilQuote_eq_none (q : Char) : ∀ (w : Str), q ∉ w → untilQuote q w = none := by
  intro w
  induction w with
  | nil => intro _; rfl
  | cons x w ih =>
    intro h
    have hx : x ≠ q := fun e => h (e ▸ List.mem_cons_self _ _)
    simp [untilQuote, hx, ih (fun hm => h (List.mem_cons_of_mem _ hm))]

theorem untilQuote_append (q : Char) (w : Str) (hw : q ∉ w) :
    ∀ (cs : Str), untilQuote q (cs ++ w) = untilQuote q cs := by
  intro cs
  induction cs with
  | nil => simpa [untilQuote] using untilQuote_eq_none q w hw
  | cons x cs ih =>
    by_cases hx : x = q
    · simp [untilQuote, hx]
    · simp [untilQuote, hx, ih]

theorem quotedAt_append (w : Str) (hw : NoQuote w) (c : Char) (cs : Str) :
    quotedAt (c :: (cs ++ w)) = quotedAt (c :: cs) := by
  simp only [quotedAt, untilQuote_append _ w hw.1, untilQuote_append _ w hw.2]

theorem findAllQuoted_noQuote : ∀ (w : Str), NoQuote w → ∀ n, findAllQuoted n w = [] := by
  intro w
  induction w with
  | nil => intro _ n; cases n <;> rfl
  | cons x w ih =>
    intro h n
    have hw : NoQuote w :=
      ⟨fun hm => h.1 (List.mem_cons_of_mem _ hm), fun hm => h.2 (List.mem_cons_of_mem _ hm)⟩
    have h1 : x ≠ '\'' := fun e => h.1 (e ▸ List.mem_cons_self _ _)
    have h2 : x ≠ '"' := fun e => h.2 (e ▸ List.mem_cons_self _ _)
    cases n with
    | zero => simp [findAllQuoted, quotedAt, h1, h2, ih hw]
    | succ n => simp [findAllQuoted, ih hw]

theorem findAllQuoted_append (w : Str) (hw : NoQuote w) :
    ∀ (s : Str) (n : Nat), findAllQuoted n (s ++ w) = findAllQuoted n s := by
  intro s
  induction s with
  | nil => intro n; rw [List.nil_append, findAllQuoted_noQuote w hw]; cases n <;> rfl
  | cons c cs ih =>
    intro n
    cases n with
    | succ n => simp [findAllQuoted, ih]
    | zero =>
      rw [List.cons_append, findAllQuoted, findAllQuoted, quotedAt_append w hw]
      cases quotedAt (c :: cs) with
      | none => simp [ih]
      | some r => simp [ih]

theorem isUnicodeSpace_not_quote {c : Char} (h : isUnicodeSpace c = true) :
    c ≠ '\'' ∧ c ≠ '"' := by
  refine ⟨?_, ?_⟩ <;> rintro rfl <;> revert h <;> decide

theorem findAllQuoted_dropWhile : ∀ (s : Str),
    findAllQuoted 0 (s.dropWhile isUnicodeSpace) = findAllQuoted 0 s := by
  intro s
  induction s with
  | nil => rfl
  | cons c cs ih =>
    by_cases hc : isUnicodeSpace c = true
    · obtain ⟨h1, h2⟩ := isUnicodeSpace_not_quote hc
      rw [List.dropWhile_cons_of_pos hc, ih, findAllQuoted_other c cs h1 h2]
    · rw [List.dropWhile_cons_of_neg hc]

/-- Trimming with `strings.TrimSpace` does not change the matches of the quoted-literal
pattern: a quote is not white space. -/
theorem findAllQuoted_trimSpace (s : Str) :
    findAllQuoted 0 (TrimSpace s) = findAllQuoted 0 s := by
  unfold TrimSpace
  rw [← findAllQuoted_dropWhile s]
  generalize s.dropWhile isUnicodeSpace = t
  have hsplit : t = (t.reverse.dropWhile isUnicodeSpace).reverse ++
      (t.reverse.takeWhile isUnicodeSpace).reverse := by
    rw [← List.reverse_append, List.takeWhile_append_dropWhile, List.reverse_reverse]
  have hw : NoQuote (t.reverse.takeWhile isUnicodeSpace).reverse := by
    constructor <;> intro hm <;> rw [List.mem_reverse] at hm
    · exact (isUnicodeSpace_not_quote (List.mem_takeWhile_imp hm)).1 rfl
    · exact (isUnicodeSpace_not_quote (List.mem_takeWhile_imp hm)).2 rfl
  conv_rhs => rw [hsplit]
  rw [findAllQuoted_append _ hw]

theorem foldl_appendMatch_items :
    ∀ (items : List Item), (∀ it ∈ items, it.Valid) → ∀ (acc : List Str),
      (itemGroups items).foldl appendMatch acc = acc ++ literalValues items := by
  intro items
  induction items with
  | nil => intro _ acc; simp [itemGroups, literalValues]
  | cons it its ih =>
    intro hv acc
    have hits : ∀ it ∈ its, it.Valid := fun x hx => hv x (List.mem_cons_of_mem _ hx)
    have hit : it.Valid := hv it (List.mem_cons_self _ _)
    cases it with
    | comma => simpa [itemGroups, literalValues] using ih hits acc
    | space c => simpa [itemGroups, literalValues] using ih hits acc
    | comment t => simpa [itemGroups, literalValues] using ih hits acc
    | literal dq v =>
      obtain ⟨hne, _⟩ := hit
      simp only [itemGroups, literalValues, List.foldl_cons]
      rw [ih hits]
      cases dq <;> simp [appendMatch, literalGroups, hne]

/-- The fields read from a content made of valid items are the values of its
literals, in order. -/
theorem parseArrayContent_items (items : List Item) (hv : ∀ it ∈ items, it.Valid) :
    parseArrayContent (renderItems items) = literalValues items := by
  unfold parseArrayContent
  simp only
  rw [findAllQuoted_trimSpace, findAllQuoted_items items hv false,
    foldl_appendMatch_items items hv, List.nil_append]

theorem reFindFirst_declPattern (html varName content : Str) :
    reFindFirst (declPattern varName) html = some content ↔
      FirstDeclaration html varName content := by
  rw [reFindFirst_eq_some]
  constructor
  · rintro ⟨pre, rest, e, h, hmin⟩
    refine ⟨pre, rest, e, (declPattern_iff _ _ _).mp h, ?_⟩
    intro p q hp hq c hd
    have := hmin p q hp hq
    rw [(declPattern_iff _ _ _).mpr hd] at this
    cases this
  · rintro ⟨pre, rest, e, h, hmin⟩
    refine ⟨pre, rest, e, (declPattern_iff _ _ _).mpr h, ?_⟩
    intro p q hp hq
    cases hm : declPattern varName (q ++ rest) with
    | none => rfl
    | some c => exact absurd ((declPattern_iff _ _ _).mp hm) (hmin p q hp hq c)

theorem extractJSArray_of_first {html varName content : Str}
    (h : FirstDeclaration html varName content) :
    ExtractJSArray html varName = .ok (parseArrayContent content) := by
  unfold ExtractJSArray
  rw [(reFindFirst_declPattern html varName content).mpr h]

theorem extractJSArray_error_iff (html varName : Str) :
    ExtractJSArray html varName = .error (.notFound varName) ↔
      ¬ HasDeclaration html varName := by
  unfold ExtractJSArray
  constructor
  · intro h
    cases hm : reFindFirst (declPattern varName) html with
    | some c => rw [hm] at h; cases h
    | none =>
      rintro ⟨pre, content, rest, e, hd⟩
      have := reFindFirst_eq_none.mp hm pre rest e
      rw [(declPattern_iff _ _ _).mpr hd] at this
      cases this
  · intro h
    cases hm : reFindFirst (declPattern varName) html with
    | none => rfl
    | some c =>
      obtain ⟨pre, rest, e, hd, _⟩ := (reFindFirst_declPattern _ _ _).mp hm
      exact absurd ⟨pre, c, rest, e, hd⟩ h

end Parser

namespace Parser

theorem count_le_one_of_not_holds (q : Char) (hq : q = '\'' ∨ q = '"') :
    ∀ (s : Str), ¬ HoldsQuotedLiteral s → s.count q ≤ 1 := by
  intro s
  induction s with
  | nil => intro _; simp
  | cons c cs ih =>
    intro h
    have hcs : ¬ HoldsQuotedLiteral cs := by
      rintro ⟨q', a, v, b, hq', e⟩
      exact h ⟨q', c :: a, v, b, hq', by simp [e]⟩
    by_cases hc : c = q
    · subst hc
      have : c ∉ cs := by
        intro hm
        obtain ⟨v, b, e⟩ := List.append_of_mem hm
        exact h ⟨c, [], v, b, hq, by simp [e]⟩
      simp [List.count_cons, List.count_eq_zero_of_not_mem this]
    · have := ih hcs
      simp [List.count_cons, hc]
      exact this

theorem count_stripComments_le (q : Char) :
    ∀ (s : Str) (b : Bool), (stripComments b s).count q ≤ s.count q := by
  intro s
  induction s with
  | nil => intro b; cases b <;> simp [stripComments]
  | cons c cs ih =>
    intro b
    cases b with
    | true =>
      rw [stripComments_true_cons]
      split
      · simp only [List.count_cons]
        have := ih false
        omega
      · simp only [List.count_cons]
        have := ih true
        omega
    | false =>
      rw [stripComments_false_cons]
      split
      · simp only [List.count_cons]
        have := ih true
        omega
      · simp only [List.count_cons]
        have := ih false
        omega

theorem count_collapseSpaces (q : Char) (hq : isReSpace q = false) :
    ∀ (s : Str) (b : Bool), (collapseSpaces b s).count q = s.count q := by
  intro s
  induction s with
  | nil => intro b; simp [collapseSpaces]
  | cons c cs ih =>
    intro b
    have hsp : ¬ ((' ' : Char) == q) = true := by
      intro h
      have : ' ' = q := by simpa using h
      subst this
      revert hq; decide
    rw [collapseSpaces_cons]
    by_cases hc : isReSpace c = true
    · have hcq : ¬ (c == q) = true := by
        intro h
        have : c = q := by simpa using h
        subst this
        rw [hc] at hq; cases hq
      rw [if_pos hc]
      cases b with
      | true => simp [List.count_cons, ih, hcq]
      | false => simp [List.count_cons, ih, hcq, hsp]
    · rw [if_neg hc]
      simp [List.count_cons, ih]

theorem count_trimSpace_le (q : Char) (s : Str) : (TrimSpace s).count q ≤ s.count q := by
  unfold TrimSpace
  rw [List.count_reverse]
  calc ((s.dropWhile isUnicodeSpace).reverse.dropWhile isUnicodeSpace).count q
      ≤ (s.dropWhile isUnicodeSpace).reverse.count q :=
        (List.dropWhile_sublist _).count_le _
    _ = (s.dropWhile isUnicodeSpace).count q := List.count_reverse _ _
    _ ≤ s.count q := (List.dropWhile_sublist _).count_le _

theorem findAllQuoted_eq_nil :
    ∀ (s : Str), s.count '\'' ≤ 1 → s.count '"' ≤ 1 → ∀ n, findAllQuoted n s = [] := by
  intro s
  induction s with
  | nil => intro _ _ n; cases n <;> rfl
  | cons c cs ih =>
    intro h1 h2 n
    have g1 : cs.count '\'' ≤ 1 := by
      simp only [List.count_cons] at h1; omega
    have g2 : cs.count '"' ≤ 1 := by
      simp only [List.count_cons] at h2; omega
    cases n with
    | succ n => simp [findAllQuoted, ih g1 g2]
    | zero =>
      rw [findAllQuoted]
      have hq : quotedAt (c :: cs) = none := by
        unfold quotedAt
        by_cases hc1 : c = '\''
        · subst hc1
          have : '\'' ∉ cs := by
            apply List.count_eq_zero.mp
            simp [List.count_cons] at h1
            omega
          simp [untilQuote_eq_none _ cs this]
        · by_cases hc2 : c = '"'
          · subst hc2
            have : '"' ∉ cs := by
              apply List.count_eq_zero.mp
              simp [List.count_cons] at h2
              omega
            simp [untilQuote_eq_none _ cs this]
          · simp [hc1, hc2]
      rw [hq]
      exact ih g1 g2 0

/-- A content that holds no quoted literal yields no field. -/
theorem parseArrayContent_eq_nil (content : Str) (h : ¬ HoldsQuotedLiteral content) :
    parseArrayContent content = [] := by
  unfold parseArrayContent
  simp only
  have key : ∀ q : Char, (q = '\'' ∨ q = '"') → isReSpace q = false →
      (TrimSpace (collapseSpaces false (stripComments false content))).count q ≤ 1 := by
    intro q hq hqs
    calc (TrimSpace (collapseSpaces false (stripComments false content))).count q
        ≤ (collapseSpaces false (stripComments false content)).count q :=
          count_trimSpace_le q _
      _ = (stripComments false content).count q := count_collapseSpaces q hqs _ _
      _ ≤ content.count q := count_stripComments_le q _ _
      _ ≤ 1 := count_le_one_of_not_holds q hq content h
  rw [findAllQuoted_eq_nil _ (key '\'' (Or.inl rfl) (by decide)) (key '"' (Or.inr rfl) (by decide))]
  rfl

end Parser

/-! ## Lemmas: `ChunkArray` -/

namespace Parser

/-- One full iteration of the loop of `ChunkArray`. -/
theorem chunkLoop_step {α : Type} (data : List α) (n fuel i : Nat)
    (h : i + n ≤ data.length) (hn : 0 < n) :
    chunkLoop data n (fuel + 1) i = ((data.drop i).take n) :: chunkLoop data n fuel (i + n) := by
  have h1 : i < data.length := by omega
  have h2 : ¬ (i + n > data.length) := by omega
  simp only [chunkLoop, h1, h2, if_true, if_false]
  congr 1
  rw [List.take_drop]

/-- The loop of `ChunkArray` past the end of the data. -/
theorem chunkLoop_done {α : Type} (data : List α) (n fuel i : Nat) (h : data.length ≤ i) :
    chunkLoop data n fuel i = [] := by
  cases fuel with
  | zero => rfl
  | succ f =>
    have h1 : ¬ (i < data.length) := by omega
    simp only [chunkLoop, h1, if_false]

/-- The chunks of a sequence of `k * n` elements from position `i` on. -/
theorem chunkLoop_full {α : Type} (data : List α) (n : Nat) (hn : 0 < n) :
    ∀ (k i fuel : Nat), data.length = i + k * n → k ≤ fuel →
      chunkLoop data n fuel i =
        (List.range k).map (fun j => (data.drop (i + j * n)).take n) := by
  intro k
  induction k with
  | zero =>
    intro i fuel hlen _
    rw [chunkLoop_done data n fuel i (by omega)]
    rfl
  | succ k ih =>
    intro i fuel hlen hfuel
    obtain ⟨f, rfl⟩ : ∃ f, fuel = f + 1 := ⟨fuel - 1, by omega⟩
    have hle : i + n ≤ data.length := by
      rw [hlen, Nat.succ_mul]; omega
    rw [chunkLoop_step data n f i hle hn,
      ih (i + n) f (by rw [hlen, Nat.succ_mul]; omega) (by omega),
      List.range_succ_eq_map, List.map_cons, List.map_map]
    simp only [Nat.zero_mul, Nat.add_zero, List.cons.injEq, true_and]
    apply List.map_congr_left
    intro j _
    simp only [Function.comp, Nat.succ_mul]
    congr 2
    omega

/-- The chunks of a sequence of `k * n + r` elements, `0 < r < n`, from
position `i` on: those of the first `k * n` and the remainder. -/
theorem chunkLoop_rem {α : Type} (data : List α) (n r : Nat) (hr : 0 < r) (hrn : r < n) :
    ∀ (k i fuel : Nat), data.length = i + k * n + r → k + 1 ≤ fuel →
      chunkLoop data n fuel i =
        (List.range k).map (fun j => (data.drop (i + j * n)).take n) ++
          [data.drop (i + k * n)] := by
  intro k
  induction k with
  | zero =>
    intro i fuel hlen hfuel
    obtain ⟨f, rfl⟩ : ∃ f, fuel = f + 1 := ⟨fuel - 1, by omega⟩
    have h1 : i < data.length := by omega
    have h2 : i + n > data.length := by omega
    simp only [chunkLoop, h1, h2, if_true]
    rw [chunkLoop_done data n f (i + n) (by omega)]
    simp
  | succ k ih =>
    intro i fuel hlen hfuel
    obtain ⟨f, rfl⟩ : ∃ f, fuel = f + 1 := ⟨fuel - 1, by omega⟩
    have hle : i + n ≤ data.length := by
      rw [hlen, Nat.succ_mul]; omega
    have e : i + (k + 1) * n = i + n + k * n := by rw [Nat.succ_mul]; omega
    rw [chunkLoop_step data n f i hle (by omega),
      ih (i + n) f (by rw [hlen, Nat.succ_mul]; omega) (by omega),
      List.range_succ_eq_map, List.map_cons, List.map_map, e]
    simp only [Nat.zero_mul, Nat.add_zero, List.cons_append, List.cons.injEq, true_and]
    congr 1
    apply List.map_congr_left
    intro j _
    simp only [Function.comp, Nat.succ_mul]
    congr 2
    omega

/-- The concatenation of the consecutive pieces of length `n` of a list. -/
theorem flatten_pieces {α : Type} (n : Nat) :
    ∀ (k : Nat) (l : List α),
      ((List.range k).map (fun j => (l.drop (j * n)).take n)).flatten = l.take (k * n) := by
  intro k
  induction k with
  | zero => intro l; simp
  | succ k ih =>
    intro l
    rw [List.range_succ, List.map_append, List.flatten_append, ih]
    simp only [List.map_cons, List.map_nil, List.flatten_cons, List.flatten_nil,
      List.append_nil]
    rw [Nat.succ_mul, List.take_add]

end Parser

/-! ## Lemmas: `ParseONUList` -/

namespace Parser

/-- The loop of `ParseONUList`: the records of the chunks of 16 fields or more,
in order. -/
theorem foldl_appendONU : ∀ (chunks : List (List Str)) (acc : List ONUResponse),
    chunks.foldl appendONU acc =
      acc ++ (chunks.filter (fun c => decide (16 ≤ c.length))).map decodeONU := by
  intro chunks
  induction chunks with
  | nil => intro acc; simp
  | cons c cs ih =>
    intro acc
    rw [List.foldl_cons, ih]
    by_cases hc : 16 ≤ c.length
    · simp [appendONU, hc, List.filter_cons]
    · simp [appendONU, hc, List.filter_cons]

/-- The chunks of 16 that pass the guard of `ParseONUList`: the consecutive
groups of 16 fields, the remainder left out. -/
theorem chunkArray_sixteen (data : List Str) :
    (ChunkArray data 16).filter (fun c => decide (16 ≤ c.length)) =
      (List.range (data.length / 16)).map (fun j => (data.drop (j * 16)).take 16) := by
  have hfull : ∀ c ∈ (List.range (data.length / 16)).map
      (fun j => (data.drop (j * 16)).take 16), 16 ≤ c.length := by
    intro c hc
    obtain ⟨j, hj, rfl⟩ := List.mem_map.mp hc
    have hjk : j < data.length / 16 := List.mem_range.mp hj
    rw [List.length_take, List.length_drop]
    omega
  have hk : data.length / 16 ≤ data.length := Nat.div_le_self _ _
  unfold ChunkArray
  rw [if_neg (by decide)]
  show List.filter _ (chunkLoop data 16 data.length 0) = _
  by_cases hr : data.length % 16 = 0
  · have hloop := chunkLoop_full data 16 (by decide) (data.length / 16) 0 data.length
      (by omega) hk
    simp only [Nat.zero_add] at hloop
    rw [hloop, List.filter_eq_self]
    intro c hc
    simpa using hfull c hc
  · have hloop := chunkLoop_rem data 16 (data.length % 16) (by omega)
      (Nat.mod_lt _ (by decide)) (data.length / 16) 0 data.length (by omega) (by omega)
    simp only [Nat.zero_add] at hloop
    rw [hloop, List.filter_append]
    have hlast : (data.drop (data.length / 16 * 16)).length = data.length % 16 := by
      rw [List.length_drop]; omega
    have h1 : List.filter (fun c => decide (16 ≤ c.length))
        [data.drop (data.length / 16 * 16)] = [] := by
      simp only [List.filter_cons, List.filter_nil, hlast]
      rw [if_neg]
      simp only [decide_eq_true_eq]
      have := Nat.mod_lt data.length (show 0 < 16 by decide)
      omega
    rw [h1, List.append_nil, List.filter_eq_self]
    intro c hc
    simpa using hfull c hc

/-- A field of a group of 16 is the field of the sequence at its place. -/
theorem getD_group (data : List Str) (i t : Nat) (ht : t < 16) :
    ((data.drop (i * 16)).take 16).getD t [] = data.getD (16 * i + t) [] := by
  simp only [List.getD_eq_getElem?_getD, List.getElem?_take, ht, if_true,
    List.getElem?_drop]
  rw [Nat.mul_comm]

end Parser

/-! ## Lemmas: numbers -/

theorem dropWhile_append_of_all {p : Char → Bool} (w t : Str) (hw : ∀ c ∈ w, p c = true) :
    (w ++ t).dropWhile p = t.dropWhile p := by
  induction w with
  | nil => rfl
  | cons c w ih =>
    have hc : p c = true := hw c (List.mem_cons_self _ _)
    simp only [List.cons_append, List.dropWhile_cons_of_pos hc]
    exact ih (fun x hx => hw x (List.mem_cons_of_mem _ hx))

/-- The result of `strings.TrimSpace` on a text between white space, when the text neither
begins nor ends with white space. -/
theorem trimSpace_padded (l m r : Str) (a b : Char) (mid : Str)
    (hm : m = a :: mid)
    (ha : isUnicodeSpace a = false) (hb : ∃ u, m.reverse = b :: u)
    (hbs : isUnicodeSpace b = false)
    (hl : ∀ c ∈ l, isUnicodeSpace c = true) (hr : ∀ c ∈ r, isUnicodeSpace c = true) :
    TrimSpace (l ++ (m ++ r)) = m := by
  obtain ⟨u, hu⟩ := hb
  unfold TrimSpace
  rw [dropWhile_append_of_all l _ hl, hm, List.cons_append,
    List.dropWhile_cons_of_neg (by simp [ha]), ← List.cons_append, ← hm,
    List.reverse_append,
    dropWhile_append_of_all r.reverse _ (fun c hc => hr c (List.mem_reverse.mp hc)),
    hu, List.dropWhile_cons_of_neg (by simp [hbs]), ← hu, List.reverse_reverse]

namespace F64

theorem bitLength_zero (fuel : Nat) : bitLength fuel 0 = 0 := by
  cases fuel <;> simp [bitLength]

theorem two_pow_bitLength_le : ∀ (fuel m : Nat), m ≠ 0 → 2 ^ bitLength fuel m ≤ 2 * m := by
  intro fuel
  induction fuel with
  | zero => intro m hm; simp [bitLength]; omega
  | succ f ih =>
    intro m hm
    simp only [bitLength, hm, if_false]
    rw [Nat.pow_succ]
    by_cases h2 : m / 2 = 0
    · rw [h2, bitLength_zero]
      omega
    · have := ih (m / 2) h2
      omega

theorem two_pow_shift_le (q : Nat) (hq : 0 < q) : 2 ^ (bitLength q q - 53) ≤ q := by
  have h := two_pow_bitLength_le q q (by omega)
  by_cases hb : bitLength q q = 0
  · rw [hb]; simpa using hq
  · have h1 : 2 ^ (bitLength q q - 53) ≤ 2 ^ (bitLength q q - 1) :=
      Nat.pow_le_pow_right (by decide) (by omega)
    have h2 : 2 ^ (bitLength q q - 1) * 2 = 2 ^ bitLength q q := by
      rw [← Nat.pow_succ]; congr 1; omega
    omega

/-- A positive multiple of `2^-1074` does not round to zero. -/
theorem roundNat_pos (num : Nat) (h : 0 < num) : 0 < roundNat num 1 := by
  unfold roundNat
  simp only [Nat.div_one, Nat.one_mul]
  have hs := two_pow_shift_le num h
  have hm : 0 < num / 2 ^ (bitLength num num - 53) := Nat.div_pos hs (by positivity)
  have hp : 0 < 2 ^ (bitLength num num - 53) := by positivity
  split
  · exact Nat.mul_pos (by omega) hp
  · exact Nat.mul_pos hm hp

theorem round_pos (num : Nat) (h : 0 < num) :
    round false num 1 = inf false ∨ ∃ n : Nat, 0 < n ∧ round false num 1 = finite n := by
  unfold round
  by_cases ho : roundNat num 1 ≥ overflowBound
  · left; simp only [ho, if_true]
  · right
    exact ⟨roundNat num 1, roundNat_pos num h, by simp only [ho, if_false, Bool.false_eq_true]⟩

end F64

namespace Parser

/-- A difference `d - 157` with `d > 157` is not `<= 0`. -/
theorem not_le_sub_of_gt (d : F64) (h : F64.gt d (F64.ofInt 157) = true) :
    F64.le (F64.sub d (F64.ofInt 157)) (F64.ofInt 0) = false := by
  cases d with
  | nan => simp [F64.gt, F64.lt, F64.ofInt] at h
  | inf a =>
    simp only [F64.gt, F64.lt, F64.ofInt] at h
    have ha : a = false := by simpa using h
    subst ha
    rfl
  | finite n =>
    simp only [F64.gt, F64.lt, F64.ofInt, decide_eq_true_eq] at h
    have hpos : 0 < n - 157 * (F64.one : Int) := by omega
    have hneg : decide (n - 157 * (F64.one : Int) < 0) = false := by
      simp only [decide_eq_false_iff_not]; omega
    have hnat : 0 < (n - 157 * (F64.one : Int)).natAbs := Int.natAbs_pos.mpr (by omega)
    simp only [F64.sub, F64.ofInt, hneg]
    rcases F64.round_pos _ hnat with e | ⟨m, hm, e⟩
    · rw [e]; rfl
    · rw [e]
      simp only [F64.le, F64.lt, F64.eq, Bool.or_eq_false_iff, decide_eq_false_iff_not]
      constructor <;> omega

/-- The `if` / `else if` of `CalculateDistance` is the specification's two
steps in sequence. -/
theorem clampDistance_eq_specClamp (d : F64) : clampDistance d = specClamp d := by
  unfold clampDistance specClamp
  by_cases h : F64.gt d (F64.ofInt 157) = true
  · simp only [h, if_true, not_le_sub_of_gt d h, Bool.false_eq_true, if_false]
  · simp only [h, if_false, Bool.false_eq_true]

theorem not_gt_of_le_zero (d : F64) (h : F64.le d (F64.ofInt 0) = true) :
    F64.gt d (F64.ofInt 157) = false := by
  cases d with
  | nan => rfl
  | inf a =>
    cases a with
    | true => rfl
    | false => simp [F64.le, F64.lt, F64.eq, F64.ofInt] at h
  | finite n =>
    simp only [F64.le, F64.lt, F64.eq, F64.ofInt, Bool.or_eq_true, decide_eq_true_eq] at h
    simp only [F64.gt, F64.lt, F64.ofInt, decide_eq_false_iff_not]
    have : (0 : Int) < 157 * (F64.one : Int) := by
      have : (0 : Int) < (F64.one : Int) := by
        unfold F64.one; positivity
      omega
    omega

theorem toInt_one : F64.toInt (F64.ofInt 1) = 1 := by
  decide!

theorem calculateDistance_two_hundred : CalculateDistance "200".toList = 13 := by
  decide!

theorem strconv_parseFloat_three_half :
    (strconv.ParseFloat "3.5".toList).1 = F64.finite (7 * 2 ^ 1073) := by
  decide!

/-- The fast path of `Atoi` reports no range error. -/
theorem atoiFast_ne_range : ∀ (ds : Str) (n : Int),
    (strconv.atoiFast n ds).2 ≠ .ErrRange := by
  intro ds
  induction ds with
  | nil => intro n; simp [strconv.atoiFast]
  | cons c cs ih =>
    intro n
    unfold strconv.atoiFast
    split
    · exact ih _
    · simp

/-- The value of `strconv.ParseInt` under its errors: 0 with a syntax error,
the bound of the sign with a range error. -/
theorem strconv_parseInt_error (t : Str) :
    ((strconv.ParseInt t).2 = .ErrSyntax → (strconv.ParseInt t).1 = 0) ∧
    ((strconv.ParseInt t).2 = .ErrRange →
      (strconv.ParseInt t).1 = if t.head? = some '-' then -(2 ^ 63 : Int) else 2 ^ 63 - 1) := by
  cases t with
  | nil => simp [strconv.ParseInt]
  | cons c cs =>
    simp only [strconv.ParseInt, List.head?_cons, Option.some.injEq]
    cases hp : strconv.ParseUint (if c = '+' ∨ c = '-' then cs else c :: cs) with
    | mk un e =>
      cases e with
      | ErrSyntax => simp
      | nil =>
        simp only
        by_cases hc : c = '-'
        · subst hc
          simp only [decide_True, not_true_eq_false, false_and, if_false, true_and, if_true]
          split <;> simp
        · simp only [hc, decide_False, not_false_eq_true, true_and, false_and, if_false]
          split <;> simp
      | ErrRange =>
        simp only
        by_cases hc : c = '-'
        · subst hc
          simp only [decide_True, not_true_eq_false, false_and, if_false, true_and, if_true]
          split <;> simp
        · simp only [hc, decide_False, not_false_eq_true, true_and, false_and, if_false]
          split <;> simp

/-- The value of `strconv.Atoi` under its errors. -/
theorem strconv_atoi_error (t : Str) :
    ((strconv.Atoi t).2 = .ErrSyntax → (strconv.Atoi t).1 = 0) ∧
    ((strconv.Atoi t).2 = .ErrRange →
      (strconv.Atoi t).1 = if t.head? = some '-' then -(2 ^ 63 : Int) else 2 ^ 63 - 1) := by
  cases t with
  | nil => exact strconv_parseInt_error []
  | cons c cs =>
    unfold strconv.Atoi
    by_cases hlen : strconv.byteLen (c :: cs) < 19
    · simp only [hlen, if_true]
      by_cases hd : (if c = '-' ∨ c = '+' then cs else c :: cs) = []
      · simp only [hd, if_true]
        simp
      · simp only [hd, if_false]
        have hr := atoiFast_ne_range (if c = '-' ∨ c = '+' then cs else c :: cs) 0
        cases hf : strconv.atoiFast 0 (if c = '-' ∨ c = '+' then cs else c :: cs) with
        | mk n e =>
          rw [hf] at hr
          cases e with
          | nil => simp
          | ErrSyntax => simp
          | ErrRange => exact absurd rfl hr
    · simp only [hlen, if_false]
      exact strconv_parseInt_error (c :: cs)

end Parser

namespace Parser

/-- The conversion `int(f)` is the truncation toward zero when that is in the
range of `int`. -/
theorem toInt_finite_tdiv (n : Int) (h1 : -(2 ^ 63 : Int) ≤ n.tdiv (2 ^ 1074))
    (h2 : n.tdiv (2 ^ 1074) < 2 ^ 63) : F64.toInt (F64.finite n) = n.tdiv (2 ^ 1074) := by
  have hone : ((F64.one : Nat) : Int) = 2 ^ 1074 := by
    unfold F64.one; exact Nat.cast_pow 2 1074
  have ht : (if n < 0 then -((n.natAbs / F64.one : Nat) : Int)
      else ((n.natAbs / F64.one : Nat) : Int)) = n.tdiv (2 ^ 1074) := by
    rw [← hone]
    by_cases hn : n < 0
    · rw [if_pos hn, Int.ofNat_tdiv]
      have : n = -((n.natAbs : Nat) : Int) := by omega
      conv_rhs => rw [this, Int.neg_tdiv]
    · rw [if_neg hn, Int.ofNat_tdiv]
      have : n = ((n.natAbs : Nat) : Int) := by omega
      conv_rhs => rw [this]
  unfold F64.toInt
  simp only [ht]
  rw [if_pos ⟨h1, h2⟩]

theorem exactDistance_decimal : exactDistance (101323735740865 / 10 ^ 10) = 16295 := by
  unfold exactDistance
  norm_num [Int.floor_eq_iff]

theorem exactDistance_huge : exactDistance (10 ^ 19) = 16392999999999999686 := by
  unfold exactDistance
  norm_num [Int.floor_eq_iff]

theorem exactDistance_float : exactDistance (5570331280839187 / 2 ^ 39) = 16295 := by
  unfold exactDistance
  norm_num [Int.floor_eq_iff]

/-- The exact value of the float `m * 2^k * 2^-1074`. -/
theorem toRat_scaled (m : Int) (k j : Nat) (h : k + j = 1074) :
    (F64.finite (m * 2 ^ k)).toRat? = some ((m : ℚ) / 2 ^ j) := by
  have hx : (2 : ℚ) ^ k ≠ 0 := pow_ne_zero _ (by norm_num)
  have hy : (2 : ℚ) ^ j ≠ 0 := pow_ne_zero _ (by norm_num)
  unfold F64.toRat?
  simp only
  rw [← h, pow_add, Int.cast_mul, Int.cast_pow]
  congr 1
  field_simp
  ring

end Parser

/-! ## Lemmas: `strings.Split` -/

theorem split_ne_nil (sep : Char) : ∀ s : Str, strings.Split s sep ≠ [] := by
  intro s
  induction s with
  | nil => simp [strings.Split]
  | cons c cs ih =>
    unfold strings.Split
    split
    · simp
    · split <;> simp

theorem split_cons_sep (sep : Char) (cs : Str) :
    strings.Split (sep :: cs) sep = [] :: strings.Split cs sep := by
  rw [strings.Split, if_pos rfl]

theorem split_cons_other (sep c : Char) (cs : Str) (h : c ≠ sep) :
    ∃ p ps, strings.Split cs sep = p :: ps ∧ strings.Split (c :: cs) sep = (c :: p) :: ps := by
  cases hs : strings.Split cs sep with
  | nil => exact absurd hs (split_ne_nil sep cs)
  | cons p ps =>
    refine ⟨p, ps, rfl, ?_⟩
    rw [strings.Split, if_neg h, hs]

/-- The parts are one more than the occurrences of the separator. -/
theorem split_length (sep : Char) : ∀ s : Str,
    (strings.Split s sep).length = s.count sep + 1 := by
  intro s
  induction s with
  | nil => simp [strings.Split]
  | cons c cs ih =>
    by_cases h : c = sep
    · subst h
      rw [split_cons_sep, List.length_cons, ih, List.count_cons_self]
    · obtain ⟨p, ps, h1, h2⟩ := split_cons_other sep c cs h
      rw [h2, List.length_cons, ← List.length_cons p ps, ← h1, ih,
        List.count_cons_of_ne (Ne.symm h)]

/-- A text up to the first separator is the first part. -/
theorem split_append (sep : Char) : ∀ (a b : Str), sep ∉ a →
    strings.Split (a ++ sep :: b) sep = a :: strings.Split b sep := by
  intro a
  induction a with
  | nil => intro b _; exact split_cons_sep sep b
  | cons c cs ih =>
    intro b h
    have hc : c ≠ sep := fun e => h (e ▸ List.mem_cons_self _ _)
    have hcs : sep ∉ cs := fun e => h (List.mem_cons_of_mem _ e)
    obtain ⟨p, ps, h1, h2⟩ := split_cons_other sep c (cs ++ sep :: b) hc
    rw [List.cons_append, h2]
    rw [ih b hcs] at h1
    injection h1 with h1 h3
    rw [← h1, ← h3]

/-- A text without the separator is its only part. -/
theorem split_not_mem (sep : Char) : ∀ (a : Str), sep ∉ a → strings.Split a sep = [a] := by
  intro a
  induction a with
  | nil => intro _; rfl
  | cons c cs ih =>
    intro h
    have hc : c ≠ sep := fun e => h (e ▸ List.mem_cons_self _ _)
    have hcs : sep ∉ cs := fun e => h (List.mem_cons_of_mem _ e)
    obtain ⟨p, ps, h1, h2⟩ := split_cons_other sep c cs hc
    rw [h2]
    rw [ih hcs] at h1
    injection h1 with h1 h3
    rw [← h1, ← h3]

/-- A text with one separator: the parts are the text before and the text
after. -/
theorem split_pair (sep : Char) (a b : Str) (ha : sep ∉ a) (hb : sep ∉ b) :
    strings.Split (a ++ sep :: b) sep = [a, b] := by
  rw [split_append sep a b ha, split_not_mem sep b hb]

/-- A text with an occurrence of the separator, cut at the first one. -/
theorem exists_first_sep (sep : Char) : ∀ s : Str, sep ∈ s →
    ∃ a b, sep ∉ a ∧ s = a ++ sep :: b := by
  intro s
  induction s with
  | nil => intro h; cases h
  | cons c cs ih =>
    intro h
    by_cases hc : c = sep
    · exact ⟨[], cs, List.not_mem_nil _, by rw [hc]; rfl⟩
    · have hcs : sep ∈ cs := by
        rcases List.mem_cons.mp h with e | e
        · exact absurd e.symm hc
        · exact e
      obtain ⟨a, b, ha, e⟩ := ih hcs
      refine ⟨c :: a, b, ?_, by rw [e]; rfl⟩
      intro hm
      rcases List.mem_cons.mp hm with e1 | e1
      · exact hc e1.symm
      · exact ha e1

/-- The texts of exactly two parts: one occurrence of the separator. -/
theorem split_length_two (sep : Char) (s : Str) :
    (strings.Split s sep).length = 2 ↔
      ∃ a b, sep ∉ a ∧ sep ∉ b ∧ s = a ++ sep :: b := by
  constructor
  · intro h
    rw [split_length] at h
    have hmem : sep ∈ s := List.count_pos_iff.mp (by omega)
    obtain ⟨a, b, ha, e⟩ := exists_first_sep sep s hmem
    refine ⟨a, b, ha, ?_, e⟩
    intro hb
    have : 0 < b.count sep := List.count_pos_iff.mpr hb
    rw [e, List.count_append, List.count_cons_self] at h
    omega
  · rintro ⟨a, b, ha, hb, rfl⟩
    rw [split_pair sep a b ha hb]
    rfl

/-! ## Lemmas: `strconv.Atoi` -/

theorem digit_toNat {c : Char} (h : '0' ≤ c ∧ c ≤ '9') : 48 ≤ c.toNat ∧ c.toNat ≤ 57 := by
  obtain ⟨h1, h2⟩ := h
  have a : ('0' : Char).toNat ≤ c.toNat := h1
  have b : c.toNat ≤ ('9' : Char).toNat := h2
  exact ⟨a, b⟩

theorem digitVal_le {c : Char} (h : '0' ≤ c ∧ c ≤ '9') : strconv.digitVal c ≤ 9 := by
  have := digit_toNat h
  unfold strconv.digitVal
  have e : ('0' : Char).toNat = 48 := rfl
  omega

theorem decimalFrom_cons (n : Nat) (c : Char) (cs : Str) :
    decimalFrom n (c :: cs) = decimalFrom (n * 10 + strconv.digitVal c) cs := rfl

theorem allDigits_cons {c : Char} {cs : Str} :
    AllDigits (c :: cs) ↔ ('0' ≤ c ∧ c ≤ '9') ∧ AllDigits cs := by
  unfold AllDigits
  simp only [List.mem_cons, forall_eq_or_imp]

theorem le_decimalFrom : ∀ (ds : Str) (n : Nat), n ≤ decimalFrom n ds := by
  intro ds
  induction ds with
  | nil => intro n; exact Nat.le_refl _
  | cons c cs ih =>
    intro n
    rw [decimalFrom_cons]
    have := ih (n * 10 + strconv.digitVal c)
    omega

theorem decimalFrom_lt : ∀ (ds : Str) (n : Nat), AllDigits ds →
    decimalFrom n ds < (n + 1) * 10 ^ ds.length := by
  intro ds
  induction ds with
  | nil => intro n _; simp [decimalFrom]
  | cons c cs ih =>
    intro n h
    obtain ⟨hc, hcs⟩ := allDigits_cons.mp h
    rw [decimalFrom_cons, List.length_cons, pow_succ]
    have h1 := ih (n * 10 + strconv.digitVal c) hcs
    have h2 := digitVal_le hc
    have h3 : (n * 10 + strconv.digitVal c + 1) * 10 ^ cs.length ≤
        (n + 1) * 10 * 10 ^ cs.length :=
      Nat.mul_le_mul_right _ (by omega)
    calc decimalFrom (n * 10 + strconv.digitVal c) cs
        < (n * 10 + strconv.digitVal c + 1) * 10 ^ cs.length := h1
      _ ≤ (n + 1) * 10 * 10 ^ cs.length := h3
      _ = (n + 1) * (10 ^ cs.length * 10) := by ring

/-- The fast path of `Atoi` succeeds exactly on decimal digits. -/
theorem atoiFast_ok_iff : ∀ (ds : Str) (n : Int),
    (strconv.atoiFast n ds).2 = .nil ↔ AllDigits ds := by
  intro ds
  induction ds with
  | nil => intro n; simp [strconv.atoiFast, AllDigits]
  | cons c cs ih =>
    intro n
    rw [allDigits_cons]
    unfold strconv.atoiFast
    by_cases hc : '0' ≤ c ∧ c ≤ '9'
    · rw [if_pos hc, ih]
      exact ⟨fun h => ⟨hc, h⟩, fun h => h.2⟩
    · rw [if_neg hc]
      simp [hc]

/-- The loop of `ParseUint` on digits of a value within `uint64`. -/
theorem parseUintLoop_ok : ∀ (ds : Str) (n : Nat), AllDigits ds →
    decimalFrom n ds ≤ 2 ^ 64 - 1 →
    strconv.parseUintLoop n ds = (decimalFrom n ds, .nil) := by
  intro ds
  induction ds with
  | nil => intro n _ _; rfl
  | cons c cs ih =>
    intro n h hle
    obtain ⟨hc, hcs⟩ := allDigits_cons.mp h
    rw [decimalFrom_cons] at hle ⊢
    have hm := le_decimalFrom cs (n * 10 + strconv.digitVal c)
    unfold strconv.parseUintLoop
    rw [if_pos hc, if_neg (by omega)]
    simp only
    rw [if_neg (by omega)]
    exact ih _ hcs hle

/-- The loop of `ParseUint` succeeds only on digits of a value within
`uint64`. -/
theorem parseUintLoop_nil : ∀ (ds : Str) (n : Nat), n ≤ 2 ^ 64 - 1 →
    (strconv.parseUintLoop n ds).2 = .nil →
    AllDigits ds ∧ decimalFrom n ds ≤ 2 ^ 64 - 1 := by
  intro ds
  induction ds with
  | nil => intro n hn _; exact ⟨fun c hc => (by cases hc), hn⟩
  | cons c cs ih =>
    intro n hn h
    unfold strconv.parseUintLoop at h
    by_cases hc : '0' ≤ c ∧ c ≤ '9'
    · rw [if_pos hc] at h
      by_cases h1 : n ≥ (2 ^ 64 - 1) / 10 + 1
      · rw [if_pos h1] at h
        cases h
      · rw [if_neg h1] at h
        simp only at h
        by_cases h2 : n * 10 + strconv.digitVal c > 2 ^ 64 - 1
        · rw [if_pos h2] at h
          cases h
        · rw [if_neg h2] at h
          obtain ⟨ha, hb⟩ := ih _ (by omega) h
          exact ⟨allDigits_cons.mpr ⟨hc, ha⟩, hb⟩
    · rw [if_neg hc] at h
      cases h

/-- The value that the loop of `ParseUint` returns with a range error. -/
theorem parseUintLoop_range : ∀ (ds : Str) (n : Nat),
    (strconv.parseUintLoop n ds).2 = .ErrRange →
    (strconv.parseUintLoop n ds).1 = 2 ^ 64 - 1 := by
  intro ds
  induction ds with
  | nil => intro n h; cases h
  | cons c cs ih =>
    intro n
    unfold strconv.parseUintLoop
    by_cases hc : '0' ≤ c ∧ c ≤ '9'
    · rw [if_pos hc]
      by_cases h1 : n ≥ (2 ^ 64 - 1) / 10 + 1
      · rw [if_pos h1]
        intro _; rfl
      · rw [if_neg h1]
        simp only
        by_cases h2 : n * 10 + strconv.digitVal c > 2 ^ 64 - 1
        · rw [if_pos h2]
          intro _; rfl
        · rw [if_neg h2]
          exact ih _
    · rw [if_neg hc]
      intro h; cases h

/-- The result of `ParseUint(s, 10, 64)`: the value of the digits when the
text is one or more digits of a value within `uint64`, else an error, the
value being `maxUint64` with the range error. -/
theorem parseUint_cases (ds : Str) :
    (ds ≠ [] ∧ AllDigits ds ∧ decimalFrom 0 ds ≤ 2 ^ 64 - 1 ∧
      strconv.ParseUint ds = (decimalFrom 0 ds, .nil)) ∨
    (¬ (ds ≠ [] ∧ AllDigits ds ∧ decimalFrom 0 ds ≤ 2 ^ 64 - 1) ∧
      ((strconv.ParseUint ds).2 = .ErrSyntax ∨
        strconv.ParseUint ds = (2 ^ 64 - 1, .ErrRange))) := by
  unfold strconv.ParseUint
  by_cases he : ds = []
  · right
    rw [if_pos he]
    exact ⟨fun h => h.1 he, Or.inl rfl⟩
  · rw [if_neg he]
    cases hr : (strconv.parseUintLoop 0 ds).2 with
    | nil =>
      left
      obtain ⟨ha, hb⟩ := parseUintLoop_nil ds 0 (by omega) hr
      exact ⟨he, ha, hb, parseUintLoop_ok ds 0 ha hb⟩
    | ErrSyntax =>
      right
      refine ⟨?_, Or.inl rfl⟩
      rintro ⟨_, ha, hb⟩
      rw [parseUintLoop_ok ds 0 ha hb] at hr
      cases hr
    | ErrRange =>
      right
      refine ⟨?_, Or.inr ?_⟩
      · rintro ⟨_, ha, hb⟩
        rw [parseUintLoop_ok ds 0 ha hb] at hr
        cases hr
      · have := parseUintLoop_range ds 0 hr
        exact Prod.ext this hr

/-- A plain integer, cut as `ParseInt` and `Atoi` cut it: the sign is the first
character when that is `+` or `-`. -/
theorem isPlainInteger_cons (c : Char) (cs : Str) :
    IsPlainInteger (c :: cs) ↔
      (if c = '+' ∨ c = '-' then cs else c :: cs) ≠ [] ∧
      AllDigits (if c = '+' ∨ c = '-' then cs else c :: cs) ∧
      decimalFrom 0 (if c = '+' ∨ c = '-' then cs else c :: cs) ≤
        (if c = '-' then 2 ^ 63 else 2 ^ 63 - 1) := by
  constructor
  · rintro ⟨sign, digits, e, hs, hne, hd, hv⟩
    rcases hs with rfl | rfl | rfl
    · rw [List.nil_append] at e
      subst e
      have hc := digit_toNat (hd c (List.mem_cons_self _ _))
      have h1 : c ≠ '+' := by
        intro h; rw [h] at hc; exact absurd hc.1 (by decide)
      have h2 : c ≠ '-' := by
        intro h; rw [h] at hc; exact absurd hc.1 (by decide)
      rw [if_neg (by simp [h1, h2]), if_neg h2]
      rw [if_neg (by decide)] at hv
      exact ⟨hne, hd, hv⟩
    · injection e with e1 e2
      subst e1; subst e2
      rw [if_pos (Or.inl rfl), if_neg (by decide)]
      rw [if_neg (by decide)] at hv
      exact ⟨hne, hd, hv⟩
    · injection e with e1 e2
      subst e1; subst e2
      rw [if_pos (Or.inr rfl), if_pos rfl]
      rw [if_pos rfl] at hv
      exact ⟨hne, hd, hv⟩
  · rintro ⟨hne, hd, hv⟩
    by_cases h1 : c = '+'
    · subst h1
      rw [if_pos (Or.inl rfl)] at hne hd hv
      rw [if_neg (by decide)] at hv
      exact ⟨['+'], cs, rfl, Or.inr (Or.inl rfl), hne, hd, by rw [if_neg (by decide)]; exact hv⟩
    · by_cases h2 : c = '-'
      · subst h2
        rw [if_pos (Or.inr rfl)] at hne hd hv
        rw [if_pos rfl] at hv
        exact ⟨['-'], cs, rfl, Or.inr (Or.inr rfl), hne, hd, by rw [if_pos rfl]; exact hv⟩
      · rw [if_neg (by simp [h1, h2])] at hne hd hv
        rw [if_neg h2] at hv
        exact ⟨[], c :: cs, rfl, Or.inl rfl, hne, hd, by rw [if_neg (by decide)]; exact hv⟩

theorem not_isPlainInteger_nil : ¬ IsPlainInteger [] := by
  rintro ⟨sign, digits, e, _, hne, _⟩
  exact hne (List.append_eq_nil.mp e.symm).2

/-- Go `strconv.ParseInt(s, 10, 0)` succeeds exactly on the plain integers. -/
theorem parseInt_ok_iff (p : Str) : (strconv.ParseInt p).2 = .nil ↔ IsPlainInteger p := by
  cases p with
  | nil =>
    constructor
    · intro h; cases h
    · intro h; exact absurd h not_isPlainInteger_nil
  | cons c cs =>
    rw [isPlainInteger_cons]
    unfold strconv.ParseInt
    simp only
    generalize (if c = '+' ∨ c = '-' then cs else c :: cs) = ds
    have hbound : ∀ v : Nat, (v ≤ if c = '-' then 2 ^ 63 else 2 ^ 63 - 1) → v ≤ 2 ^ 64 - 1 := by
      intro v hv
      split at hv <;> omega
    rcases parseUint_cases ds with ⟨hne, hd, hle, hp⟩ | ⟨hnot, hs | hr⟩
    · rw [hp]
      simp only
      by_cases hc : c = '-'
      · simp only [hc, decide_True, not_true_eq_false, false_and, if_false, true_and, if_true]
        constructor
        · intro h
          refine ⟨hne, hd, ?_⟩
          by_contra hgt
          rw [if_pos (by omega)] at h
          cases h
        · rintro ⟨_, _, hv⟩
          rw [if_neg (by omega)]
      · simp only [hc, decide_False, not_false_eq_true, true_and, false_and, if_false,
          Bool.false_eq_true]
        constructor
        · intro h
          refine ⟨hne, hd, ?_⟩
          by_contra hgt
          rw [if_pos (by omega)] at h
          cases h
        · rintro ⟨_, _, hv⟩
          rw [if_neg (by omega)]
    · constructor
      · intro h
        cases hq : strconv.ParseUint ds with
        | mk un e =>
          rw [hq] at hs h
          simp only at hs
          subst hs
          cases h
      · rintro ⟨h1, h2, h3⟩
        exact absurd ⟨h1, h2, hbound _ h3⟩ hnot
    · constructor
      · intro h
        rw [hr] at h
        simp only at h
        by_cases hc : c = '-'
        · simp only [hc, decide_True, not_true_eq_false, false_and, if_false, true_and] at h
          rw [if_pos (by norm_num)] at h
          cases h
        · simp only [hc, decide_False, not_false_eq_true, true_and] at h
          rw [if_pos (by norm_num)] at h
          cases h
      · rintro ⟨h1, h2, h3⟩
        exact absurd ⟨h1, h2, hbound _ h3⟩ hnot

theorem length_le_byteLen : ∀ s : Str, s.length ≤ strconv.byteLen s := by
  intro s
  induction s with
  | nil => exact Nat.le_refl _
  | cons c cs ih =>
    have h := Char.utf8Size_pos c
    have e : strconv.byteLen (c :: cs) = c.utf8Size + strconv.byteLen cs := by
      simp [strconv.byteLen]
    rw [e, List.length_cons]
    omega

/-- Go `strconv.Atoi` succeeds exactly on the plain integers. -/
theorem atoi_ok_iff (p : Str) : (strconv.Atoi p).2 = .nil ↔ IsPlainInteger p := by
  cases p with
  | nil => exact parseInt_ok_iff []
  | cons c cs =>
    unfold strconv.Atoi
    by_cases hlen : strconv.byteLen (c :: cs) < 19
    · simp only [hlen, if_true]
      rw [isPlainInteger_cons]
      have hdig : (if c = '-' ∨ c = '+' then cs else c :: cs) =
          (if c = '+' ∨ c = '-' then cs else c :: cs) := if_congr or_comm rfl rfl
      rw [hdig]
      have hl : (if c = '+' ∨ c = '-' then cs else c :: cs).length ≤ 18 := by
        have := length_le_byteLen (c :: cs)
        rw [List.length_cons] at this
        split
        · omega
        · rw [List.length_cons]; omega
      generalize (if c = '+' ∨ c = '-' then cs else c :: cs) = ds at hl
      by_cases hd : ds = []
      · rw [if_pos hd]
        constructor
        · intro h; cases h
        · intro h; exact absurd hd h.1
      · rw [if_neg hd]
        have hfast := atoiFast_ok_iff ds 0
        cases hf : strconv.atoiFast 0 ds with
        | mk n e =>
          rw [hf] at hfast
          simp only at hfast
          cases e with
          | nil =>
            simp only [true_iff]
            have ha := hfast.mp rfl
            refine ⟨hd, ha, ?_⟩
            have h1 := decimalFrom_lt ds 0 ha
            have h2 : 10 ^ ds.length ≤ 10 ^ 18 := Nat.pow_le_pow_right (by decide) hl
            have h3 : (10 : Nat) ^ 18 ≤ 2 ^ 63 - 1 := by norm_num
            split <;> omega
          | ErrSyntax =>
            constructor
            · intro h; cases h
            · intro h
              have := hfast.mpr h.2.1
              cases this
          | ErrRange =>
            constructor
            · intro h; cases h
            · intro h
              have := hfast.mpr h.2.1
              cases this
    · simp only [hlen, if_false]
      exact parseInt_ok_iff (c :: cs)


/-- The characters of a plain integer are signs and digits. -/
theorem isPlainInteger_chars {p : Str} (h : IsPlainInteger p) :
    ∀ c ∈ p, c = '+' ∨ c = '-' ∨ ('0' ≤ c ∧ c ≤ '9') := by
  obtain ⟨sign, digits, rfl, hs, _, hd, _⟩ := h
  intro c hc
  rcases List.mem_append.mp hc with h1 | h1
  · rcases hs with rfl | rfl | rfl
    · cases h1
    · left; simpa using h1
    · right; left; simpa using h1
  · exact Or.inr (Or.inr (hd c h1))

/-- A text with a `/` is no plain integer. -/
theorem not_isPlainInteger_of_slash {p : Str} (h : '/' ∈ p) : ¬ IsPlainInteger p := by
  intro hp
  rcases isPlainInteger_chars hp '/' h with h1 | h1 | h1
  · exact absurd h1 (by decide)
  · exact absurd h1 (by decide)
  · exact absurd h1.1 (by decide)

namespace handlers

/-- The result of `normalizeONUID` on a text with one `:`. -/
theorem normalizeONUID_pair (port index : Str) (hp : ':' ∉ port) (hi : ':' ∉ index) :
    (IsPlainInteger port →
      normalizeONUID (port ++ ':' :: index) = "0/".toList ++ (port ++ ':' :: index)) ∧
    (¬ IsPlainInteger port → normalizeONUID (port ++ ':' :: index) = port ++ ':' :: index) := by
  unfold normalizeONUID
  simp only
  rw [split_pair ':' port index hp hi, if_pos (show [port, index].length = 2 from rfl)]
  simp only [List.getD_cons_zero, List.getD_cons_succ]
  constructor
  · intro h
    rw [if_pos ((atoi_ok_iff port).mpr h)]
    simp
  · intro h
    rw [if_neg (fun e => h ((atoi_ok_iff port).mp e))]

/-- The result of `normalizeONUID` on a text without exactly one `:`. -/
theorem normalizeONUID_other (id : Str) (h : id.count ':' ≠ 1) : normalizeONUID id = id := by
  unfold normalizeONUID
  simp only
  rw [if_neg]
  rw [split_length]
  omega

end handlers

/-! ## Lemmas: the records -/

namespace Parser

/-- The result of `ParseONUList`: the records of the consecutive groups of 16
fields. -/
theorem parseONUList_eq (html : Str) (data : List Str)
    (h : ExtractJSArray html "onutable".toList = .ok data) :
    ParseONUList html = .ok ((List.range (data.length / 16)).map
      (fun j => decodeONU ((data.drop (j * 16)).take 16))) := by
  unfold ParseONUList
  rw [h]
  simp only
  rw [foldl_appendONU, chunkArray_sixteen, List.nil_append, List.map_map]
  rfl

/-- The result of `ParseONUDetail` on 13 fields or more: the record of the
fields, with the optical module of `onuOpmInfo` when that declaration is found
and has 6 fields or more. -/
theorem parseONUDetail_ok (html : Str) (onuInfo : List Str)
    (h : ExtractJSArray html "onuinfo".toList = .ok onuInfo) (hlen : 13 ≤ onuInfo.length) :
    ∃ om : Option OpticalModuleInfo,
      ParseONUDetail html = .ok { decodeONUDetail onuInfo with OpticalModule := om } ∧
      ((∃ e, ExtractJSArray html "onuOpmInfo".toList = .error e) → om = none) := by
  unfold ParseONUDetail
  rw [h]
  simp only
  rw [if_neg (by omega)]
  cases hx : ExtractJSArray html "onuOpmInfo".toList with
  | error e => exact ⟨none, rfl, fun _ => rfl⟩
  | ok onuOpm =>
    simp only
    by_cases h6 : onuOpm.length ≥ 6
    · rw [if_pos h6]
      exact ⟨_, rfl, fun ⟨e, he⟩ => by cases he⟩
    · rw [if_neg h6]
      exact ⟨none, rfl, fun _ => rfl⟩

/-- The failure of `ParseONUDetail` on fewer than 13 fields. -/
theorem parseONUDetail_incomplete (html : Str) (onuInfo : List Str)
    (h : ExtractJSArray html "onuinfo".toList = .ok onuInfo) (hlen : onuInfo.length < 13) :
    ParseONUDetail html = .error (.incomplete "onuinfo".toList onuInfo.length 13) := by
  unfold ParseONUDetail
  rw [h]
  simp only
  rw [if_pos hlen]

/-- The records of `ParseONUDetail` and `ParseSystemInfo` read only the first
13 fields. -/
theorem decode_take_thirteen (data : List Str) :
    decodeONUDetail (data.take 13) = decodeONUDetail data ∧
    decodeSystemInfo (data.take 13) = decodeSystemInfo data := by
  constructor
  · simp [decodeONUDetail, List.getD_eq_getElem?_getD, List.getElem?_take]
  · simp [decodeSystemInfo, List.getD_eq_getElem?_getD, List.getElem?_take]

theorem foldl_appendPON : ∀ (chunks : List (List Str)) (acc : List PONResponse),
    chunks.foldl appendPON acc =
      acc ++ (chunks.filter (fun c => decide (2 ≤ c.length))).map
        (fun c => { PONID := simplifiedID (c.getD 0 []), FullID := c.getD 0 [],
                    Info := c.getD 1 [] }) := by
  intro chunks
  induction chunks with
  | nil => intro acc; simp
  | cons c cs ih =>
    intro acc
    rw [List.foldl_cons, ih]
    by_cases hc : 2 ≤ c.length
    · simp [appendPON, hc, List.filter_cons]
    · simp [appendPON, hc, List.filter_cons]

theorem chunkArray_two (data : List Str) :
    (ChunkArray data 2).filter (fun c => decide (2 ≤ c.length)) =
      (List.range (data.length / 2)).map (fun j => (data.drop (j * 2)).take 2) := by
  have hfull : ∀ c ∈ (List.range (data.length / 2)).map
      (fun j => (data.drop (j * 2)).take 2), 2 ≤ c.length := by
    intro c hc
    obtain ⟨j, hj, rfl⟩ := List.mem_map.mp hc
    have hjk : j < data.length / 2 := List.mem_range.mp hj
    rw [List.length_take, List.length_drop]
    omega
  have hk : data.length / 2 ≤ data.length := Nat.div_le_self _ _
  unfold ChunkArray
  rw [if_neg (by decide)]
  show List.filter _ (chunkLoop data 2 data.length 0) = _
  by_cases hr : data.length % 2 = 0
  · have hloop := chunkLoop_full data 2 (by decide) (data.length / 2) 0 data.length
      (by omega) hk
    simp only [Nat.zero_add] at hloop
    rw [hloop, List.filter_eq_self]
    intro c hc
    simpa using hfull c hc
  · have hloop := chunkLoop_rem data 2 (data.length % 2) (by omega)
      (Nat.mod_lt _ (by decide)) (data.length / 2) 0 data.length (by omega) (by omega)
    simp only [Nat.zero_add] at hloop
    rw [hloop, List.filter_append]
    have hlast : (data.drop (data.length / 2 * 2)).length = data.length % 2 := by
      rw [List.length_drop]; omega
    have h1 : List.filter (fun c => decide (2 ≤ c.length))
        [data.drop (data.length / 2 * 2)] = [] := by
      simp only [List.filter_cons, List.filter_nil, hlast]
      rw [if_neg]
      simp only [decide_eq_true_eq]
      have := Nat.mod_lt data.length (show 0 < 2 by decide)
      omega
    rw [h1, List.append_nil, List.filter_eq_self]
    intro c hc
    simpa using hfull c hc

theorem getD_pair (data : List Str) (i t : Nat) (ht : t < 2) :
    ((data.drop (i * 2)).take 2).getD t [] = data.getD (2 * i + t) [] := by
  simp only [List.getD_eq_getElem?_getD, List.getElem?_take, ht, if_true,
    List.getElem?_drop]
  rw [Nat.mul_comm]

theorem afterFirstSlash_append : ∀ (a b : Str), '/' ∉ a →
    afterFirstSlash (a ++ '/' :: b) = b := by
  intro a
  induction a with
  | nil => intro b _; simp [afterFirstSlash, List.dropWhile]
  | cons c cs ih =>
    intro b h
    have hc : c ≠ '/' := fun e => h (e ▸ List.mem_cons_self _ _)
    have hcs : '/' ∉ cs := fun e => h (List.mem_cons_of_mem _ e)
    have := ih b hcs
    unfold afterFirstSlash at this ⊢
    rw [List.cons_append, List.dropWhile_cons_of_pos (by simpa using hc)]
    exact this

/-- The short id of a full id with exactly one `/` is the text after it; the
short id of any other full id is the full id. -/
theorem simplifiedID_cases (f : Str) :
    (f.count '/' = 1 → simplifiedID f = afterFirstSlash f) ∧
    (f.count '/' ≠ 1 → simplifiedID f = f) := by
  unfold simplifiedID
  simp only
  constructor
  · intro h
    have h2 : (strings.Split f '/').length = 2 := by rw [split_length, h]
    obtain ⟨a, b, ha, hb, e⟩ := (split_length_two '/' f).mp h2
    subst e
    rw [if_pos h2, split_pair '/' a b ha hb, afterFirstSlash_append a b ha]
    rfl
  · intro h
    rw [if_neg]
    rw [split_length]
    omega

end Parser

/-! ## Lemmas: the cache -/

namespace database

open gorm

theorem keysUnique_cons {a : CacheEntry} {db : gorm.DB} :
    KeysUnique (a :: db) ↔ NoEntry db a.Key ∧ KeysUnique db := by
  unfold KeysUnique NoEntry
  rw [List.map_cons, List.nodup_cons]
  constructor
  · rintro ⟨h1, h2⟩
    exact ⟨fun r hr e => h1 (List.mem_map.mpr ⟨r, hr, e⟩), h2⟩
  · rintro ⟨h1, h2⟩
    refine ⟨?_, h2⟩
    intro hm
    obtain ⟨r, hr, e⟩ := List.mem_map.mp hm
    exact h1 r hr e

/-- The query by key finds the row of the key. -/
theorem first_of_mem : ∀ (db : gorm.DB), KeysUnique db → ∀ r ∈ db,
    gorm.First db r.Key = .ok r := by
  intro db
  induction db with
  | nil => intro _ r hr; cases hr
  | cons a as ih =>
    intro hpk r hr
    obtain ⟨hno, hpk2⟩ := keysUnique_cons.mp hpk
    unfold gorm.First
    rcases List.mem_cons.mp hr with e | hm
    · subst e
      simp [List.find?_cons]
    · have hne : a.Key ≠ r.Key := fun e => hno r hm e.symm
      have := ih hpk2 r hm
      unfold gorm.First at this
      simp only [List.find?_cons, hne, decide_False]
      exact this

/-- The query by key finds nothing exactly when no row has the key. -/
theorem first_error_iff (db : gorm.DB) (key : Str) :
    (∃ e, gorm.First db key = .error e) ↔ NoEntry db key := by
  unfold gorm.First NoEntry
  cases hf : db.find? (fun r => decide (r.Key = key)) with
  | none =>
    refine ⟨fun _ r hr => ?_, fun _ => ⟨_, rfl⟩⟩
    have := List.find?_eq_none.mp hf r hr
    simpa using this
  | some entry =>
    have hm := List.mem_of_find?_eq_some hf
    have hk := List.find?_some hf
    constructor
    · rintro ⟨e, he⟩; cases he
    · intro h
      exact absurd (by simpa using hk) (h entry hm)

theorem first_ok_mem {db : gorm.DB} {key : Str} {entry : CacheEntry}
    (h : gorm.First db key = .ok entry) : entry ∈ db ∧ entry.Key = key := by
  unfold gorm.First at h
  cases hf : db.find? (fun r => decide (r.Key = key)) with
  | none => rw [hf] at h; cases h
  | some r =>
    rw [hf] at h
    injection h with h
    subst h
    exact ⟨List.mem_of_find?_eq_some hf, by simpa using List.find?_some hf⟩

theorem noEntry_filter (db : gorm.DB) (key : Str) :
    NoEntry (db.filter (fun r => r.Key ≠ key)) key := by
  intro r hr
  have := (List.mem_filter.mp hr).2
  simpa using this

theorem noEntry_filter_of (db : gorm.DB) (key k : Str) (h : NoEntry db key) :
    NoEntry (db.filter (fun r => r.Key ≠ k)) key :=
  fun r hr => h r (List.mem_filter.mp hr).1

/-- The results of `GetCache`: absence on a table without the key; the value
of a fresh entry; absence on an expired entry, which is deleted unless the key
is the empty string. -/
theorem getCache_cases (db : gorm.DB) (hpk : KeysUnique db) (key : Str) (t : Int) :
    (NoEntry db key → GetCache db t key = (([], false), db)) ∧
    (∀ v e, (⟨key, v, e⟩ : CacheEntry) ∈ db → t ≤ e → GetCache db t key = ((v, true), db)) ∧
    (∀ v e, (⟨key, v, e⟩ : CacheEntry) ∈ db → e < t → key ≠ [] →
      GetCache db t key = (([], false), db.filter (fun r => r.Key ≠ key))) ∧
    (∀ v e, (⟨key, v, e⟩ : CacheEntry) ∈ db → e < t → key = [] →
      GetCache db t key = (([], false), db)) := by
  refine ⟨?_, ?_, ?_, ?_⟩
  · intro h
    obtain ⟨e, he⟩ := (first_error_iff db key).mpr h
    unfold GetCache
    rw [he]
  · intro v e hm hle
    have := first_of_mem db hpk _ hm
    unfold GetCache
    simp only at this
    rw [this]
    simp only [CacheEntry.IsExpired]
    rw [if_neg (by simpa using hle)]
  · intro v e hm hlt hk
    have := first_of_mem db hpk _ hm
    unfold GetCache
    simp only at this
    rw [this]
    simp only [CacheEntry.IsExpired]
    rw [if_pos (by simpa using hlt)]
    unfold gorm.Delete
    rw [if_neg hk]
  · intro v e hm hlt hk
    have := first_of_mem db hpk _ hm
    unfold GetCache
    simp only at this
    rw [this]
    simp only [CacheEntry.IsExpired]
    rw [if_pos (by simpa using hlt)]
    unfold gorm.Delete
    rw [if_pos hk]

/-- The table after `GetCache` is the table before, or its rows of the other
keys. -/
theorem getCache_db (db : gorm.DB) (key : Str) (t : Int) :
    (GetCache db t key).2 = db ∨
    (GetCache db t key).2 = db.filter (fun r => r.Key ≠ key) := by
  unfold GetCache
  cases hf : gorm.First db key with
  | error e => exact Or.inl rfl
  | ok entry =>
    simp only
    split
    · unfold gorm.Delete
      split
      · exact Or.inl rfl
      · rw [(first_ok_mem hf).2]
        exact Or.inr rfl
    · exact Or.inl rfl

theorem getCache_absent (db : gorm.DB) (key : Str) (t : Int) (h : NoEntry db key) :
    GetCache db t key = (([], false), db) := by
  obtain ⟨e, he⟩ := (first_error_iff db key).mpr h
  unfold GetCache
  rw [he]

theorem keysUnique_filter (db : gorm.DB) (p : CacheEntry → Bool) (h : KeysUnique db) :
    KeysUnique (db.filter p) := by
  unfold KeysUnique at h ⊢
  exact List.Nodup.sublist (List.Sublist.map _ (List.filter_sublist db)) h

/-- On a table with one row a key, the rows of the key of a row are that row
alone. -/
theorem filter_key_of_mem : ∀ (db : gorm.DB), KeysUnique db → ∀ r ∈ db,
    db.filter (fun x => x.Key = r.Key) = [r] := by
  intro db
  induction db with
  | nil => intro _ r hr; cases hr
  | cons a as ih =>
    intro hpk r hr
    obtain ⟨hno, hpk2⟩ := keysUnique_cons.mp hpk
    rcases List.mem_cons.mp hr with e | hm
    · subst e
      rw [List.filter_cons_of_pos (by simp)]
      congr 1
      apply List.filter_eq_nil_iff.mpr
      intro x hx
      simpa using hno x hx
    · have hne : a.Key ≠ r.Key := fun e => hno r hm e.symm
      rw [List.filter_cons_of_neg (by simpa using hne)]
      exact ih hpk2 r hm

/-- The table after a `Save` that is not refused: one row a key, the record is
its row of the key, and the rows of the other keys are those of before. -/
theorem save_ok (db : gorm.DB) (hpk : KeysUnique db) (entry : CacheEntry)
    (hk : entry.Key = [] → NoEntry db []) :
    (gorm.Save db entry).2 = none ∧
    KeysUnique (gorm.Save db entry).1 ∧
    entry ∈ (gorm.Save db entry).1 ∧
    (∀ r, r.Key ≠ entry.Key → (r ∈ (gorm.Save db entry).1 ↔ r ∈ db)) := by
  have happend : NoEntry db entry.Key →
      KeysUnique (db ++ [entry]) ∧ entry ∈ db ++ [entry] ∧
      ∀ r, r.Key ≠ entry.Key → (r ∈ db ++ [entry] ↔ r ∈ db) := by
    intro hno
    refine ⟨?_, by simp, ?_⟩
    · unfold KeysUnique at hpk ⊢
      rw [List.map_append, List.nodup_append]
      refine ⟨hpk, by simp, ?_⟩
      intro x hx hy
      rw [List.map_singleton, List.mem_singleton] at hy
      obtain ⟨r, hr, e⟩ := List.mem_map.mp hx
      exact hno r hr (e.trans hy)
    · intro r hr
      rw [List.mem_append, List.mem_singleton]
      exact ⟨fun h => h.elim id (fun e => absurd (e ▸ rfl) hr), Or.inl⟩
  have hany : db.any (fun r => decide (r.Key = entry.Key)) = false → NoEntry db entry.Key := by
    intro h r hr
    have := List.any_eq_false.mp h r hr
    simpa using this
  unfold gorm.Save
  by_cases hz : entry.Key = []
  · have hno : NoEntry db entry.Key := hz ▸ hk hz
    have ha : db.any (fun r => decide (r.Key = entry.Key)) = false := by
      apply List.any_eq_false.mpr
      intro r hr
      simpa using hno r hr
    rw [if_pos hz, ha]
    exact ⟨rfl, happend hno⟩
  · rw [if_neg hz]
    cases ha : db.any (fun r => decide (r.Key = entry.Key)) with
    | false => exact ⟨rfl, happend (hany ha)⟩
    | true =>
      simp only [if_true]
      obtain ⟨x, hx, hxk⟩ := List.any_eq_true.mp ha
      have hxk : x.Key = entry.Key := by simpa using hxk
      have hkeys : (db.map (fun r => if r.Key = entry.Key then entry else r)).map
          (fun r => r.Key) = db.map (fun r => r.Key) := by
        rw [List.map_map]
        apply List.map_congr_left
        intro r _
        show (if r.Key = entry.Key then entry else r).Key = r.Key
        split
        · rename_i h; exact h.symm
        · rfl
      refine ⟨trivial, ?_, ?_, ?_⟩
      · unfold KeysUnique
        rw [hkeys]
        exact hpk
      · exact List.mem_map.mpr ⟨x, hx, by rw [if_pos hxk]⟩
      · intro r hr
        rw [List.mem_map]
        constructor
        · rintro ⟨y, hy, e⟩
          by_cases hyk : y.Key = entry.Key
          · rw [if_pos hyk] at e
            exact absurd (e ▸ rfl) hr
          · rw [if_neg hyk] at e
            exact e ▸ hy
        · intro hm
          exact ⟨r, hm, by rw [if_neg hr]⟩

/-- The table after a `SetCache` under a key that is not the empty string. -/
theorem setCache_ok (db : gorm.DB) (hpk : KeysUnique db) (k v : Str) (ttl t : Int)
    (hk : k ≠ []) :
    (SetCache db t k v ttl).2 = none ∧
    KeysUnique (SetCache db t k v ttl).1 ∧
    (⟨k, v, t + ttl⟩ : CacheEntry) ∈ (SetCache db t k v ttl).1 ∧
    (∀ r, r.Key ≠ k → (r ∈ (SetCache db t k v ttl).1 ↔ r ∈ db)) :=
  save_ok db hpk ⟨k, v, t + ttl⟩ (fun h => absurd h hk)

/-- The reads of the other keys after a delete by key are those of before. -/
theorem first_deleteWhere (db : gorm.DB) (k k1 : Str) (h : k1 ≠ k) :
    gorm.First (gorm.DeleteWhere db k).1 k1 = gorm.First db k1 := by
  unfold gorm.First gorm.DeleteWhere
  simp only
  have : ∀ l : gorm.DB, (l.filter (fun r => r.Key ≠ k)).find? (fun r => r.Key = k1) =
      l.find? (fun r => r.Key = k1) := by
    intro l
    induction l with
    | nil => rfl
    | cons a as ih =>
      by_cases ha : a.Key = k
      · have hne : a.Key ≠ k1 := fun e => h (e.symm.trans ha)
        rw [List.filter_cons_of_neg (by simpa using ha), ih,
          List.find?_cons_of_neg _ (by simpa using hne)]
      · rw [List.filter_cons_of_pos (by simpa using ha)]
        by_cases hb : a.Key = k1
        · rw [List.find?_cons_of_pos _ (by simpa using hb),
            List.find?_cons_of_pos _ (by simpa using hb)]
        · rw [List.find?_cons_of_neg _ (by simpa using hb),
            List.find?_cons_of_neg _ (by simpa using hb), ih]
  rw [this]

end database

/-! ## Lemmas: the services -/

namespace service

theorem deletedKeys_append (a b : List Event) :
    deletedKeys (a ++ b) = deletedKeys a ++ deletedKeys b := by
  unfold deletedKeys
  rw [List.filterMap_append]

theorem accessedKeys_append (a b : List Event) :
    accessedKeys (a ++ b) = accessedKeys a ++ accessedKeys b := by
  unfold accessedKeys
  rw [List.filterMap_append]

theorem db_record (e : Event) (st : State) : (record e st).db = st.db := rfl

theorem keys_cacheGet (env : Env) (k : Str) (st : State) :
    deletedKeys (cacheGet env k st).2.trace = deletedKeys st.trace ∧
    accessedKeys (cacheGet env k st).2.trace = accessedKeys st.trace ++ [k] := by
  unfold cacheGet
  simp only [deletedKeys_append, accessedKeys_append]
  exact ⟨by simp [deletedKeys], by simp [accessedKeys]⟩

theorem keys_cacheSet (env : Env) (k v : Str) (st : State) :
    deletedKeys (cacheSet env k v st).trace = deletedKeys st.trace ∧
    accessedKeys (cacheSet env k v st).trace = accessedKeys st.trace ++ [k] := by
  unfold cacheSet
  simp only [deletedKeys_append, accessedKeys_append]
  exact ⟨by simp [deletedKeys], by simp [accessedKeys]⟩

theorem keys_cacheDelete (k : Str) (st : State) :
    deletedKeys (cacheDelete k st).trace = deletedKeys st.trace ++ [k] ∧
    accessedKeys (cacheDelete k st).trace = accessedKeys st.trace ∧
    (cacheDelete k st).db = (gorm.DeleteWhere st.db k).1 := by
  refine ⟨?_, ?_, rfl⟩
  · simp [cacheDelete, deletedKeys]
  · simp [cacheDelete, accessedKeys]

theorem keys_getClient (d : Str) (st : State) :
    deletedKeys (record (.getClient d) st).trace = deletedKeys st.trace ∧
    accessedKeys (record (.getClient d) st).trace = accessedKeys st.trace := by
  simp [record, deletedKeys, accessedKeys]

theorem keys_get (d e : Str) (ps : List (Str × Str)) (st : State) :
    deletedKeys (record (.get d e ps) st).trace = deletedKeys st.trace ∧
    accessedKeys (record (.get d e ps) st).trace = accessedKeys st.trace := by
  simp [record, deletedKeys, accessedKeys]

theorem keys_post (d e : Str) (ps : List (Str × Str)) (st : State) :
    deletedKeys (record (.post d e ps) st).trace = deletedKeys st.trace ∧
    accessedKeys (record (.post d e ps) st).trace = accessedKeys st.trace := by
  simp [record, deletedKeys, accessedKeys]

theorem ite_pair_snd {α β : Type} (c : Prop) [Decidable c] (a b : α) (s : β) :
    (if c then (a, s) else (b, s)).2 = s := by
  split <;> rfl

theorem getONUDetail_keys (env : Env) (deviceID onuID : Str) (st : State) :
    deletedKeys (GetONUDetail env deviceID onuID st).2.trace = deletedKeys st.trace ∧
    ∃ n, n ≤ 2 ∧
      accessedKeys (GetONUDetail env deviceID onuID st).2.trace =
        accessedKeys st.trace ++ List.replicate n (onuDetailKey deviceID onuID) ∧
      (env.CacheEnabled = true → (strings.Split onuID ':').length = 2 → 1 ≤ n) := by
  unfold GetONUDetail
  simp only
  by_cases hp : (strings.Split onuID ':').length ≠ 2
  · rw [if_pos hp]
    refine ⟨?_, 0, by decide, ?_, fun _ h => absurd h hp⟩ <;> simp
  · rw [if_neg hp]
    cases hc : env.CacheEnabled
    · simp only [Bool.false_eq_true, if_false]
      repeat' split
      all_goals simp only [keys_getClient, keys_get, keys_cacheSet, keys_cacheGet, true_and]
      all_goals exact ⟨0, by decide, by simp, by simp⟩
    · simp only [if_true, ite_pair_snd]
      repeat' split
      all_goals simp only [keys_getClient, keys_get, keys_cacheSet, keys_cacheGet, true_and]
      all_goals first
        | exact ⟨1, by decide, rfl, fun _ _ => Nat.le_refl 1⟩
        | exact ⟨2, by decide, by rw [List.append_assoc]; rfl, fun _ _ => by decide⟩

theorem getONUsByPON_keys (env : Env) (deviceID ponID filter : Str) (st : State) :
    deletedKeys (GetONUsByPON env deviceID ponID filter st).2.trace = deletedKeys st.trace ∧
    ∃ n, n ≤ 2 ∧
      accessedKeys (GetONUsByPON env deviceID ponID filter st).2.trace =
        accessedKeys st.trace ++ List.replicate n (onusKey deviceID ponID) ∧
      (env.CacheEnabled = true → 1 ≤ n) := by
  unfold GetONUsByPON
  simp only
  cases hc : env.CacheEnabled
  · simp only [Bool.false_eq_true, if_false, false_and]
    repeat' split
    all_goals simp only [keys_getClient, keys_get, keys_cacheSet, keys_cacheGet, true_and]
    all_goals exact ⟨0, by decide, by simp, by simp⟩
  · simp only [if_true, ite_pair_snd, true_and]
    repeat' split
    all_goals simp only [keys_getClient, keys_get, keys_cacheSet, keys_cacheGet, true_and]
    all_goals first
      | exact ⟨1, by decide, rfl, fun _ => Nat.le_refl 1⟩
      | exact ⟨2, by decide, by rw [List.append_assoc]; rfl, fun _ => by decide⟩

/-- The two deletes at the end of the mutating operations. -/
theorem keys_invalidate (k1 k2 : Str) (st : State) :
    deletedKeys (cacheDelete k2 (cacheDelete k1 st)).trace = deletedKeys st.trace ++ [k1, k2] ∧
    accessedKeys (cacheDelete k2 (cacheDelete k1 st)).trace = accessedKeys st.trace ∧
    (cacheDelete k2 (cacheDelete k1 st)).db =
      (gorm.DeleteWhere (gorm.DeleteWhere st.db k1).1 k2).1 := by
  refine ⟨?_, ?_, ?_⟩
  · rw [(keys_cacheDelete k2 _).1, (keys_cacheDelete k1 _).1, List.append_assoc]
    rfl
  · rw [(keys_cacheDelete k2 _).2.1, (keys_cacheDelete k1 _).2.1]
  · rw [(keys_cacheDelete k2 _).2.2, (keys_cacheDelete k1 _).2.2]

theorem updateONUName_keys (env : Env) (deviceID port index newName : Str) (st : State)
    (hp : ':' ∉ port) (hi : ':' ∉ index) :
    ((UpdateONUName env deviceID (port ++ ':' :: index) newName st).1 = none →
      deletedKeys (UpdateONUName env deviceID (port ++ ':' :: index) newName st).2.trace =
        deletedKeys st.trace ++
          [onusKey deviceID port, onuDetailKey deviceID (port ++ ':' :: index)] ∧
      (UpdateONUName env deviceID (port ++ ':' :: index) newName st).2.db =
        (gorm.DeleteWhere (gorm.DeleteWhere st.db (onusKey deviceID port)).1
          (onuDetailKey deviceID (port ++ ':' :: index))).1) ∧
    ((UpdateONUName env deviceID (port ++ ':' :: index) newName st).1 ≠ none →
      deletedKeys (UpdateONUName env deviceID (port ++ ':' :: index) newName st).2.trace =
        deletedKeys st.trace ∧
      (UpdateONUName env deviceID (port ++ ':' :: index) newName st).2.db = st.db) := by
  unfold UpdateONUName
  simp only
  rw [split_pair ':' port index hp hi,
    if_neg (show ¬ [port, index].length ≠ 2 from fun h => h rfl)]
  simp only [List.getD_cons_zero]
  repeat' split
  all_goals simp [keys_getClient, keys_post, keys_invalidate, db_record]

theorem deleteONU_keys (env : Env) (deviceID port index : Str) (st : State)
    (hp : ':' ∉ port) (hi : ':' ∉ index) :
    ((DeleteONU env deviceID (port ++ ':' :: index) st).1 = none →
      deletedKeys (DeleteONU env deviceID (port ++ ':' :: index) st).2.trace =
        deletedKeys st.trace ++
          [onusKey deviceID port, onuDetailKey deviceID (port ++ ':' :: index)] ∧
      (DeleteONU env deviceID (port ++ ':' :: index) st).2.db =
        (gorm.DeleteWhere (gorm.DeleteWhere st.db (onusKey deviceID port)).1
          (onuDetailKey deviceID (port ++ ':' :: index))).1) ∧
    ((DeleteONU env deviceID (port ++ ':' :: index) st).1 ≠ none →
      deletedKeys (DeleteONU env deviceID (port ++ ':' :: index) st).2.trace =
        deletedKeys st.trace ∧
      (DeleteONU env deviceID (port ++ ':' :: index) st).2.db = st.db) := by
  unfold DeleteONU
  simp only
  rw [split_pair ':' port index hp hi,
    if_neg (show ¬ [port, index].length ≠ 2 from fun h => h rfl)]
  simp only [List.getD_cons_zero]
  repeat' split
  all_goals simp [keys_getClient, keys_post, keys_invalidate, db_record]

theorem performAction_keys (env : Env) (deviceID port index action : Str) (st : State)
    (hp : ':' ∉ port) (hi : ':' ∉ index) :
    ((PerformAction env deviceID (port ++ ':' :: index) action st).1 = none →
      deletedKeys (PerformAction env deviceID (port ++ ':' :: index) action st).2.trace =
        deletedKeys st.trace ++
          [onusKey deviceID port, onuDetailKey deviceID (port ++ ':' :: index)] ∧
      (PerformAction env deviceID (port ++ ':' :: index) action st).2.db =
        (gorm.DeleteWhere (gorm.DeleteWhere
          (GetONUDetail env deviceID (port ++ ':' :: index) st).2.db (onusKey deviceID port)).1
          (onuDetailKey deviceID (port ++ ':' :: index))).1) ∧
    ((PerformAction env deviceID (port ++ ':' :: index) action st).1 ≠ none →
      deletedKeys (PerformAction env deviceID (port ++ ':' :: index) action st).2.trace =
        deletedKeys st.trace) := by
  have hdel := (getONUDetail_keys env deviceID (port ++ ':' :: index) st).1
  unfold PerformAction
  simp only
  rw [split_pair ':' port index hp hi,
    if_neg (show ¬ [port, index].length ≠ 2 from fun h => h rfl)]
  simp only [List.getD_cons_zero]
  cases onuOperationOf (strings.ToLower env.unicodeToLower action) with
  | none => simp
  | some onuOperation =>
    simp only
    cases hd : GetONUDetail env deviceID (port ++ ':' :: index) st with
    | mk r st1 =>
      rw [hd] at hdel
      simp only at hdel
      cases r with
      | error err => simp [hdel]
      | ok detail =>
        simp only
        repeat' split
        all_goals simp [keys_getClient, keys_post, keys_invalidate, db_record, hdel]

/-- After the two deletes no entry is left under either key. -/
theorem noEntry_invalidate (db : gorm.DB) (k1 k2 : Str) :
    NoEntry (gorm.DeleteWhere (gorm.DeleteWhere db k1).1 k2).1 k1 ∧
    NoEntry (gorm.DeleteWhere (gorm.DeleteWhere db k1).1 k2).1 k2 :=
  ⟨database.noEntry_filter_of _ k1 k2 (database.noEntry_filter db k1),
    database.noEntry_filter _ k2⟩

end service

/-! ## Lemmas: the worker pool -/

namespace scraper

theorem sum_map_set {α : Type} (f : α → Nat) : ∀ (l : List α) (w : Nat) (old x : α),
    l[w]? = some old → ((l.set w x).map f).sum + f old = (l.map f).sum + f x := by
  intro l
  induction l with
  | nil => intro w old x h; cases h
  | cons a as ih =>
    intro w old x h
    cases w with
    | zero =>
      simp only [List.getElem?_cons_zero, Option.some.injEq] at h
      subst h
      simp only [List.set_cons_zero, List.map_cons, List.sum_cons]
      omega
    | succ n =>
      simp only [List.getElem?_cons_succ] at h
      have := ih n old x h
      simp only [List.set_cons_succ, List.map_cons, List.sum_cons]
      omega

theorem mem_set_of_ne {α : Type} {l : List α} {w : Nat} {a b x : α}
    (ha : a ∈ l) (hb : l[w]? = some b) (hne : a ≠ b) : a ∈ l.set w x := by
  obtain ⟨i, hi⟩ := List.mem_iff_getElem?.mp ha
  have hiw : w ≠ i := by
    intro e
    rw [e, hi] at hb
    exact hne (Option.some.inj hb)
  apply List.mem_iff_getElem?.mpr
  exact ⟨i, by rw [List.getElem?_set_ne hiw]; exact hi⟩

theorem mem_set_or {α : Type} {l : List α} {w : Nat} {a b x : α}
    (ha : a ∈ l) (hb : l[w]? = some b) : a ∈ l.set w x ∨ a = b := by
  by_cases h : a = b
  · exact Or.inr h
  · exact Or.inl (mem_set_of_ne ha hb h)

theorem mem_set_self_of {α : Type} {l : List α} {w : Nat} {b : α} (x : α)
    (hb : l[w]? = some b) : x ∈ l.set w x := by
  have hw : w < l.length := by
    by_contra h
    rw [List.getElem?_eq_none (by omega)] at hb
    cases hb
  exact List.mem_iff_getElem?.mpr ⟨w, by rw [List.getElem?_set_self hw]⟩

theorem busy_pos_of_mem {T : Type} : ∀ (l : List (Worker T)) (x : Worker T), x ∈ l →
    x.busy ≤ (l.map Worker.busy).sum := by
  intro l
  induction l with
  | nil => intro x h; cases h
  | cons a as ih =>
    intro x h
    simp only [List.map_cons, List.sum_cons]
    rcases List.mem_cons.mp h with e | e
    · subst e; omega
    · have := ih x e
      omega

/-- In the list of the items with their indices an index has one item. -/
theorem enum_functional {T : Type} (items : List T) (i : Nat) (a b : T)
    (ha : (i, a) ∈ items.enum) (hb : (i, b) ∈ items.enum) : a = b := by
  rw [List.mk_mem_enum_iff_getElem?] at ha hb
  rw [ha] at hb
  exact Option.some.inj hb

/-- A step of `Process` keeps the invariant and is one of the steps to
take. -/
theorem step_inv {T R E : Type} (fn : T → R × Option E) (items : List T) (W : Nat)
    (a : Action) (p q : Pool T R E) (hinv : Process.Inv fn items W p)
    (h : Process.step fn a p = some q) :
    Process.Inv fn items W q ∧ Process.measure q + 1 = Process.measure p := by
  obtain ⟨hw, hcap, hopen, hlen, hwg, htasks, htodo, hqueue, hrun, hret⟩ := hinv
  cases a with
  | submit =>
    unfold Process.step at h
    simp only at h
    cases htd : p.todo with
    | nil => rw [htd] at h; cases h
    | cons t rest =>
      rw [htd] at h
      simp only at h
      by_cases hr : p.returned = true
      · rw [if_pos hr] at h; cases h
      · rw [if_neg hr, hopen] at h
        simp only [Bool.false_eq_true, if_false] at h
        by_cases hfull : p.taskQueue.length < p.capacity
        · rw [if_pos hfull] at h
          injection h with h
          subst h
          refine ⟨⟨hw, hcap, rfl, hlen, ?_, ?_, ?_, ?_, hrun, ?_⟩, ?_⟩
          · show p.wg + 1 = (p.taskQueue ++ [t]).length + (p.workers.map Worker.busy).sum
            rw [List.length_append, hwg]
            simp only [List.length_singleton]
            omega
          · intro t1 ht1
            rcases htasks t1 ht1 with h1 | h1 | h1 | h1
            · rw [htd] at h1
              rcases List.mem_cons.mp h1 with e | e
              · exact Or.inr (Or.inl (by subst e; simp))
              · exact Or.inl e
            · exact Or.inr (Or.inl (List.mem_append_left _ h1))
            · exact Or.inr (Or.inr (Or.inl h1))
            · exact Or.inr (Or.inr (Or.inr h1))
          · intro t1 ht1
            exact htodo t1 (by rw [htd]; exact List.mem_cons_of_mem _ ht1)
          · intro t1 ht1
            rcases List.mem_append.mp ht1 with e | e
            · exact hqueue t1 e
            · rw [List.mem_singleton] at e
              exact htodo t1 (by rw [htd, e]; exact List.mem_cons_self _ _)
          · intro hr2
            exact absurd hr2 hr
          · simp only [Process.measure, htd, List.length_cons, List.length_append,
              List.length_singleton, List.length_nil]
            omega
        · rw [if_neg hfull] at h; cases h
  | receive w =>
    unfold Process.step at h
    simp only at h
    cases hwk : p.workers[w]? with
    | none => rw [hwk] at h; simp at h
    | some wk =>
      cases wk with
      | running i itm => rw [hwk] at h; simp at h
      | finishing => rw [hwk] at h; simp at h
      | idle =>
        cases hq : p.taskQueue with
        | nil => rw [hwk, hq] at h; simp at h
        | cons t rest =>
          rw [hwk, hq] at h
          simp only at h
          injection h with h
          subst h
          have hb := sum_map_set Worker.busy p.workers w .idle (.running t.1 t.2) hwk
          have hm := sum_map_set Worker.weight p.workers w .idle (.running t.1 t.2) hwk
          simp only [Worker.busy, Worker.weight] at hb hm
          have hnr : p.returned ≠ true := by
            intro hr
            have := (hret hr).2
            rw [hwg, hq] at this
            simp at this
          refine ⟨⟨by simp [hw], hcap, hopen, hlen, ?_, ?_, htodo, ?_, ?_, ?_⟩, ?_⟩
          · show p.wg = rest.length +
              ((p.workers.set w (.running t.1 t.2)).map Worker.busy).sum
            rw [hwg, hq, List.length_cons]
            omega
          · intro t1 ht1
            rcases htasks t1 ht1 with h1 | h1 | h1 | h1
            · exact Or.inl h1
            · rw [hq] at h1
              rcases List.mem_cons.mp h1 with e | e
              · subst e
                exact Or.inr (Or.inr (Or.inl (mem_set_self_of _ hwk)))
              · exact Or.inr (Or.inl e)
            · exact Or.inr (Or.inr (Or.inl (mem_set_of_ne h1 hwk (by simp))))
            · exact Or.inr (Or.inr (Or.inr h1))
          · intro t1 ht1
            exact hqueue t1 (by rw [hq]; exact List.mem_cons_of_mem _ ht1)
          · intro i itm hmem
            rcases List.mem_or_eq_of_mem_set hmem with e | e
            · exact hrun i itm e
            · injection e with e1 e2
              subst e1; subst e2
              exact hqueue t (by rw [hq]; exact List.mem_cons_self _ _)
          · intro hr
            exact absurd hr hnr
          · simp only [Process.measure, hq, List.length_cons]
            omega
  | write w =>
    unfold Process.step at h
    simp only at h
    cases hwk : p.workers[w]? with
    | none => rw [hwk] at h; simp at h
    | some wk =>
      cases wk with
      | idle => rw [hwk] at h; simp at h
      | finishing => rw [hwk] at h; simp at h
      | running idx itm =>
        rw [hwk] at h
        simp only at h
        injection h with h
        subst h
        have hb := sum_map_set Worker.busy p.workers w (.running idx itm) .finishing hwk
        have hm := sum_map_set Worker.weight p.workers w (.running idx itm) .finishing hwk
        simp only [Worker.busy, Worker.weight] at hb hm
        have hmemw : Worker.running idx itm ∈ p.workers :=
          List.mem_iff_getElem?.mpr ⟨w, hwk⟩
        have henum := hrun idx itm hmemw
        have hidx : idx < p.results.length := by
          rw [hlen]
          exact (List.mk_mem_enum_iff_getElem?.mp henum |> List.getElem?_eq_some_iff.mp).1
        have hnr : p.returned ≠ true := by
          intro hr
          have := (hret hr).2
          have hpos := busy_pos_of_mem p.workers _ hmemw
          simp only [Worker.busy] at hpos
          omega
        refine ⟨⟨by simp [hw], hcap, hopen, by simp [hlen], ?_, ?_, htodo, hqueue, ?_, ?_⟩, ?_⟩
        · show p.wg = p.taskQueue.length + ((p.workers.set w .finishing).map Worker.busy).sum
          rw [hwg]
          omega
        · intro t1 ht1
          have hslot : ∀ (t2 : Nat × T), t2 ∈ items.enum → t2.1 = idx →
              (p.results.set idx (slotOf fn (idx, itm)))[t2.1]? = some (slotOf fn t2) := by
            intro t2 ht2 he
            have hitm : t2.2 = itm := by
              apply enum_functional items idx
              · rw [← he]; exact ht2
              · exact henum
            rw [he, List.getElem?_set_self hidx]
            congr 1
            rw [← he, ← hitm]
          rcases htasks t1 ht1 with h1 | h1 | h1 | h1
          · exact Or.inl h1
          · exact Or.inr (Or.inl h1)
          · rcases mem_set_or (x := Worker.finishing) h1 hwk with e | e
            · exact Or.inr (Or.inr (Or.inl e))
            · injection e with e1 e2
              exact Or.inr (Or.inr (Or.inr (hslot t1 ht1 e1)))
          · by_cases he : t1.1 = idx
            · exact Or.inr (Or.inr (Or.inr (hslot t1 ht1 he)))
            · refine Or.inr (Or.inr (Or.inr ?_))
              show (p.results.set idx _)[t1.1]? = _
              rw [List.getElem?_set_ne (fun e => he e.symm)]
              exact h1
        · intro i itm1 hmem
          rcases List.mem_or_eq_of_mem_set hmem with e | e
          · exact hrun i itm1 e
          · cases e
        · intro hr
          exact absurd hr hnr
        · simp only [Process.measure]
          omega
  | done w =>
    unfold Process.step at h
    simp only at h
    cases hwk : p.workers[w]? with
    | none => rw [hwk] at h; simp at h
    | some wk =>
      cases wk with
      | idle => rw [hwk] at h; simp at h
      | running i itm => rw [hwk] at h; simp at h
      | finishing =>
        rw [hwk] at h
        simp only at h
        injection h with h
        subst h
        have hb := sum_map_set Worker.busy p.workers w .finishing .idle hwk
        have hm := sum_map_set Worker.weight p.workers w .finishing .idle hwk
        simp only [Worker.busy, Worker.weight] at hb hm
        have hnr : p.returned ≠ true := by
          intro hr
          have := (hret hr).2
          omega
        refine ⟨⟨by simp [hw], hcap, hopen, hlen, ?_, ?_, htodo, hqueue, ?_, ?_⟩, ?_⟩
        · show p.wg - 1 = p.taskQueue.length + ((p.workers.set w .idle).map Worker.busy).sum
          rw [hwg]
          omega
        · intro t1 ht1
          rcases htasks t1 ht1 with h1 | h1 | h1 | h1
          · exact Or.inl h1
          · exact Or.inr (Or.inl h1)
          · exact Or.inr (Or.inr (Or.inl (mem_set_of_ne h1 hwk (by simp))))
          · exact Or.inr (Or.inr (Or.inr h1))
        · intro i itm1 hmem
          rcases List.mem_or_eq_of_mem_set hmem with e | e
          · exact hrun i itm1 e
          · cases e
        · intro hr
          exact absurd hr hnr
        · simp only [Process.measure]
          omega
  | wait =>
    unfold Process.step at h
    simp only at h
    cases htd : p.todo with
    | cons t rest => rw [htd] at h; cases h
    | nil =>
      rw [htd] at h
      simp only at h
      by_cases hc : p.wg = 0 ∧ p.returned = false
      · rw [if_pos hc] at h
        injection h with h
        subst h
        refine ⟨⟨hw, hcap, hopen, hlen, hwg, ?_, ?_, hqueue, hrun,
          fun _ => ⟨rfl, hc.1⟩⟩, ?_⟩
        · intro t1 ht1
          rcases htasks t1 ht1 with h1 | h1 | h1 | h1
          · rw [htd] at h1; cases h1
          · exact Or.inr (Or.inl h1)
          · exact Or.inr (Or.inr (Or.inl h1))
          · exact Or.inr (Or.inr (Or.inr h1))
        · intro t1 ht1
          cases ht1
        · simp only [Process.measure, hc.2, htd]
          simp
      · rw [if_neg hc] at h; cases h

/-- The number of workers of `NewWorkerPool`. -/
theorem newWorkerPool_workers (T R E : Type) (workers : Int) :
    (NewWorkerPool T R E workers).workers =
      List.replicate (if workers ≤ 0 then 10 else workers.toNat) Worker.idle ∧
    (NewWorkerPool T R E workers).capacity = 2 * (if workers ≤ 0 then 10 else workers.toNat) ∧
    0 < (if workers ≤ 0 then 10 else workers.toNat) := by
  by_cases h : workers ≤ 0
  · refine ⟨?_, ?_, ?_⟩ <;> simp [NewWorkerPool, h]
  · refine ⟨?_, ?_, ?_⟩ <;> simp [NewWorkerPool, h] <;> omega

theorem sum_replicate_idle {T : Type} (f : Worker T → Nat) (hf : f .idle = 0) (n : Nat) :
    ((List.replicate n (Worker.idle : Worker T)).map f).sum = 0 := by
  induction n with
  | zero => rfl
  | succ k ih => simp [List.replicate_succ, hf, ih]

/-- The start of `Process` on a new pool satisfies the invariant, with
`4 N + 1` steps to take. -/
theorem start_inv {T R E : Type} (fn : T → R × Option E) (zero : R) (items : List T)
    (workers : Int) :
    Process.Inv fn items (if workers ≤ 0 then 10 else workers.toNat)
      (Process.start zero (NewWorkerPool T R E workers) items) ∧
    Process.measure (Process.start zero (NewWorkerPool T R E workers) items) =
      4 * items.length + 1 := by
  obtain ⟨hw, hcap, _⟩ := newWorkerPool_workers T R E workers
  have hq : (NewWorkerPool T R E workers).taskQueue = [] := rfl
  have hwg : (NewWorkerPool T R E workers).wg = 0 := rfl
  refine ⟨⟨?_, hcap, rfl, ?_, ?_, ?_, ?_, ?_, ?_, ?_⟩, ?_⟩
  · show (NewWorkerPool T R E workers).workers.length = _
    rw [hw, List.length_replicate]
  · show (List.replicate items.length _).length = _
    rw [List.length_replicate]
  · show (NewWorkerPool T R E workers).wg = (NewWorkerPool T R E workers).taskQueue.length +
      ((NewWorkerPool T R E workers).workers.map Worker.busy).sum
    rw [hwg, hq, hw, sum_replicate_idle Worker.busy rfl]
    rfl
  · intro t ht
    exact Or.inl ht
  · intro t ht
    exact ht
  · intro t ht
    rw [show (Process.start zero (NewWorkerPool T R E workers) items).taskQueue = [] from rfl]
      at ht
    cases ht
  · intro i itm hmem
    rw [show (Process.start zero (NewWorkerPool T R E workers) items).workers =
      (NewWorkerPool T R E workers).workers from rfl, hw] at hmem
    have := List.eq_of_mem_replicate hmem
    cases this
  · intro h
    cases h
  · show 4 * items.enum.length + 3 * (NewWorkerPool T R E workers).taskQueue.length +
      ((NewWorkerPool T R E workers).workers.map Worker.weight).sum + 1 = _
    rw [hq, hw, sum_replicate_idle Worker.weight rfl, List.enum_length]
    rfl

/-- A run of `Process` keeps the invariant, and its steps are steps to take. -/
theorem run_inv {T R E : Type} (fn : T → R × Option E) (items : List T) (W : Nat) :
    ∀ (schedule : List Action) (p q : Pool T R E), Process.Inv fn items W p →
      Process.run fn schedule p = some q →
      Process.Inv fn items W q ∧ Process.measure q + schedule.length = Process.measure p := by
  intro schedule
  induction schedule with
  | nil =>
    intro p q hinv h
    injection h with h
    subst h
    exact ⟨hinv, rfl⟩
  | cons a as ih =>
    intro p q hinv h
    unfold Process.run at h
    cases hs : Process.step fn a p with
    | none => rw [hs] at h; cases h
    | some p1 =>
      rw [hs] at h
      obtain ⟨h1, h2⟩ := step_inv fn items W a p p1 hinv hs
      obtain ⟨h3, h4⟩ := ih p1 q h1 h
      refine ⟨h3, ?_⟩
      rw [List.length_cons]
      omega

/-- When `Process` has returned, `results` is the slice of the
specification. -/
theorem returned_results {T R E : Type} (fn : T → R × Option E) (items : List T) (W : Nat)
    (p : Pool T R E) (hinv : Process.Inv fn items W p) (hr : p.returned = true) :
    p.results = expectedResults fn items := by
  obtain ⟨htd, hwg0⟩ := hinv.ret hr
  have hq : p.taskQueue = [] := by
    have := hinv.wg
    rw [hwg0] at this
    exact List.eq_nil_of_length_eq_zero (by omega)
  have hbusy : (p.workers.map Worker.busy).sum = 0 := by
    have := hinv.wg
    omega
  apply List.ext_getElem?
  intro i
  by_cases hi : i < items.length
  · have hmem : (i, items[i]) ∈ items.enum :=
      List.mk_mem_enum_iff_getElem?.mpr (List.getElem?_eq_getElem hi)
    have hexp : (expectedResults fn items)[i]? = some (slotOf fn (i, items[i])) := by
      unfold expectedResults
      rw [List.getElem?_map, List.getElem?_enum, List.getElem?_eq_getElem hi]
      rfl
    rw [hexp]
    rcases hinv.tasks _ hmem with h1 | h1 | h1 | h1
    · rw [htd] at h1; cases h1
    · rw [hq] at h1; cases h1
    · have := busy_pos_of_mem p.workers _ h1
      simp only [Worker.busy] at this
      omega
    · exact h1
  · rw [List.getElem?_eq_none (by rw [hinv.len]; omega),
      List.getElem?_eq_none (by simp [expectedResults]; omega)]

theorem busy_zero_of_idle {T : Type} : ∀ (l : List (Worker T)),
    (∀ x ∈ l, x = Worker.idle) → (l.map Worker.busy).sum = 0 := by
  intro l
  induction l with
  | nil => intro _; rfl
  | cons a as ih =>
    intro h
    have ha := h a (List.mem_cons_self _ _)
    subst ha
    simp only [List.map_cons, List.sum_cons, Worker.busy, Nat.zero_add]
    exact ih (fun x hx => h x (List.mem_cons_of_mem _ hx))

/-- As long as `Process` has not returned, some goroutine can take a step. -/
theorem progress {T R E : Type} (fn : T → R × Option E) (items : List T) (W : Nat)
    (hW : 0 < W) (p : Pool T R E) (hinv : Process.Inv fn items W p)
    (hr : p.returned = false) : ∃ a q, Process.step fn a p = some q := by
  classical
  by_cases hbusy : ∃ (w : Nat) (wk : Worker T), p.workers[w]? = some wk ∧ wk ≠ Worker.idle
  · obtain ⟨w, wk, hwk, hne⟩ := hbusy
    cases wk with
    | idle => exact absurd rfl hne
    | running idx itm =>
      exact ⟨.write w, _, by unfold Process.step; simp only; rw [hwk]⟩
    | finishing =>
      exact ⟨.done w, _, by unfold Process.step; simp only; rw [hwk]⟩
  · have hidle : ∀ x ∈ p.workers, x = Worker.idle := by
      intro x hx
      by_contra hne
      obtain ⟨w, hw⟩ := List.mem_iff_getElem?.mp hx
      exact hbusy ⟨w, x, hw, hne⟩
    have h0 : p.workers[0]? = some Worker.idle := by
      have hlen : 0 < p.workers.length := by rw [hinv.workers]; exact hW
      rw [List.getElem?_eq_getElem hlen]
      exact congrArg some (hidle _ (List.getElem_mem _))
    cases hq : p.taskQueue with
    | cons t rest =>
      exact ⟨.receive 0, _, by unfold Process.step; simp only; rw [h0, hq]⟩
    | nil =>
      have hwg : p.wg = 0 := by
        rw [hinv.wg, hq, busy_zero_of_idle _ hidle]
        rfl
      cases htd : p.todo with
      | nil =>
        exact ⟨.wait, _, by
          unfold Process.step
          simp only
          rw [htd]
          simp only
          rw [if_pos ⟨hwg, hr⟩]⟩
      | cons t rest =>
        exact ⟨.submit, _, by
          unfold Process.step
          simp only
          rw [htd]
          simp only
          rw [hr, hinv.isOpen]
          simp only [Bool.false_eq_true, if_false]
          rw [if_pos (by rw [hq, hinv.capacity]; simp; omega)]⟩

/-- Every state of a run of `Process` has a run to the return. -/
theorem complete {T R E : Type} (fn : T → R × Option E) (items : List T) (W : Nat)
    (hW : 0 < W) : ∀ (n : Nat) (p : Pool T R E), Process.measure p = n →
      Process.Inv fn items W p →
      ∃ schedule q, Process.run fn schedule p = some q ∧ q.returned = true := by
  intro n
  induction n with
  | zero =>
    intro p hm hinv
    refine ⟨[], p, rfl, ?_⟩
    cases hr : p.returned with
    | true => rfl
    | false =>
      unfold Process.measure at hm
      rw [hr] at hm
      simp at hm
  | succ k ih =>
    intro p hm hinv
    cases hr : p.returned with
    | true => exact ⟨[], p, rfl, hr⟩
    | false =>
      obtain ⟨a, p1, hs⟩ := progress fn items W hW p hinv hr
      obtain ⟨h1, h2⟩ := step_inv fn items W a p p1 hinv hs
      obtain ⟨schedule, q, hrun, hq⟩ := ih p1 (by omega) h1
      refine ⟨a :: schedule, q, ?_, hq⟩
      unfold Process.run
      rw [hs]
      exact hrun

/-- The writes of the slots in any order: the slot of every task written, or
right before, is right after. -/
theorem writeSlots_slots {T R E : Type} (fn : T → R × Option E) (items : List T) :
    ∀ (order : List (Nat × T)) (results : List (BatchResult R E)),
      (∀ t ∈ order, t ∈ items.enum) → results.length = items.length →
      (writeSlots fn order results).length = items.length ∧
      ∀ t ∈ items.enum, (t ∈ order ∨ results[t.1]? = some (slotOf fn t)) →
        (writeSlots fn order results)[t.1]? = some (slotOf fn t) := by
  intro order
  induction order with
  | nil =>
    intro results _ hlen
    refine ⟨hlen, ?_⟩
    intro t _ h
    rcases h with h | h
    · cases h
    · exact h
  | cons a as ih =>
    intro results hord hlen
    have ha : a ∈ items.enum := hord a (List.mem_cons_self _ _)
    have hidx : a.1 < results.length := by
      rw [hlen]
      exact (List.mk_mem_enum_iff_getElem?.mp ha |> List.getElem?_eq_some_iff.mp).1
    obtain ⟨h1, h2⟩ := ih (results.set a.1 (slotOf fn a))
      (fun t ht => hord t (List.mem_cons_of_mem _ ht)) (by rw [List.length_set]; exact hlen)
    refine ⟨h1, ?_⟩
    intro t ht h
    apply h2 t ht
    have hsame : t.1 = a.1 → (results.set a.1 (slotOf fn a))[t.1]? = some (slotOf fn t) := by
      intro e
      have : t = a := by
        apply Prod.ext e
        apply enum_functional items a.1
        · rw [← e]; exact ht
        · exact ha
      rw [this, List.getElem?_set_self hidx]
    rcases h with h | h
    · rcases List.mem_cons.mp h with e | e
      · exact Or.inr (hsame (by rw [e]))
      · exact Or.inl e
    · by_cases e : t.1 = a.1
      · exact Or.inr (hsame e)
      · right
        rw [List.getElem?_set_ne (fun x => e x.symm)]
        exact h

/-- The slice of the specification, slot by slot. -/
theorem expectedResults_slot {T R E : Type} (fn : T → R × Option E) (items : List T) :
    (expectedResults fn items).length = items.length ∧
    ∀ (i : Nat) (h : i < items.length),
      (expectedResults fn items)[i]? =
        some { Index := i, Result := (fn items[i]).1, Error := (fn items[i]).2 } := by
  refine ⟨by simp [expectedResults], ?_⟩
  intro i h
  unfold expectedResults
  rw [List.getElem?_map, List.getElem?_enum, List.getElem?_eq_getElem h]
  rfl

/-- The writes of the slots of all the tasks, in any order, give the slice of
the specification. -/
theorem writeSlots_perm {T R E : Type} (fn : T → R × Option E) (items : List T)
    (order : List (Nat × T)) (hperm : order.Perm items.enum)
    (results : List (BatchResult R E)) (hlen : results.length = items.length) :
    writeSlots fn order results = expectedResults fn items := by
  obtain ⟨h1, h2⟩ := writeSlots_slots fn items order results
    (fun t ht => hperm.mem_iff.mp ht) hlen
  apply List.ext_getElem?
  intro i
  by_cases hi : i < items.length
  · have hmem : (i, items[i]) ∈ items.enum :=
      List.mk_mem_enum_iff_getElem?.mpr (List.getElem?_eq_getElem hi)
    rw [(expectedResults_slot fn items).2 i hi]
    exact h2 _ hmem (Or.inl (hperm.mem_iff.mpr hmem))
  · rw [List.getElem?_eq_none (by rw [h1]; omega),
      List.getElem?_eq_none (by rw [(expectedResults_slot fn items).1]; omega)]

theorem run_append {T R E : Type} (fn : T → R × Option E) :
    ∀ (s1 s2 : List Action) (p q : Pool T R E), Process.run fn s1 p = some q →
      Process.run fn (s1 ++ s2) p = Process.run fn s2 q := by
  intro s1
  induction s1 with
  | nil =>
    intro s2 p q h
    injection h with h
    subst h
    rfl
  | cons a as ih =>
    intro s2 p q h
    unfold Process.run at h
    rw [List.cons_append]
    cases hs : Process.step fn a p with
    | none => rw [hs] at h; cases h
    | some p1 =>
      rw [hs] at h
      rw [show Process.run fn (a :: (as ++ s2)) p =
        (match Process.step fn a p with
          | some q => Process.run fn (as ++ s2) q
          | none => none) from rfl, hs]
      exact ih s2 p1 q h

end scraper

namespace service

/-- With a unit id of two parts `GetONUDetail` does not return the error of the
unit id. -/
theorem getONUDetail_not_invalid (env : Env) (d u : Str) (st : State)
    (h : (strings.Split u ':').length = 2) (x : Str) :
    (GetONUDetail env d u st).1 ≠ .error (.invalidONUID x) := by
  unfold GetONUDetail
  simp only
  rw [if_neg (fun hn => hn h)]
  repeat' split
  all_goals simp

end service

namespace Parser

theorem collapseSpaces_append (c : Char) (rest : Str) (hc : isReSpace c = false) :
    ∀ (v : Str) (inRun : Bool),
      collapseSpaces inRun (v ++ c :: rest) =
        collapseSpaces inRun v ++ c :: collapseSpaces false rest := by
  intro v
  induction v with
  | nil => intro inRun; simp [collapseSpaces, hc]
  | cons x v ih =>
    intro inRun
    rw [List.cons_append, collapseSpaces_cons, collapseSpaces_cons, ih true, ih false]
    by_cases hx : isReSpace x = true
    · cases inRun <;> simp [hx]
    · simp [hx]

theorem mem_collapseSpaces {x : Char} :
    ∀ (v : Str) (inRun : Bool), x ∈ collapseSpaces inRun v → x ∈ v ∨ x = ' ' := by
  intro v
  induction v with
  | nil => intro inRun h; simp [collapseSpaces] at h
  | cons c v ih =>
    intro inRun h
    rw [collapseSpaces_cons] at h
    by_cases hc : isReSpace c = true
    · cases inRun with
      | true =>
        simp only [hc, if_true] at h
        rcases ih true h with h1 | h1
        · exact .inl (List.mem_cons_of_mem _ h1)
        · exact .inr h1
      | false =>
        simp only [hc, if_true, Bool.false_eq_true, if_false, List.mem_cons] at h
        rcases h with h | h
        · exact .inr h
        · rcases ih true h with h1 | h1
          · exact .inl (List.mem_cons_of_mem _ h1)
          · exact .inr h1
    · rw [if_neg hc, List.mem_cons] at h
      rcases h with h2 | h2
      · exact .inl (h2 ▸ List.mem_cons_self _ _)
      · rcases ih false h2 with h1 | h1
        · exact .inl (List.mem_cons_of_mem _ h1)
        · exact .inr h1

theorem collapseSpaces_ne_nil {v : Str} (h : v ≠ []) : collapseSpaces false v ≠ [] := by
  cases v with
  | nil => exact absurd rfl h
  | cons c v =>
    rw [collapseSpaces_cons]
    by_cases hc : isReSpace c = true <;> simp [hc]

theorem length_collapseSpaces :
    ∀ (v : Str) (inRun : Bool), (collapseSpaces inRun v).length ≤ v.length := by
  intro v
  induction v with
  | nil => intro inRun; simp [collapseSpaces]
  | cons c v ih =>
    intro inRun
    rw [collapseSpaces_cons]
    have h1 := ih true
    have h2 := ih false
    by_cases hc : isReSpace c = true
    · cases inRun <;> simp [hc] <;> omega
    · simp [hc]; omega

/-- The collapse leaves a text as it is exactly when white space occurs in it
only as single blanks (and, inside a run, when the text does not go on with
white space). -/
theorem collapseSpaces_eq_self_iff :
    ∀ (v : Str) (inRun : Bool),
      collapseSpaces inRun v = v ↔
        SingleSpaced v ∧ (inRun = true → ∀ d, v.head? = some d → isReSpace d = false) := by
  intro v
  induction v with
  | nil => intro inRun; simp [collapseSpaces, SingleSpaced]
  | cons c v ih =>
    intro inRun
    rw [collapseSpaces_cons]
    by_cases hc : isReSpace c = true
    · cases inRun with
      | true =>
        simp only [hc, if_true]
        constructor
        · intro h
          have := length_collapseSpaces v true
          rw [h] at this
          simp at this
        · rintro ⟨_, h⟩
          have := h trivial c rfl
          rw [hc] at this
          cases this
      | false =>
        simp only [hc, if_true, Bool.false_eq_true, if_false]
        constructor
        · intro h
          injection h with h1 h2
          obtain ⟨hs, hh⟩ := (ih true).mp h2
          exact ⟨⟨fun _ => ⟨h1.symm, hh rfl⟩, hs⟩, fun h => by cases h⟩
        · rintro ⟨⟨hx, hs⟩, _⟩
          obtain ⟨rfl, hn⟩ := hx hc
          rw [(ih true).mpr ⟨hs, fun _ => hn⟩]
    · rw [if_neg hc]
      constructor
      · intro h
        injection h with _ h2
        obtain ⟨hs, _⟩ := (ih false).mp h2
        refine ⟨⟨fun h => absurd h hc, hs⟩, ?_⟩
        intro _ d hd
        simp at hd
        subst hd
        simpa using hc
      · rintro ⟨⟨_, hs⟩, _⟩
        rw [(ih false).mpr ⟨hs, fun h => by cases h⟩]

/-- The matches found in the content of readable items, after the removal of
comments and the collapse of white space. -/
theorem findAllQuoted_readable :
    ∀ (items : List Item), (∀ it ∈ items, it.Readable) → ∀ (inRun : Bool),
      findAllQuoted 0 (collapseSpaces inRun (stripComments false (renderItems items))) =
        collapsedGroups items := by
  intro items
  induction items with
  | nil => intro _ inRun; cases inRun <;> rfl
  | cons it its ih =>
    intro hv inRun
    have hits : ∀ it ∈ its, it.Readable := fun x hx => hv x (List.mem_cons_of_mem _ hx)
    have hit : it.Readable := hv it (List.mem_cons_self _ _)
    cases it with
    | comma =>
      simp only [renderItems, Item.render, List.singleton_append, collapsedGroups]
      have h1 : stripComments false (',' :: renderItems its) =
          ',' :: stripComments false (renderItems its) := by
        simp [stripComments]
      rw [h1]
      have h2 : collapseSpaces inRun (',' :: stripComments false (renderItems its)) =
          ',' :: collapseSpaces false (stripComments false (renderItems its)) := by
        simp [collapseSpaces, isReSpace]
      rw [h2, findAllQuoted_other _ _ (by decide) (by decide)]
      exact ih hits false
    | space c =>
      have hc : isReSpace c = true := hit
      obtain ⟨q1, q2, q3⟩ := isReSpace_not_quote hc
      simp only [renderItems, Item.render, List.singleton_append, collapsedGroups]
      have h1 : stripComments false (c :: renderItems its) =
          c :: stripComments false (renderItems its) := by
        simp [stripComments, q3]
      rw [h1]
      cases inRun with
      | true =>
        simp only [collapseSpaces, hc, if_true]
        exact ih hits true
      | false =>
        simp only [collapseSpaces, hc, if_true, Bool.false_eq_true, if_false]
        rw [findAllQuoted_other _ _ (by decide) (by decide)]
        exact ih hits true
    | comment text =>
      have ht : '\n' ∉ text := hit
      simp only [renderItems, Item.render, collapsedGroups, List.cons_append,
        List.append_assoc, List.singleton_append, List.nil_append]
      have h1 : stripComments false ('/' :: '/' :: (text ++ '\n' :: renderItems its)) =
          '\n' :: stripComments false (renderItems its) := by
        have := stripComments_comment text ht (renderItems its)
        simp [stripComments, this]
      rw [h1]
      have hc : isReSpace '\n' = true := by decide
      cases inRun with
      | true =>
        simp only [collapseSpaces, hc, if_true]
        exact ih hits true
      | false =>
        simp only [collapseSpaces, hc, if_true, Bool.false_eq_true, if_false]
        rw [findAllQuoted_other _ _ (by decide) (by decide)]
        exact ih hits true
    | literal dq v =>
      obtain ⟨_, hq, hsl⟩ := hit
      have hqs : quoteChar dq ≠ '/' := by cases dq <;> decide
      have hqw : isReSpace (quoteChar dq) = false := by cases dq <;> decide
      have hqb : quoteChar dq ≠ ' ' := by cases dq <;> decide
      simp only [renderItems, Item.render, collapsedGroups, List.cons_append,
        List.append_assoc, List.singleton_append, List.nil_append]
      have h1 : stripComments false (quoteChar dq :: (v ++ quoteChar dq :: renderItems its)) =
          quoteChar dq :: (v ++ quoteChar dq :: stripComments false (renderItems its)) := by
        have e1 := stripComments_text v hsl (quoteChar dq) (renderItems its) hqs
        simp [stripComments, hqs, e1]
      rw [h1]
      have h2 : collapseSpaces inRun
          (quoteChar dq :: (v ++ quoteChar dq :: stripComments false (renderItems its))) =
          quoteChar dq :: (collapseSpaces false v ++
            quoteChar dq :: collapseSpaces false (stripComments false (renderItems its))) := by
        rw [collapseSpaces_cons, hqw]
        simp [collapseSpaces_append _ _ hqw]
      have hq2 : quoteChar dq ∉ collapseSpaces false v := by
        intro hm
        rcases mem_collapseSpaces v false hm with h | h
        · exact hq h
        · exact hqb h
      rw [h2, findAllQuoted_literal dq _ _ hq2, ih hits false]

theorem foldl_appendMatch_readable :
    ∀ (items : List Item), (∀ it ∈ items, it.Readable) → ∀ (acc : List Str),
      (collapsedGroups items).foldl appendMatch acc =
        acc ++ (literalValues items).map (collapseSpaces false) := by
  intro items
  induction items with
  | nil => intro _ acc; simp [collapsedGroups, literalValues]
  | cons it its ih =>
    intro hv acc
    have hits : ∀ it ∈ its, it.Readable := fun x hx => hv x (List.mem_cons_of_mem _ hx)
    have hit : it.Readable := hv it (List.mem_cons_self _ _)
    cases it with
    | comma => simpa [collapsedGroups, literalValues] using ih hits acc
    | space c => simpa [collapsedGroups, literalValues] using ih hits acc
    | comment t => simpa [collapsedGroups, literalValues] using ih hits acc
    | literal dq v =>
      obtain ⟨hne, _⟩ := hit
      have hne2 := collapseSpaces_ne_nil hne
      simp only [collapsedGroups, literalValues, List.foldl_cons, List.map_cons]
      rw [ih hits]
      cases dq <;> simp [appendMatch, literalGroups, hne2]

/-- The fields read from a content made of readable items are the values of its
literals, in order, each with its runs of white space collapsed. -/
theorem parseArrayContent_readable (items : List Item) (hv : ∀ it ∈ items, it.Readable) :
    parseArrayContent (renderItems items) =
      (literalValues items).map (collapseSpaces false) := by
  unfold parseArrayContent
  simp only
  rw [findAllQuoted_trimSpace, findAllQuoted_readable items hv false,
    foldl_appendMatch_readable items hv, List.nil_append]

end Parser

namespace service

open Parser

theorem read_miss {α : Type} (env : Env) (key : Str) (decode : Str → Option α) (st : State)
    (hen : env.CacheEnabled = true) (hm : CacheMiss env key decode st) :
    (if env.CacheEnabled = true then
      (if (cacheGet env key st).1.2 = true then
        (decode (cacheGet env key st).1.1, (cacheGet env key st).2)
       else (none, (cacheGet env key st).2))
     else (none, st)) = (none, (cacheGet env key st).2) := by
  rw [if_pos hen]
  rcases hm with h | h
  · rw [if_neg (by simp [h])]
  · split
    · rw [h]
    · rfl

theorem keysUnique_getCache (db : gorm.DB) (key : Str) (t : Int) (h : KeysUnique db) :
    KeysUnique (database.GetCache db t key).2 := by
  rcases database.getCache_db db key t with e | e <;> rw [e]
  · exact h
  · exact database.keysUnique_filter db _ h

theorem mem_getCache (db : gorm.DB) (key : Str) (t : Int) (r : database.CacheEntry)
    (hr : r.Key ≠ key) : r ∈ (database.GetCache db t key).2 ↔ r ∈ db := by
  rcases database.getCache_db db key t with e | e <;> rw [e]
  simp [List.mem_filter, hr]

theorem key_ne_nil (p s : Str) (c : Char) : c :: p ++ s ≠ [] := by simp

/-- The table after a read of the cache followed by a write under the same
key. -/
theorem stored_after (env : Env) (e1 e2 : Event) (key value : Str) (st : State)
    (hk : key ≠ [])
    (hpk : KeysUnique st.db) :
    Stored (cacheSet env key value
        (record e2 (record e1 (cacheGet env key st).2))).db st.db key value
      (env.clock (st.ticks + 1) + env.CacheTTL) := by
  have h := database.setCache_ok (database.GetCache st.db (env.clock st.ticks) key).2
    (keysUnique_getCache _ _ _ hpk) key value env.CacheTTL (env.clock (st.ticks + 1)) hk
  refine ⟨h.2.1, h.2.2.1, fun r hr => ?_⟩
  exact (h.2.2.2 r hr).trans (mem_getCache _ _ _ r hr)

theorem getONUsByPON_stored (env : Env) (d pon filter : Str) (st : State)
    (hen : env.CacheEnabled = true) (hpk : KeysUnique st.db)
    (hm : CacheMiss env (onusKey d pon) env.unmarshalONUs st)
    (html : Str) (onus : List ONUResponse) (data : Str)
    (hcl : env.getClient d = none)
    (hget : env.get d "/onuOverview.asp".toList [("oltponno".toList, pon)] = .ok html)
    (hparse : ParseONUList html = .ok onus) (hmar : env.marshalONUs onus = some data) :
    (GetONUsByPON env d pon filter st).1 = .ok (filterONUs env onus filter) ∧
    (onus ≠ [] → Stored (GetONUsByPON env d pon filter st).2.db st.db (onusKey d pon) data
      (env.clock (st.ticks + 1) + env.CacheTTL)) ∧
    (onus = [] → (GetONUsByPON env d pon filter st).2.db =
      (database.GetCache st.db (env.clock st.ticks) (onusKey d pon)).2) := by
  unfold GetONUsByPON
  simp only
  rw [read_miss env _ _ st hen hm]
  simp only [hcl, hget, hparse, hen, true_and]
  refine ⟨?_, ?_⟩
  · intro hne
    have hlen : onus.length > 0 := List.length_pos.mpr hne
    simp only [hlen, if_true, hmar]
    exact stored_after env _ _ _ data st (by simp [onusKey]) hpk
  · intro he
    subst he
    simp [record, cacheGet]

theorem getONUsByPON_failed (env : Env) (d pon filter : Str) (st : State)
    (hen : env.CacheEnabled = true)
    (hm : CacheMiss env (onusKey d pon) env.unmarshalONUs st) (e : Error)
    (he : (GetONUsByPON env d pon filter st).1 = .error e) :
    (GetONUsByPON env d pon filter st).2.db =
      (database.GetCache st.db (env.clock st.ticks) (onusKey d pon)).2 := by
  revert he
  unfold GetONUsByPON
  simp only
  rw [read_miss env _ _ st hen hm]
  simp only
  repeat' split
  all_goals first
    | (intro he; cases he; done)
    | (intro _; simp [record, cacheGet])

theorem getPONList_stored (env : Env) (codec : PONCodec) (d : Str) (st : State)
    (hen : env.CacheEnabled = true) (hpk : KeysUnique st.db)
    (hm : CacheMiss env (ponsKey d) codec.unmarshalPONs st)
    (html : Str) (pons : List PONResponse) (data : Str)
    (hcl : env.getClient d = none)
    (hget : env.get d "/onuOverviewPonList.asp".toList [] = .ok html)
    (hparse : ParsePONList html = .ok pons) (hmar : codec.marshalPONs pons = some data) :
    (GetPONList env codec d st).1 = .ok pons ∧
    (pons ≠ [] → Stored (GetPONList env codec d st).2.db st.db (ponsKey d) data
      (env.clock (st.ticks + 1) + env.CacheTTL)) ∧
    (pons = [] → (GetPONList env codec d st).2.db =
      (database.GetCache st.db (env.clock st.ticks) (ponsKey d)).2) := by
  unfold GetPONList
  simp only
  rw [read_miss env _ _ st hen hm]
  simp only [hcl, hget, hparse, hen, true_and]
  refine ⟨?_, ?_⟩
  · intro hne
    have hlen : pons.length > 0 := List.length_pos.mpr hne
    simp only [hlen, if_true, hmar]
    exact stored_after env _ _ _ data st (by simp [ponsKey]) hpk
  · intro he
    subst he
    simp [record, cacheGet]

theorem getPONList_failed (env : Env) (codec : PONCodec) (d : Str) (st : State)
    (hen : env.CacheEnabled = true)
    (hm : CacheMiss env (ponsKey d) codec.unmarshalPONs st) (e : Error)
    (he : (GetPONList env codec d st).1 = .error e) :
    (GetPONList env codec d st).2.db =
      (database.GetCache st.db (env.clock st.ticks) (ponsKey d)).2 := by
  revert he
  unfold GetPONList
  simp only
  rw [read_miss env _ _ st hen hm]
  simp only
  repeat' split
  all_goals first
    | (intro he; cases he; done)
    | (intro _; simp [record, cacheGet])

theorem getONUDetail_stored (env : Env) (d u : Str) (st : State)
    (hen : env.CacheEnabled = true) (hpk : KeysUnique st.db)
    (hu : (strings.Split u ':').length = 2)
    (hm : CacheMiss env (onuDetailKey d u) env.unmarshalDetail st)
    (html : Str) (detail : ONUDetailResponse) (data : Str)
    (hcl : env.getClient d = none)
    (hget : env.get d "/onuConfig.asp".toList
      [("oltponno".toList, (strings.Split u ':').getD 0 []), ("onuno".toList, u)] = .ok html)
    (hparse : ParseONUDetail html = .ok detail)
    (hmar : env.marshalDetail detail = some data) :
    (GetONUDetail env d u st).1 = .ok detail ∧
    Stored (GetONUDetail env d u st).2.db st.db (onuDetailKey d u) data
      (env.clock (st.ticks + 1) + env.CacheTTL) := by
  unfold GetONUDetail
  simp only
  rw [if_neg (fun h => h hu), read_miss env _ _ st hen hm]
  simp only [hcl, hget, hparse, hen, if_true, hmar, true_and]
  exact stored_after env _ _ _ data st (by simp [onuDetailKey]) hpk

theorem getONUDetail_failed (env : Env) (d u : Str) (st : State)
    (hen : env.CacheEnabled = true)
    (hu : (strings.Split u ':').length = 2)
    (hm : CacheMiss env (onuDetailKey d u) env.unmarshalDetail st) (e : Error)
    (he : (GetONUDetail env d u st).1 = .error e) :
    (GetONUDetail env d u st).2.db =
      (database.GetCache st.db (env.clock st.ticks) (onuDetailKey d u)).2 := by
  revert he
  unfold GetONUDetail
  simp only
  rw [if_neg (fun h => h hu), read_miss env _ _ st hen hm]
  simp only
  repeat' split
  all_goals first
    | (intro he; cases he; done)
    | (intro _; simp [record, cacheGet])

end service

namespace scraper

theorem submit_close {T R E : Type} (t : Nat × T) (p : Pool T R E) :
    Submit t (Close p) = some (Close p) := by
  unfold Submit Close
  cases h : p.closed <;> simp [h]

theorem close_close {T R E : Type} (p : Pool T R E) : Close (Close p) = Close p := by
  unfold Close
  cases h : p.closed <;> simp [h]

/-- The step `submit` of `Process` is the call of `Submit` on the next item. -/
theorem step_submit {T R E : Type} (fn : T → R × Option E) (p : Pool T R E)
    (t : Nat × T) (rest : List (Nat × T)) (ht : p.todo = t :: rest)
    (hr : p.returned = false) :
    Process.step fn .submit p = (Submit t p).map (fun q => { q with todo := rest }) := by
  unfold Process.step Submit
  simp only [ht, hr]
  cases hc : p.closed
  · by_cases hq : p.taskQueue.length < p.capacity <;> simp [hq]
  · simp [hc, hr]

/-- On a closed pool at rest a step is a pass through `Submit`, which drops the
task, or the return of `Wait`; the pool stays at rest and its slots are not
written. -/
theorem step_atRest {T R E : Type} (fn : T → R × Option E) (a : Action) (p q : Pool T R E)
    (hp : Process.AtRest p) (h : Process.step fn a p = some q) :
    (a = .submit ∨ a = .wait) ∧ Process.AtRest q ∧ q.results = p.results ∧
    q.workers = p.workers ∧
    (a = .submit → q.todo.length + 1 = p.todo.length ∧ q.returned = p.returned) ∧
    (a = .wait → q.todo = [] ∧ p.todo = [] ∧ q.returned = true ∧ p.returned = false) := by
  obtain ⟨hc, hq, hwg, hw⟩ := hp
  cases a with
  | submit =>
    unfold Process.step at h
    simp only at h
    cases ht : p.todo with
    | nil => rw [ht] at h; cases h
    | cons t rest =>
      rw [ht] at h
      simp only [hc, if_true] at h
      split at h
      · cases h
      · injection h with h
        subst h
        exact ⟨.inl rfl, ⟨rfl, hq, hwg, hw⟩, rfl, rfl, fun _ => ⟨by simp [ht], rfl⟩,
          fun h => by cases h⟩
  | receive w =>
    unfold Process.step at h
    simp only [hq] at h
    split at h
    · rename_i h1 h2
      cases h2
    · cases h
  | write w =>
    unfold Process.step at h
    simp only at h
    split at h
    · rename_i idx itm hw1
      have := hw _ (List.mem_iff_getElem?.mpr ⟨w, hw1⟩)
      cases this
    · cases h
  | done w =>
    unfold Process.step at h
    simp only at h
    split at h
    · rename_i hw1
      have := hw _ (List.mem_iff_getElem?.mpr ⟨w, hw1⟩)
      cases this
    · cases h
  | wait =>
    unfold Process.step at h
    simp only at h
    cases ht : p.todo with
    | cons t rest => rw [ht] at h; cases h
    | nil =>
      rw [ht] at h
      simp only at h
      split at h
      · rename_i hcond
        injection h with h
        subst h
        exact ⟨.inr rfl, ⟨hc, hq, hwg, hw⟩, rfl, rfl, fun h => (by cases h),
          fun _ => ⟨rfl, rfl, rfl, hcond.2⟩⟩
      · cases h

theorem run_atRest {T R E : Type} (fn : T → R × Option E) :
    ∀ (schedule : List Action) (p q : Pool T R E), Process.AtRest p →
      Process.run fn schedule p = some q →
      (∀ a ∈ schedule, a = .submit ∨ a = .wait) ∧ Process.AtRest q ∧
      q.results = p.results ∧ q.workers = p.workers ∧
      schedule.length + (q.todo.length + if q.returned then 0 else 1) =
        p.todo.length + if p.returned then 0 else 1 := by
  intro schedule
  induction schedule with
  | nil =>
    intro p q hp h
    injection h with h
    subst h
    exact ⟨fun a ha => (by cases ha), hp, rfl, rfl, by simp⟩
  | cons a as ih =>
    intro p q hp h
    rw [Process.run] at h
    cases hs : Process.step fn a p with
    | none => rw [hs] at h; cases h
    | some p1 =>
      rw [hs] at h
      obtain ⟨ha, hp1, hr1, hw1, hsub, hwait⟩ := step_atRest fn a p p1 hp hs
      obtain ⟨hall, hq, hr, hw, hm⟩ := ih p1 q hp1 h
      refine ⟨?_, hq, hr.trans hr1, hw.trans hw1, ?_⟩
      · intro b hb
        rcases List.mem_cons.mp hb with rfl | hb
        · exact ha
        · exact hall b hb
      · rw [List.length_cons]
        rcases ha with rfl | rfl
        · obtain ⟨h1, h2⟩ := hsub rfl
          rw [h2] at hm
          generalize (if q.returned = true then 0 else 1) = x at hm ⊢
          generalize (if p.returned = true then 0 else 1) = y at hm ⊢
          omega
        · obtain ⟨h1, h2, h3, h4⟩ := hwait rfl
          rw [h1, h3] at hm
          rw [h2, h4]
          generalize (if q.returned = true then 0 else 1) = x at hm ⊢
          simp only [List.length_nil, eq_self_iff_true, if_true, Bool.false_eq_true, if_false] at hm ⊢
          omega

/-- A closed pool at rest that has not returned passes its remaining items
through `Submit` and returns. -/
theorem finish_atRest {T R E : Type} (fn : T → R × Option E) :
    ∀ (n : Nat) (p : Pool T R E), p.todo.length = n → Process.AtRest p →
      p.returned = false →
      ∃ q, Process.run fn (List.replicate n Action.submit ++ [Action.wait]) p = some q ∧
        q.returned = true := by
  intro n
  induction n with
  | zero =>
    intro p hn hp hr
    have ht : p.todo = [] := List.length_eq_zero.mp hn
    refine ⟨{ p with returned := true }, ?_, rfl⟩
    simp [Process.run, Process.step, ht, hp.2.2.1, hr]
  | succ n ih =>
    intro p hn hp hr
    cases ht : p.todo with
    | nil => rw [ht] at hn; cases hn
    | cons t rest =>
      have hs : Process.step fn .submit p = some { p with todo := rest } := by
        simp [Process.step, ht, hr, hp.1]
      have hlen : rest.length = n := by rw [ht] at hn; simpa using hn
      obtain ⟨q, hq, hqr⟩ := ih { p with todo := rest } hlen hp hr
      refine ⟨q, ?_, hqr⟩
      rw [List.replicate_succ, List.cons_append, Process.run, hs]
      exact hq

theorem atRest_close_new (T R E : Type) (workers : Int) :
    Process.AtRest (Close (NewWorkerPool T R E workers)) := by
  refine ⟨rfl, rfl, rfl, ?_⟩
  intro w hw
  exact List.eq_of_mem_replicate hw

theorem atRest_start {T R E : Type} (zero : R) (p : Pool T R E) (items : List T)
    (hp : Process.AtRest p) : Process.AtRest (Process.start zero p items) := hp

end scraper

namespace service

open Parser

theorem postedForms_append (a b : List Event) :
    postedForms (a ++ b) = postedForms a ++ postedForms b := by
  unfold postedForms
  rw [List.filterMap_append]

theorem posts_cacheGet (env : Env) (k : Str) (st : State) :
    postedForms (cacheGet env k st).2.trace = postedForms st.trace := by
  simp [cacheGet, postedForms]

theorem posts_cacheSet (env : Env) (k v : Str) (st : State) :
    postedForms (cacheSet env k v st).trace = postedForms st.trace := by
  simp [cacheSet, postedForms]

theorem posts_cacheDelete (k : Str) (st : State) :
    postedForms (cacheDelete k st).trace = postedForms st.trace := by
  simp [cacheDelete, postedForms]

theorem posts_getClient (d : Str) (st : State) :
    postedForms (record (.getClient d) st).trace = postedForms st.trace := by
  simp [record, postedForms]

theorem posts_get (d e : Str) (ps : List (Str × Str)) (st : State) :
    postedForms (record (.get d e ps) st).trace = postedForms st.trace := by
  simp [record, postedForms]

theorem posts_post (d e : Str) (ps : List (Str × Str)) (st : State) :
    postedForms (record (.post d e ps) st).trace = postedForms st.trace ++ [(e, ps)] := by
  simp [record, postedForms]

theorem getONUDetail_posts (env : Env) (deviceID onuID : Str) (st : State) :
    postedForms (GetONUDetail env deviceID onuID st).2.trace = postedForms st.trace := by
  unfold GetONUDetail
  simp only
  by_cases hp : (strings.Split onuID ':').length ≠ 2
  · rw [if_pos hp]
  · rw [if_neg hp]
    cases hc : env.CacheEnabled
    · simp only [Bool.false_eq_true, if_false]
      repeat' split
      all_goals simp only [posts_getClient, posts_get, posts_cacheSet, posts_cacheGet]
    · simp only [if_true, ite_pair_snd]
      repeat' split
      all_goals simp only [posts_getClient, posts_get, posts_cacheSet, posts_cacheGet,
        ite_pair_snd]

theorem toLower_ascii (f : Char → Char) (s : Str) (h : ∀ c ∈ s, c.toNat < 128) :
    strings.ToLower f s = s.map asciiLower := by
  unfold strings.ToLower
  apply List.map_congr_left
  intro c hc
  rw [if_pos (h c hc)]
  rfl

theorem onuOperationOf_iff (x op : Str) :
    onuOperationOf x = some op ↔ (x, op) ∈ actionTable := by
  unfold onuOperationOf actionTable
  simp only [List.mem_cons, Prod.mk.injEq, List.mem_singleton, List.not_mem_nil, or_false]
  constructor
  · intro h
    by_cases h1 : x = "reboot".toList
    · rw [if_pos h1] at h
      injection h with h
      exact .inl ⟨h1, h.symm⟩
    rw [if_neg h1] at h
    by_cases h2 : x = "activate".toList
    · rw [if_pos h2] at h
      injection h with h
      exact .inr (.inl ⟨h2, h.symm⟩)
    rw [if_neg h2] at h
    by_cases h3 : x = "deactivate".toList
    · rw [if_pos h3] at h
      injection h with h
      exact .inr (.inr (.inl ⟨h3, h.symm⟩))
    rw [if_neg h3] at h
    by_cases h4 : x = "factory".toList
    · rw [if_pos h4] at h
      injection h with h
      exact .inr (.inr (.inr (.inl ⟨h4, h.symm⟩)))
    rw [if_neg h4] at h
    by_cases h5 : x = "cleanloop".toList
    · rw [if_pos h5] at h
      injection h with h
      exact .inr (.inr (.inr (.inr ⟨h5, h.symm⟩)))
    rw [if_neg h5] at h
    cases h
  · intro h
    rcases h with ⟨rfl, rfl⟩ | ⟨rfl, rfl⟩ | ⟨rfl, rfl⟩ | ⟨rfl, rfl⟩ | ⟨rfl, rfl⟩ <;> decide

theorem performAction_posts (env : Env) (d u action op : Str) (st : State)
    (hu : (strings.Split u ':').length = 2)
    (hop : onuOperationOf (strings.ToLower env.unicodeToLower action) = some op) :
    ((PerformAction env d u action st).1 ≠ none →
      postedForms (PerformAction env d u action st).2.trace = postedForms st.trace ∨
      ∃ name, postedForms (PerformAction env d u action st).2.trace =
        postedForms st.trace ++ [("/goform/setOnu".toList,
          [("onuId".toList, u), ("onuName".toList, name), ("onuOperation".toList, op)])]) ∧
    ((PerformAction env d u action st).1 = none →
      ∃ name, postedForms (PerformAction env d u action st).2.trace =
        postedForms st.trace ++ [("/goform/setOnu".toList,
          [("onuId".toList, u), ("onuName".toList, name), ("onuOperation".toList, op)])]) := by
  unfold PerformAction
  simp only
  rw [if_neg (fun h => h hu), hop]
  simp only
  have hposts := getONUDetail_posts env d u st
  cases hd : GetONUDetail env d u st with
  | mk r st1 =>
    rw [hd] at hposts
    simp only at hposts
    cases r with
    | error e => exact ⟨fun _ => .inl hposts, fun h => by cases h⟩
    | ok detail =>
      simp only
      cases hcl : env.getClient d with
      | some err =>
        simp only
        exact ⟨fun _ => .inl (by rw [posts_getClient, hposts]), fun h => by cases h⟩
      | none =>
        simp only
        split
        · refine ⟨fun _ => .inr ⟨(if detail.Name = [] ∨ detail.Name = "NA".toList then "ONU".toList else detail.Name), ?_⟩,
            fun h => by cases h⟩
          rw [posts_post, posts_getClient, hposts]
        · refine ⟨fun h => absurd rfl h, fun _ =>
            ⟨(if detail.Name = [] ∨ detail.Name = "NA".toList then "ONU".toList else detail.Name), ?_⟩⟩
          rw [posts_cacheDelete, posts_cacheDelete, posts_post, posts_getClient, hposts]

theorem updateONUName_posts (env : Env) (d u newName : Str) (st : State)
    (hu : (strings.Split u ':').length = 2) :
    ((UpdateONUName env d u newName st).1 ≠ none →
      postedForms (UpdateONUName env d u newName st).2.trace = postedForms st.trace ∨
      postedForms (UpdateONUName env d u newName st).2.trace =
        postedForms st.trace ++ [("/goform/setOnu".toList,
          [("oltponno".toList, (strings.Split u ':').getD 0 []), ("onuId".toList, u),
            ("onuName".toList, newName), ("onuOperation".toList, "nonOp".toList)])]) ∧
    ((UpdateONUName env d u newName st).1 = none →
      postedForms (UpdateONUName env d u newName st).2.trace =
        postedForms st.trace ++ [("/goform/setOnu".toList,
          [("oltponno".toList, (strings.Split u ':').getD 0 []), ("onuId".toList, u),
            ("onuName".toList, newName), ("onuOperation".toList, "nonOp".toList)])]) := by
  unfold UpdateONUName
  simp only
  rw [if_neg (fun h => h hu)]
  cases hcl : env.getClient d with
  | some err =>
    simp only
    exact ⟨fun _ => .inl (by rw [posts_getClient]), fun h => by cases h⟩
  | none =>
    simp only
    split
    · refine ⟨fun _ => .inr ?_, fun h => by cases h⟩
      rw [posts_post, posts_getClient]
    · refine ⟨fun h => absurd rfl h, fun _ => ?_⟩
      rw [posts_cacheDelete, posts_cacheDelete, posts_post, posts_getClient]

end service

namespace service

open Parser

theorem getRequests_append (a b : List Event) :
    getRequests (a ++ b) = getRequests a ++ getRequests b := by
  unfold getRequests
  rw [List.filterMap_append]

theorem fetchPort_requests (env : Env) (d : Str) (acc : List ONUResponse × State)
    (ponID : Str) :
    getRequests (fetchPort env d acc ponID).2.trace =
      getRequests acc.2.trace ++ [("/onuOverview.asp".toList, [("oltponno".toList, ponID)])] := by
  unfold fetchPort
  simp only
  repeat' split
  all_goals simp [record, getRequests]

theorem foldl_fetchPort_requests (env : Env) (d : Str) :
    ∀ (pons : List PONResponse) (acc : List ONUResponse × State),
      getRequests (pons.foldl (fun acc pon => fetchPort env d acc pon.PONID) acc).2.trace =
        getRequests acc.2.trace ++
          pons.map (fun pon => ("/onuOverview.asp".toList, [("oltponno".toList, pon.PONID)])) := by
  intro pons
  induction pons with
  | nil => intro acc; simp
  | cons p ps ih =>
    intro acc
    rw [List.foldl_cons, ih, fetchPort_requests, List.map_cons, List.append_assoc]
    rfl

end service

namespace service

/-- Two texts cut at their first separator are equal part by part. -/
theorem append_sep_inj_left (sep : Char) :
    ∀ (a1 a2 b1 b2 : Str), sep ∉ a1 → sep ∉ a2 →
      a1 ++ sep :: b1 = a2 ++ sep :: b2 → a1 = a2 ∧ b1 = b2 := by
  intro a1
  induction a1 with
  | nil =>
    intro a2 b1 b2 _ h2 e
    cases a2 with
    | nil => exact ⟨rfl, by simpa using e⟩
    | cons y a2 =>
      simp only [List.nil_append, List.cons_append, List.cons.injEq] at e
      exact absurd (e.1 ▸ List.mem_cons_self _ _) h2
  | cons x a1 ih =>
    intro a2 b1 b2 h1 h2 e
    cases a2 with
    | nil =>
      simp only [List.nil_append, List.cons_append, List.cons.injEq] at e
      exact absurd (e.1 ▸ List.mem_cons_self _ _) h1
    | cons y a2 =>
      simp only [List.cons_append, List.cons.injEq] at e
      obtain ⟨h, hb⟩ := ih a2 b1 b2 (fun hm => h1 (List.mem_cons_of_mem _ hm))
        (fun hm => h2 (List.mem_cons_of_mem _ hm)) e.2
      exact ⟨by rw [e.1, h], hb⟩

/-- Two texts cut at their last separator are equal part by part. -/
theorem append_sep_inj_right (sep : Char) (a1 a2 b1 b2 : Str) (h1 : sep ∉ b1)
    (h2 : sep ∉ b2) (e : a1 ++ sep :: b1 = a2 ++ sep :: b2) : a1 = a2 ∧ b1 = b2 := by
  have er := congrArg List.reverse e
  simp only [List.reverse_append, List.reverse_cons, List.append_assoc,
    List.singleton_append] at er
  obtain ⟨hb, ha⟩ := append_sep_inj_left sep b1.reverse b2.reverse a1.reverse a2.reverse
    (by simpa using h1) (by simpa using h2) er
  exact ⟨List.reverse_injective ha, List.reverse_injective hb⟩

theorem onusKey_eq (d s : Str) : onusKey d s = "onus:".toList ++ (d ++ ':' :: s) := by
  simp [onusKey]

theorem onuDetailKey_eq (d s : Str) :
    onuDetailKey d s = "onu-detail:".toList ++ (d ++ ':' :: s) := by
  simp [onuDetailKey]

end service

namespace service

theorem trimRight_getLast (s : Str) :
    (strings.TrimRight s "/".toList).getLast? ≠ some '/' := by
  unfold strings.TrimRight
  rw [List.getLast?_reverse]
  intro h
  cases hd : s.reverse.dropWhile (fun c => "/".toList.contains c) with
  | nil => rw [hd] at h; cases h
  | cons x xs =>
    rw [hd] at h
    simp only [List.head?_cons, Option.some.injEq] at h
    have := List.head_dropWhile_not (fun c => "/".toList.contains c) s.reverse
      (by rw [hd]; simp)
    simp only [hd, List.head_cons] at this
    rw [h] at this
    revert this
    decide

theorem trimRight_of_getLast (s : Str) (h : s.getLast? ≠ some '/') :
    strings.TrimRight s "/".toList = s := by
  unfold strings.TrimRight
  cases hr : s.reverse with
  | nil => simp [List.reverse_eq_nil_iff.mp hr]
  | cons x xs =>
    have hx : s.getLast? = some x := by
      rw [← List.head?_reverse, hr]
      rfl
    have hne : x ≠ '/' := fun e => h (by rw [hx, e])
    rw [List.dropWhile_cons_of_neg (by simpa using hne), ← hr, List.reverse_reverse]

theorem digitChar_ne_slash : ∀ m, m < 10 → Nat.digitChar m ≠ '/' := by decide

theorem toDigitsCore_chars :
    ∀ (fuel n : Nat) (ds : Str), (∀ c ∈ ds, c ≠ '/') →
      ∀ c ∈ Nat.toDigitsCore 10 fuel n ds, c ≠ '/' := by
  intro fuel
  induction fuel with
  | zero => intro n ds h c hc; exact h c hc
  | succ fuel ih =>
    intro n ds h c hc
    have hds : ∀ c ∈ Nat.digitChar (n % 10) :: ds, c ≠ '/' := by
      intro x hx
      rcases List.mem_cons.mp hx with rfl | hx
      · exact digitChar_ne_slash _ (Nat.mod_lt _ (by decide))
      · exact h x hx
    rw [Nat.toDigitsCore] at hc
    split at hc
    · exact hds c hc
    · exact ih _ _ hds c hc

theorem toDigitsCore_ne_nil :
    ∀ (fuel n : Nat) (ds : Str), (ds ≠ [] ∨ 0 < fuel) → Nat.toDigitsCore 10 fuel n ds ≠ [] := by
  intro fuel
  induction fuel with
  | zero =>
    intro n ds h
    rcases h with h | h
    · exact h
    · cases h
  | succ fuel ih =>
    intro n ds _
    rw [Nat.toDigitsCore]
    split
    · simp
    · exact ih _ _ (.inl (by simp))

/-- A text that ends with the decimal digits of a positive number does not end
in `/`. -/
theorem getLast_formatInt (s : Str) (p : Int) (hp : p > 0) :
    (s ++ ":".toList ++ strconv.FormatInt p).getLast? ≠ some '/' := by
  unfold strconv.FormatInt
  rw [if_neg (by omega)]
  have hne : Nat.toDigits 10 p.natAbs ≠ [] := toDigitsCore_ne_nil _ _ _ (.inr (by omega))
  rw [List.getLast?_append_of_ne_nil _ hne]
  intro h
  have hm := List.mem_of_getLast?_eq_some h
  exact toDigitsCore_chars _ _ [] (fun c hc => by cases hc) '/' hm rfl

end service

/-! ## The properties of the specification -/

namespace Parser

/-- C1, as stated, fails on four documents whose content is quoted strings with
commas, white space and a comment between them: a comment that holds `);` ends
the declaration early, a `//` inside a quoted string is removed as a comment
together with the rest of its line, a run of blanks inside a quoted string is
collapsed to one blank, and an empty quoted string yields no field. -/
theorem extractJSArray_formatting_counterexample :
    ExtractJSArray "var a = new Array('x', // note (old);\n 'y');".toList "a".toList =
      .ok ["x".toList] ∧
    ExtractJSArray "var a = new Array('http://h','y');".toList "a".toList = .ok [] ∧
    ExtractJSArray "var a = new Array('a  b');".toList "a".toList = .ok ["a b".toList] ∧
    ExtractJSArray "var a = new Array('x','','y');".toList "a".toList =
      .ok ["x".toList, "y".toList] := by
  refine ⟨?_, ?_, ?_, ?_⟩ <;> rfl

/-- C1, amended: when the content of the first declaration of the variable (it
runs up to the first `);`) is a sequence of quoted strings, commas, white-space
characters and `//` comments closed by a newline, and every quoted string is
non-empty, holds neither its own quote nor `//`, and has white space only as
single blanks, `ExtractJSArray` returns exactly the values of the quoted
strings, in their order: whatever the commas, white space and comments
between them. -/
theorem extractJSArray_items (html varName : Str) (items : List Item)
    (hv : ∀ it ∈ items, it.Valid)
    (hd : FirstDeclaration html varName (renderItems items)) :
    ExtractJSArray html varName = .ok (literalValues items) := by
  rw [extractJSArray_of_first hd, parseArrayContent_items items hv]

/-- C1, amended, at an instance: two literals, a comma, blanks and a comment. -/
theorem extractJSArray_items_witness :
    ExtractJSArray "var x = new Array('a', // c\n \"b c\");".toList "x".toList =
      .ok ["a".toList, "b c".toList] :=
  extractJSArray_items "var x = new Array('a', // c\n \"b c\");".toList "x".toList
    [.literal false "a".toList, .comma, .space ' ', .comment " c".toList, .space ' ',
      .literal true "b c".toList]
    (by
      intro it hit
      simp only [List.mem_cons, List.mem_singleton, List.not_mem_nil, or_false] at hit
      rcases hit with rfl | rfl | rfl | rfl | rfl | rfl
      · refine ⟨by decide, by decide, by decide, ?_⟩
        simp [SingleSpaced, isReSpace]
      · trivial
      · show isReSpace ' ' = true
        decide
      · show '\n' ∉ " c".toList
        decide
      · show isReSpace ' ' = true
        decide
      · refine ⟨by decide, by decide, by decide, ?_⟩
        simp [SingleSpaced, isReSpace])
    ⟨[], _, rfl,
      ⟨" ".toList, " ".toList, " ".toList, " ".toList, [], [],
        by decide, by decide, by decide, by decide, by decide, by decide, by decide,
        by decide, rfl⟩,
      by
        intro p q e hq
        have : q = [] := (List.append_eq_nil.mp e.symm).2
        exact absurd this hq⟩

/-- C2: `ExtractJSArray` returns an error exactly when the document holds no
declaration `var NAME = new Array( ... );` of the variable; with a declaration
it returns the fields; and when the content of the (first) declaration holds
no quoted literal it returns the empty sequence, not an error. -/
theorem extractJSArray_error_spec (html varName : Str) :
    ((∃ e, ExtractJSArray html varName = .error e) ↔ ¬ HasDeclaration html varName) ∧
    (HasDeclaration html varName → ∃ fields, ExtractJSArray html varName = .ok fields) ∧
    (∀ content, FirstDeclaration html varName content → ¬ HoldsQuotedLiteral content →
      ExtractJSArray html varName = .ok []) := by
  have herr : (∃ e, ExtractJSArray html varName = .error e) ↔
      ExtractJSArray html varName = .error (.notFound varName) := by
    constructor
    · rintro ⟨e, he⟩
      unfold ExtractJSArray at he ⊢
      cases hm : reFindFirst (declPattern varName) html with
      | none => rfl
      | some c => rw [hm] at he; cases he
    · intro h; exact ⟨_, h⟩
  refine ⟨herr.trans (extractJSArray_error_iff html varName), ?_, ?_⟩
  · intro hd
    cases hx : ExtractJSArray html varName with
    | ok fields => exact ⟨fields, rfl⟩
    | error e =>
      exact absurd hd ((herr.trans (extractJSArray_error_iff html varName)).mp ⟨e, hx⟩)
  · intro content hd hq
    rw [extractJSArray_of_first hd, parseArrayContent_eq_nil content hq]

/-- C2, at an instance: a declaration with an empty content. -/
theorem extractJSArray_error_spec_witness :
    ExtractJSArray "var a = new Array();".toList "a".toList = .ok [] :=
  (extractJSArray_error_spec "var a = new Array();".toList "a".toList).2.2 []
    ⟨[], _, rfl,
      ⟨" ".toList, " ".toList, " ".toList, " ".toList, [], [],
        by decide, by decide, by decide, by decide, by decide, by decide, by decide,
        by decide, rfl⟩,
      by
        intro p q e hq
        have : q = [] := (List.append_eq_nil.mp e.symm).2
        exact absurd this hq⟩
    (by
      rintro ⟨q, a, v, b, _, e⟩
      cases a <;> cases e)

/-- C3: for every `n > 0`, every `k` and every sequence `data` of length
`k * n`, `ChunkArray data n` is exactly `k` chunks, each of length `n`, and the
concatenation of the chunks in order is `data`. -/
theorem chunkArray_exact {α : Type} (data : List α) (n : Int) (k : Nat) (hn : 0 < n)
    (hlen : data.length = k * n.toNat) :
    (ChunkArray data n).length = k ∧
    (∀ c ∈ ChunkArray data n, (c.length : Int) = n) ∧
    (ChunkArray data n).flatten = data := by
  have hpos : 0 < n.toNat := by omega
  have hk : k ≤ data.length := by
    rw [hlen]; exact Nat.le_mul_of_pos_right k hpos
  have hloop := chunkLoop_full data n.toNat hpos k 0 data.length (by omega) hk
  simp only [Nat.zero_add] at hloop
  unfold ChunkArray
  rw [if_neg (by omega), hloop]
  refine ⟨by simp, ?_, ?_⟩
  · intro c hc
    obtain ⟨j, hj, rfl⟩ := List.mem_map.mp hc
    have hjk : j < k := List.mem_range.mp hj
    have : (j + 1) * n.toNat ≤ k * n.toNat := Nat.mul_le_mul_right _ hjk
    rw [Nat.succ_mul] at this
    rw [List.length_take, List.length_drop, hlen]
    omega
  · rw [flatten_pieces, List.take_of_length_le (by omega)]

/-- C3, at an instance: four elements in chunks of two. -/
theorem chunkArray_exact_witness :
    (ChunkArray [1, 2, 3, 4] 2).length = 2 ∧
    (∀ c ∈ ChunkArray [1, 2, 3, 4] 2, (c.length : Int) = 2) ∧
    (ChunkArray [1, 2, 3, 4] 2).flatten = [1, 2, 3, 4] :=
  chunkArray_exact [1, 2, 3, 4] 2 2 (by decide) (by decide)

/-- C4, as stated, fails: three elements in chunks of two give two chunks,
and the last one holds the trailing element. -/
theorem chunkArray_keeps_remainder :
    ChunkArray ["a".toList, "b".toList, "c".toList] 2 =
      [["a".toList, "b".toList], ["c".toList]] := by
  decide

/-- C4, amended: for every `n > 0` and every sequence `data` of length
`k * n + r` with `0 < r < n`, `ChunkArray data n` is `k` chunks of length `n`,
whose concatenation is the first `k * n` elements, followed by one last chunk
that holds the `r` trailing elements; the chunks that a consumer keeps under
its guard `len(chunk) >= n` are the `k` full ones. -/
theorem chunkArray_remainder {α : Type} (data : List α) (n : Int) (k r : Nat)
    (hr : 0 < r) (hrn : (r : Int) < n) (hlen : data.length = k * n.toNat + r) :
    ∃ full : List (List α),
      ChunkArray data n = full ++ [data.drop (k * n.toNat)] ∧
      full.length = k ∧
      (∀ c ∈ full, (c.length : Int) = n) ∧
      full.flatten = data.take (k * n.toNat) ∧
      (data.drop (k * n.toNat)).length = r ∧
      (ChunkArray data n).filter (fun c => decide (n ≤ (c.length : Int))) = full := by
  have hpos : 0 < n.toNat := by omega
  have hrn' : r < n.toNat := by omega
  have hk : k + 1 ≤ data.length := by
    have : k ≤ k * n.toNat := Nat.le_mul_of_pos_right k hpos
    omega
  have hloop := chunkLoop_rem data n.toNat r hr hrn' k 0 data.length (by omega) hk
  simp only [Nat.zero_add] at hloop
  have hfull : ∀ c ∈ (List.range k).map (fun j => (data.drop (j * n.toNat)).take n.toNat),
      (c.length : Int) = n := by
    intro c hc
    obtain ⟨j, hj, rfl⟩ := List.mem_map.mp hc
    have hjk : j < k := List.mem_range.mp hj
    have : (j + 1) * n.toNat ≤ k * n.toNat := Nat.mul_le_mul_right _ hjk
    rw [Nat.succ_mul] at this
    rw [List.length_take, List.length_drop, hlen]
    omega
  have hlast : (data.drop (k * n.toNat)).length = r := by
    rw [List.length_drop, hlen]; omega
  refine ⟨(List.range k).map (fun j => (data.drop (j * n.toNat)).take n.toNat),
    ?_, by simp, hfull, flatten_pieces _ k data, hlast, ?_⟩
  · unfold ChunkArray
    rw [if_neg (by omega), hloop]
  · unfold ChunkArray
    rw [if_neg (by omega), hloop, List.filter_append]
    have h1 : List.filter (fun c => decide (n ≤ (c.length : Int)))
        [data.drop (k * n.toNat)] = [] := by
      simp only [List.filter_cons, List.filter_nil, hlast]
      rw [if_neg]
      simp only [decide_eq_true_eq]
      omega
    rw [h1, List.append_nil, List.filter_eq_self]
    intro c hc
    simp only [decide_eq_true_eq]
    exact le_of_eq (hfull c hc).symm

/-- C4, amended, at an instance: five elements in chunks of two. -/
theorem chunkArray_remainder_witness :
    ∃ full : List (List Nat),
      ChunkArray [1, 2, 3, 4, 5] 2 = full ++ [[1, 2, 3, 4, 5].drop (2 * (2 : Int).toNat)] ∧
      full.length = 2 ∧
      (∀ c ∈ full, (c.length : Int) = 2) ∧
      full.flatten = [1, 2, 3, 4, 5].take (2 * (2 : Int).toNat) ∧
      ([1, 2, 3, 4, 5].drop (2 * (2 : Int).toNat)).length = 1 ∧
      (ChunkArray [1, 2, 3, 4, 5] 2).filter (fun c => decide ((2 : Int) ≤ (c.length : Int))) =
        full :=
  chunkArray_remainder [1, 2, 3, 4, 5] 2 2 1 (by decide) (by decide) (by decide)

/-- C5: when the `onutable` declaration is found and yields the fields `data`,
`m` of them, `ParseONUList` succeeds and returns exactly `m / 16` records, in
order; record `i` is decoded from the fields `16 i .. 16 i + 15` (`ONUID` field
`16 i`, `Name` field `16 i + 1`, `MacAddress` field `16 i + 2`, `Status` the
online status of field `16 i + 3`, `IsActivated` from field `16 i + 9`,
`Distance` from field `16 i + 10`); the `m mod 16` trailing fields produce no
record. -/
theorem parseONUList_spec (html : Str) (data : List Str)
    (h : ExtractJSArray html "onutable".toList = .ok data) :
    ∃ onus : List ONUResponse,
      ParseONUList html = .ok onus ∧
      onus.length = data.length / 16 ∧
      ∀ i, i < data.length / 16 →
        ∃ r, onus[i]? = some r ∧
          r = decodeONU ((data.drop (i * 16)).take 16) ∧
          r.ONUID = data.getD (16 * i) [] ∧
          r.Name = data.getD (16 * i + 1) [] ∧
          r.MacAddress = data.getD (16 * i + 2) [] ∧
          r.Status = MapOnlineStatus (data.getD (16 * i + 3) []) ∧
          r.IsActivated = MapActivateStatus (data.getD (16 * i + 9) []) ∧
          r.Distance = CalculateDistance (data.getD (16 * i + 10) []) := by
  refine ⟨(List.range (data.length / 16)).map
    (fun j => decodeONU ((data.drop (j * 16)).take 16)), ?_, by simp, ?_⟩
  · unfold ParseONUList
    rw [h]
    simp only
    rw [foldl_appendONU, chunkArray_sixteen, List.nil_append, List.map_map]
    rfl
  · intro i hi
    refine ⟨decodeONU ((data.drop (i * 16)).take 16), ?_, rfl, ?_, ?_, ?_, ?_, ?_, ?_⟩
    · rw [List.getElem?_map, List.getElem?_range hi]
      rfl
    · exact getD_group data i 0 (by decide)
    · exact getD_group data i 1 (by decide)
    · exact getD_group data i 2 (by decide)
    · exact congrArg MapOnlineStatus (getD_group data i 3 (by decide))
    · exact congrArg MapActivateStatus (getD_group data i 9 (by decide))
    · exact congrArg CalculateDistance (getD_group data i 10 (by decide))

/-- C5, at an instance: a page of 17 fields gives one record. -/
theorem parseONUList_spec_witness :
    ∃ onus : List ONUResponse,
      ParseONUList sampleONUPage = .ok onus ∧
      onus.length = sampleONUFields.length / 16 ∧
      ∀ i, i < sampleONUFields.length / 16 →
        ∃ r, onus[i]? = some r ∧
          r = decodeONU ((sampleONUFields.drop (i * 16)).take 16) ∧
          r.ONUID = sampleONUFields.getD (16 * i) [] ∧
          r.Name = sampleONUFields.getD (16 * i + 1) [] ∧
          r.MacAddress = sampleONUFields.getD (16 * i + 2) [] ∧
          r.Status = MapOnlineStatus (sampleONUFields.getD (16 * i + 3) []) ∧
          r.IsActivated = MapActivateStatus (sampleONUFields.getD (16 * i + 9) []) ∧
          r.Distance = CalculateDistance (sampleONUFields.getD (16 * i + 10) []) :=
  parseONUList_spec sampleONUPage sampleONUFields (by decide!)

/-- C6: for every string whose trimmed form is `""`, `"N/A"` or `"--"`,
`ParseInt` and `ParseFloat` return 0 (no error can be returned); the decimal
literal `"3.5"`, with any white space around it, is parsed to its value
`7/2`. -/
theorem parse_sentinel_zero (s l r : Str)
    (hs : TrimSpace s = [] ∨ TrimSpace s = "N/A".toList ∨ TrimSpace s = "--".toList)
    (hl : ∀ c ∈ l, isUnicodeSpace c = true) (hr : ∀ c ∈ r, isUnicodeSpace c = true) :
    ParseInt s = 0 ∧ ParseFloat s = F64.finite 0 ∧
    ParseFloat (l ++ ("3.5".toList ++ r)) = F64.finite (7 * 2 ^ 1073) ∧
    (ParseFloat (l ++ ("3.5".toList ++ r))).toRat? = some (7 / 2) := by
  have h3 : ParseFloat (l ++ ("3.5".toList ++ r)) = F64.finite (7 * 2 ^ 1073) := by
    unfold ParseFloat
    simp only
    rw [trimSpace_padded l "3.5".toList r '3' '5' ".5".toList rfl (by decide)
      ⟨_, rfl⟩ (by decide) hl hr, if_neg (by decide)]
    exact strconv_parseFloat_three_half
  refine ⟨?_, ?_, h3, ?_⟩
  · unfold ParseInt
    simp only
    rw [if_pos hs]
  · unfold ParseFloat
    simp only
    rw [if_pos hs]
  · rw [h3]
    show some (((7 * 2 ^ 1073 : Int) : ℚ) / 2 ^ 1074) = some (7 / 2)
    have hx : (2 : ℚ) ^ 1073 ≠ 0 := pow_ne_zero _ (by norm_num)
    rw [Int.cast_mul, Int.cast_pow, pow_succ (2 : ℚ) 1073]
    generalize (2 : ℚ) ^ 1073 = x at hx
    congr 1
    field_simp
    ring

/-- C6, at an instance. -/
theorem parse_sentinel_zero_witness :
    ParseInt " N/A ".toList = 0 ∧ ParseFloat " N/A ".toList = F64.finite 0 ∧
    ParseFloat (" ".toList ++ ("3.5".toList ++ "\t".toList)) = F64.finite (7 * 2 ^ 1073) ∧
    (ParseFloat (" ".toList ++ ("3.5".toList ++ "\t".toList))).toRat? = some (7 / 2) :=
  parse_sentinel_zero " N/A ".toList " ".toList "\t".toList (by decide) (by decide)
    (by decide)

/-- C7, as stated, fails: a digit string out of the range of `int` is not
decoded to 0 but to the largest `int`. -/
theorem parseInt_out_of_range :
    ParseInt "99999999999999999999".toList = 9223372036854775807 := by
  decide

/-- C7, amended: `ParseInt` returns 0 for every string whose trimmed form the
integer parser rejects as malformed (`ErrSyntax`: non-numeric text, a decimal
such as `"3.5"`), and for a digit string out of the range of `int`
(`ErrRange`) it returns the bound of its sign, `2^63 - 1` or `-2^63`; in no
case is an error returned. -/
theorem parseInt_on_error (s : Str) :
    ((strconv.Atoi (TrimSpace s)).2 = .ErrSyntax → ParseInt s = 0) ∧
    ((strconv.Atoi (TrimSpace s)).2 = .ErrRange →
      ParseInt s = if (TrimSpace s).head? = some '-' then -(2 ^ 63 : Int) else 2 ^ 63 - 1) ∧
    ParseInt "abc".toList = 0 ∧ ParseInt "3.5".toList = 0 ∧
    (strconv.Atoi "abc".toList).2 = .ErrSyntax ∧ (strconv.Atoi "3.5".toList).2 = .ErrSyntax := by
  refine ⟨?_, ?_, by decide, by decide, by decide, by decide⟩
  · intro h
    unfold ParseInt
    simp only
    split
    · rfl
    · exact (strconv_atoi_error _).1 h
  · intro h
    unfold ParseInt
    simp only
    split
    · rename_i hs
      rcases hs with hs | hs | hs <;> rw [hs] at h <;> exact absurd h (by decide)
    · exact (strconv_atoi_error _).2 h

/-- C7, amended, at two instances: a malformed text and an out-of-range one. -/
theorem parseInt_on_error_witness :
    ParseInt " 12a ".toList = 0 ∧
    ParseInt " -99999999999999999999".toList = -(2 ^ 63 : Int) :=
  ⟨(parseInt_on_error " 12a ".toList).1 (by decide),
    (parseInt_on_error " -99999999999999999999".toList).2.1 (by decide)⟩

/-- C8, as stated, fails on two inputs. On `"10132.3735740865"` the code returns
16296, while the clamp in exact arithmetic gives 16295, on the exact value of
the float that `ParseFloat` returns as well as on the decimal itself: the
float64 operations round `16295.99999999999...` up. On `"1e19"` the truncated
distance, 16392999999999999686, is beyond the range of `int`, and the code
returns what the conversion `int(f)` yields there. -/
theorem calculateDistance_exact_counterexample :
    CalculateDistance "10132.3735740865".toList = 16296 ∧
    (ParseFloat "10132.3735740865".toList).toRat? = some (5570331280839187 / 2 ^ 39) ∧
    exactDistance (5570331280839187 / 2 ^ 39) = 16295 ∧
    exactDistance (101323735740865 / 10 ^ 10) = 16295 ∧
    CalculateDistance "1e19".toList = -(2 ^ 63) ∧
    (ParseFloat "1e19".toList).toRat? = some (10 ^ 19 / 2 ^ 0) ∧
    exactDistance (10 ^ 19) = 16392999999999999686 := by
  have h1 : ParseFloat "10132.3735740865".toList =
      F64.finite (5570331280839187 * 2 ^ 1035) := by decide!
  have h2 : ParseFloat "1e19".toList = F64.finite (10 ^ 19 * 2 ^ 1074) := by decide!
  refine ⟨by decide!, ?_, exactDistance_float, exactDistance_decimal, by decide!, ?_,
    exactDistance_huge⟩
  · rw [h1]; exact toRat_scaled 5570331280839187 1035 39 rfl
  · rw [h2]; exact toRat_scaled (10 ^ 19) 1074 0 rfl

/-- C8, amended: with `v` the float64 that `ParseFloat raw` returns,
`CalculateDistance raw` is 0 when `v = 0`, and otherwise the conversion to
`int` of the specification's sequential clamp, evaluated in float64
arithmetic, of `d = v*1.6393 - 157` (if `d > 157` then `d := d - 157`; then if
`d <= 0` then `d := 1`); the conversion is the truncation toward zero whenever
that is in the range of `int`. The `if` / `else if` of the code agrees with the
two steps in sequence for every `d`; `"200"` gives 13 and every `d <= 0` gives
1. -/
theorem calculateDistance_spec (raw : Str) :
    (F64.eq (ParseFloat raw) (F64.ofInt 0) = true → CalculateDistance raw = 0) ∧
    (F64.eq (ParseFloat raw) (F64.ofInt 0) = false →
      CalculateDistance raw = F64.toInt (specClamp (rawDistance (ParseFloat raw)))) ∧
    (F64.eq (ParseFloat raw) (F64.ofInt 0) = false →
      ∀ n : Int, specClamp (rawDistance (ParseFloat raw)) = F64.finite n →
        -(2 ^ 63 : Int) ≤ n.tdiv (2 ^ 1074) → n.tdiv (2 ^ 1074) < 2 ^ 63 →
        CalculateDistance raw = n.tdiv (2 ^ 1074)) ∧
    (∀ d : F64, clampDistance d = specClamp d) ∧
    (F64.eq (ParseFloat raw) (F64.ofInt 0) = false →
      F64.le (rawDistance (ParseFloat raw)) (F64.ofInt 0) = true → CalculateDistance raw = 1) ∧
    CalculateDistance "200".toList = 13 := by
  have hcode : F64.eq (ParseFloat raw) (F64.ofInt 0) = false →
      CalculateDistance raw = F64.toInt (specClamp (rawDistance (ParseFloat raw))) := by
    intro h
    unfold CalculateDistance
    simp only [h, if_false, Bool.false_eq_true, clampDistance_eq_specClamp]
  refine ⟨?_, hcode, ?_, clampDistance_eq_specClamp, ?_, calculateDistance_two_hundred⟩
  · intro h
    unfold CalculateDistance
    simp only [h, if_true]
  · intro h n hn h1 h2
    rw [hcode h, hn, toInt_finite_tdiv n h1 h2]
  · intro h hle
    unfold CalculateDistance
    simp only [h, if_false, Bool.false_eq_true]
    unfold clampDistance
    rw [not_gt_of_le_zero _ hle, hle]
    simp only [if_false, Bool.false_eq_true, if_true]
    exact toInt_one

/-- C8, amended, at instances: `"0"` gives 0; `"10"`, whose `d` is negative,
gives 1; on `"200"` the clamp is the float `62419890835355136 * 2^-52`, about
13.86, whose truncation is 13. -/
theorem calculateDistance_spec_witness :
    CalculateDistance "0".toList = 0 ∧ CalculateDistance "10".toList = 1 ∧
    specClamp (rawDistance (ParseFloat "200".toList)) =
      F64.finite (62419890835355136 * 2 ^ 1022) ∧
    CalculateDistance "200".toList = (62419890835355136 * 2 ^ 1022 : Int).tdiv (2 ^ 1074) ∧
    (62419890835355136 * 2 ^ 1022 : Int).tdiv (2 ^ 1074) = 13 :=
  ⟨(calculateDistance_spec "0".toList).1 (by decide!),
    (calculateDistance_spec "10".toList).2.2.2.2.1 (by decide!) (by decide!),
    by decide!,
    (calculateDistance_spec "200".toList).2.2.1 (by decide!) _ (by decide!) (by decide!)
      (by decide!),
    by decide!⟩

/-- C9: `MapOnlineStatus` maps `"0"` to `"offline"`, `"1"` to `"online"`, `"2"`
to `"poweroff"`, and returns every other string unchanged. -/
theorem mapOnlineStatus_spec (status : Str) :
    MapOnlineStatus status =
      if status = "0".toList then "offline".toList
      else if status = "1".toList then "online".toList
      else if status = "2".toList then "poweroff".toList
      else status := by
  unfold MapOnlineStatus
  by_cases h0 : status = "0".toList
  · subst h0; rfl
  by_cases h1 : status = "1".toList
  · subst h1; rfl
  by_cases h2 : status = "2".toList
  · subst h2; rfl
  have e0 : (status == "0".toList) = false := by simpa using h0
  have e1 : (status == "1".toList) = false := by simpa using h1
  have e2 : (status == "2".toList) = false := by simpa using h2
  simp only [List.lookup, e0, e1, e2, if_neg h0, if_neg h1, if_neg h2]

/-- C10: `MapCTCStatus` maps `"0"` to `"--"`, `"1"` to `"MpcpDiscovery"`, `"2"`
to `"MpcpSla"`, `"3"` to `"CtcInfo"`, `"4"` to `"RequestCfg"`, `"5"` to
`"CtcNegDone"` and every other string to `"unknown"`; its result is always one
of these seven strings. -/
theorem mapCTCStatus_spec (code : Str) :
    (MapCTCStatus code =
      if code = "0".toList then "--".toList
      else if code = "1".toList then "MpcpDiscovery".toList
      else if code = "2".toList then "MpcpSla".toList
      else if code = "3".toList then "CtcInfo".toList
      else if code = "4".toList then "RequestCfg".toList
      else if code = "5".toList then "CtcNegDone".toList
      else "unknown".toList) ∧
    MapCTCStatus code ∈
      ["--".toList, "MpcpDiscovery".toList, "MpcpSla".toList, "CtcInfo".toList,
       "RequestCfg".toList, "CtcNegDone".toList, "unknown".toList] := by
  have key : MapCTCStatus code =
      if code = "0".toList then "--".toList
      else if code = "1".toList then "MpcpDiscovery".toList
      else if code = "2".toList then "MpcpSla".toList
      else if code = "3".toList then "CtcInfo".toList
      else if code = "4".toList then "RequestCfg".toList
      else if code = "5".toList then "CtcNegDone".toList
      else "unknown".toList := by
    unfold MapCTCStatus
    by_cases h0 : code = "0".toList
    · subst h0; rfl
    by_cases h1 : code = "1".toList
    · subst h1; rfl
    by_cases h2 : code = "2".toList
    · subst h2; rfl
    by_cases h3 : code = "3".toList
    · subst h3; rfl
    by_cases h4 : code = "4".toList
    · subst h4; rfl
    by_cases h5 : code = "5".toList
    · subst h5; rfl
    have e0 : (code == "0".toList) = false := by simpa using h0
    have e1 : (code == "1".toList) = false := by simpa using h1
    have e2 : (code == "2".toList) = false := by simpa using h2
    have e3 : (code == "3".toList) = false := by simpa using h3
    have e4 : (code == "4".toList) = false := by simpa using h4
    have e5 : (code == "5".toList) = false := by simpa using h5
    simp only [List.lookup, e0, e1, e2, e3, e4, e5, if_neg h0, if_neg h1, if_neg h2,
      if_neg h3, if_neg h4, if_neg h5]
  refine ⟨key, ?_⟩
  rw [key]
  split_ifs <;> simp

/-- C11: `MapActivateStatus code` is false exactly when `code` is `"2"`, and
true for every other string; hence the flag `IsActivated` of every record of
`ParseONUList` (activation field: the 10th of its group of 16) and of the
record of `ParseONUDetail` (activation field: the 13th of `onuinfo`) is false
if and only if the activation field is `"2"`. -/
theorem mapActivateStatus_spec :
    (∀ code : Str, MapActivateStatus code = false ↔ code = "2".toList) ∧
    (∀ code : Str, code ≠ "2".toList → MapActivateStatus code = true) ∧
    (∀ (html : Str) (data : List Str) (onus : List ONUResponse),
      ExtractJSArray html "onutable".toList = .ok data → ParseONUList html = .ok onus →
      onus.length = data.length / 16 ∧
      ∀ i r, onus[i]? = some r →
        (r.IsActivated = false ↔ data.getD (16 * i + 9) [] = "2".toList)) ∧
    (∀ (html : Str) (onuInfo : List Str) (d : ONUDetailResponse),
      ExtractJSArray html "onuinfo".toList = .ok onuInfo → ParseONUDetail html = .ok d →
      (d.IsActivated = false ↔ onuInfo.getD 12 [] = "2".toList)) := by
  have h1 : ∀ code : Str, MapActivateStatus code = false ↔ code = "2".toList := by
    intro code
    simp [MapActivateStatus]
  refine ⟨h1, ?_, ?_, ?_⟩
  · intro code hc
    cases hb : MapActivateStatus code with
    | false => exact absurd ((h1 code).mp hb) hc
    | true => rfl
  · intro html data onus hd ho
    rw [parseONUList_eq html data hd] at ho
    injection ho with ho
    subst ho
    refine ⟨by simp, ?_⟩
    intro i r hr
    rw [List.getElem?_map] at hr
    cases hi : (List.range (data.length / 16))[i]? with
    | none => rw [hi] at hr; cases hr
    | some j =>
      rw [hi] at hr
      have hj : j = i := by
        by_cases hlt : i < data.length / 16
        · rw [List.getElem?_range hlt] at hi
          exact (Option.some.inj hi).symm
        · rw [List.getElem?_eq_none (by simpa using hlt)] at hi
          cases hi
      subst hj
      simp only [Option.map_some', Option.some.injEq] at hr
      subst hr
      show MapActivateStatus _ = false ↔ _
      rw [getD_group data j 9 (by decide)]
      exact h1 _
  · intro html onuInfo d hd hp
    by_cases hlen : 13 ≤ onuInfo.length
    · obtain ⟨om, hok, _⟩ := parseONUDetail_ok html onuInfo hd hlen
      rw [hok] at hp
      injection hp with hp
      subst hp
      exact h1 _
    · rw [parseONUDetail_incomplete html onuInfo hd (by omega)] at hp
      cases hp

/-- C12: for every document in which the `onuinfo` declaration is found with 13
fields or more and that holds no `onuOpmInfo` declaration, `ParseONUDetail`
succeeds; it returns the record of the `onuinfo` fields, whose `OpticalModule`
is unset (nil): the absence of the second literal is no error. -/
theorem parseONUDetail_without_module (html : Str) (onuInfo : List Str)
    (h : ExtractJSArray html "onuinfo".toList = .ok onuInfo) (hlen : 13 ≤ onuInfo.length)
    (hno : ¬ HasDeclaration html "onuOpmInfo".toList) :
    ParseONUDetail html = .ok (decodeONUDetail onuInfo) ∧
    (∀ d, ParseONUDetail html = .ok d → d.OpticalModule = none) ∧
    ¬ ∃ e, ParseONUDetail html = .error e := by
  obtain ⟨om, hok, hom⟩ := parseONUDetail_ok html onuInfo h hlen
  have hnone : om = none := hom ⟨_, (extractJSArray_error_iff html _).mpr hno⟩
  subst hnone
  refine ⟨hok, ?_, ?_⟩
  · intro d hd
    rw [hok] at hd
    injection hd with hd
    subst hd
    rfl
  · rintro ⟨e, he⟩
    rw [hok] at he
    cases he

/-- C12, at an instance: a page with the 13 fields of `onuinfo` alone. -/
theorem parseONUDetail_without_module_witness :
    ParseONUDetail sampleDetailPage = .ok (decodeONUDetail sampleDetailFields) ∧
    (∀ d, ParseONUDetail sampleDetailPage = .ok d → d.OpticalModule = none) ∧
    ¬ ∃ e, ParseONUDetail sampleDetailPage = .error e :=
  parseONUDetail_without_module sampleDetailPage sampleDetailFields (by decide!) (by decide)
    ((extractJSArray_error_iff sampleDetailPage "onuOpmInfo".toList).mp (by decide!))

/-- C13: when the declaration is found, with the extracted sequence `data`,
`ParseSystemInfo` (variable `sysInfo`) and `ParseONUDetail` (variable
`onuinfo`) return an error if and only if `data` has fewer than 13 fields.
With 13 fields or more they succeed, and the record is decoded by position
from the first 13 fields: the 13 fields of the system record in order, the two
last as numbers; fields 0 to 9 and 12 of the unit record (the optical module
comes from the other declaration). -/
theorem parse_arity_spec (html : Str) (data : List Str) :
    (ExtractJSArray html "sysInfo".toList = .ok data →
      ((∃ e, ParseSystemInfo html = .error e) ↔ data.length < 13) ∧
      (13 ≤ data.length →
        ParseSystemInfo html = .ok (decodeSystemInfo (data.take 13)) ∧
        decodeSystemInfo (data.take 13) =
          { SystemName := data.getD 0 [], SystemDescription := data.getD 1 [],
            SystemLocation := data.getD 2 [], SwitchType := data.getD 3 [],
            SoftwareVersion := data.getD 4 [], Revision := data.getD 5 [],
            MACAddress := data.getD 6 [], IPAddress := data.getD 7 [],
            RunTime := data.getD 8 [], HardwareVersion := data.getD 9 [],
            SerialNumber := data.getD 10 [], CPUUsage := ParseFloat (data.getD 11 []),
            MemoryUsage := ParseFloat (data.getD 12 []) })) ∧
    (ExtractJSArray html "onuinfo".toList = .ok data →
      ((∃ e, ParseONUDetail html = .error e) ↔ data.length < 13) ∧
      (13 ≤ data.length →
        ∃ om, ParseONUDetail html =
            .ok { decodeONUDetail (data.take 13) with OpticalModule := om } ∧
          decodeONUDetail (data.take 13) =
            { ONUID := data.getD 0 [], Name := data.getD 1 [], MacAddress := data.getD 2 [],
              Status := MapOnlineStatus (data.getD 3 []), FwVersion := data.getD 4 [],
              ChipID := data.getD 5 [], Ports := ParseInt (data.getD 6 []),
              FirstUptime := data.getD 7 [], LastUptime := data.getD 8 [],
              LastOfftime := data.getD 9 [],
              IsActivated := MapActivateStatus (data.getD 12 []),
              OpticalModule := none })) := by
  constructor
  · intro h
    have hsys : ParseSystemInfo html =
        if data.length < 13 then .error (.incomplete "sysInfo".toList data.length 13)
        else .ok (decodeSystemInfo data) := by
      unfold ParseSystemInfo
      rw [h]
    constructor
    · constructor
      · rintro ⟨e, he⟩
        by_contra hlen
        rw [hsys, if_neg hlen] at he
        cases he
      · intro hlen
        exact ⟨_, by rw [hsys, if_pos hlen]⟩
    · intro hlen
      rw [(decode_take_thirteen data).2]
      exact ⟨by rw [hsys, if_neg (by omega)], rfl⟩
  · intro h
    constructor
    · constructor
      · rintro ⟨e, he⟩
        by_contra hlen
        obtain ⟨om, hok, _⟩ := parseONUDetail_ok html data h (by omega)
        rw [hok] at he
        cases he
      · intro hlen
        exact ⟨_, parseONUDetail_incomplete html data h hlen⟩
    · intro hlen
      obtain ⟨om, hok, _⟩ := parseONUDetail_ok html data h hlen
      rw [(decode_take_thirteen data).1]
      exact ⟨om, hok, rfl⟩

/-- C13, at instances: the 13 fields of a system page are decoded; the 12
first of them alone are refused. -/
theorem parse_arity_spec_witness :
    ParseSystemInfo sampleSystemPage = .ok (decodeSystemInfo (sampleSystemFields.take 13)) ∧
    (∃ e, ParseSystemInfo "var sysInfo = new Array('a','b');".toList = .error e) :=
  ⟨((parse_arity_spec sampleSystemPage sampleSystemFields).1 (by decide!)).2 (by decide) |>.1,
    ((parse_arity_spec "var sysInfo = new Array('a','b');".toList
      ["a".toList, "b".toList]).1 (by decide!)).1.mpr (by decide)⟩

end Parser

namespace handlers

/-- C14: `normalizeONUID id` is `"0/" + id` when `id` splits on `:` into exactly
two parts `port:index` and `port` parses as a plain integer (an optional sign
and decimal digits within the range of `int`: what `strconv.Atoi` accepts),
and `id` unchanged for every other input, in particular for every id
`shelf/port:index`; the rule of `GetONUs` rewrites a bare port id `p` to
`"0/" + p` exactly when `p` parses as a plain integer. `"1:8"` gives `"0/1:8"`,
`"0/1:8"` is unchanged, `"2"` gives `"0/2"`. -/
theorem normalizeONUID_spec :
    (∀ port index : Str, ':' ∉ port → ':' ∉ index → IsPlainInteger port →
      normalizeONUID (port ++ ':' :: index) = "0/".toList ++ (port ++ ':' :: index)) ∧
    (∀ id : Str,
      (¬ ∃ port index : Str, id = port ++ ':' :: index ∧ ':' ∉ port ∧ ':' ∉ index ∧
        IsPlainInteger port) →
      normalizeONUID id = id) ∧
    (∀ shelf port index : Str,
      normalizeONUID (shelf ++ '/' :: (port ++ ':' :: index)) =
        shelf ++ '/' :: (port ++ ':' :: index)) ∧
    (∀ p : Str, (IsPlainInteger p → normalizePONID p = "0/".toList ++ p) ∧
      (¬ IsPlainInteger p → normalizePONID p = p)) ∧
    (∀ p : Str, (strconv.Atoi p).2 = .nil ↔ IsPlainInteger p) ∧
    normalizeONUID "1:8".toList = "0/1:8".toList ∧
    normalizeONUID "0/1:8".toList = "0/1:8".toList ∧
    normalizePONID "2".toList = "0/2".toList := by
  have hother : ∀ id : Str,
      (¬ ∃ port index : Str, id = port ++ ':' :: index ∧ ':' ∉ port ∧ ':' ∉ index ∧
        IsPlainInteger port) →
      normalizeONUID id = id := by
    intro id hno
    by_cases hc : id.count ':' = 1
    · have h2 : (strings.Split id ':').length = 2 := by rw [split_length, hc]
      obtain ⟨a, b, ha, hb, e⟩ := (split_length_two ':' id).mp h2
      subst e
      exact (normalizeONUID_pair a b ha hb).2 (fun hp => hno ⟨a, b, rfl, ha, hb, hp⟩)
    · exact normalizeONUID_other id hc
  refine ⟨fun port index hp hi h => (normalizeONUID_pair port index hp hi).1 h, hother, ?_,
    ?_, atoi_ok_iff, by decide, by decide, by decide⟩
  · intro shelf port index
    apply hother
    rintro ⟨a, b, e, ha, hb, hp⟩
    have hx : ':' ∉ shelf ++ '/' :: port := by
      intro hm
      have h1 : 0 < (shelf ++ '/' :: port).count ':' := List.count_pos_iff.mpr hm
      have h2 : (a ++ ':' :: b).count ':' = 1 := by
        rw [List.count_append, List.count_cons_self, List.count_eq_zero.mpr ha,
          List.count_eq_zero.mpr hb]
      have h3 : (shelf ++ '/' :: (port ++ ':' :: index)).count ':' =
          (shelf ++ '/' :: port).count ':' + (index.count ':' + 1) := by
        rw [show shelf ++ '/' :: (port ++ ':' :: index) =
          (shelf ++ '/' :: port) ++ ':' :: index by simp, List.count_append,
          List.count_cons_self]
      rw [e] at h3
      omega
    have hs1 := split_append ':' a b ha
    have hs2 := split_append ':' (shelf ++ '/' :: port) index hx
    rw [← e, show shelf ++ '/' :: (port ++ ':' :: index) =
      (shelf ++ '/' :: port) ++ ':' :: index by simp, hs2] at hs1
    injection hs1 with hs1 _
    rw [← hs1] at hp
    exact not_isPlainInteger_of_slash (List.mem_append_right _ (List.mem_cons_self _ _)) hp
  · intro p
    unfold normalizePONID
    constructor
    · intro h
      rw [if_pos ((atoi_ok_iff p).mpr h)]
    · intro h
      rw [if_neg (fun e => h ((atoi_ok_iff p).mp e))]

end handlers

namespace Parser

/-- C15, as stated, fails on a full id with two `/`: the short id of `0/1/2`
is `0/1/2`, not the text `1/2` after the first `/`. -/
theorem parsePONList_two_slashes :
    ParsePONList "var ponListTable=new Array('0/1/2','N/A');".toList =
      .ok [{ PONID := "0/1/2".toList, FullID := "0/1/2".toList, Info := "N/A".toList }] ∧
    afterFirstSlash "0/1/2".toList = "1/2".toList := by
  decide

/-- C15, amended: when the `ponListTable` declaration is found and yields the
fields `data`, `ParsePONList` returns one entry for each pair of fields, in
order; entry `i` has `FullID` the field `2 i`, `Info` the field `2 i + 1`, and
`PONID` the short id of the full id `f`: the text of `f` after its `/` when `f`
holds exactly one `/` (`"0/1"` gives `"1"`), and `f` itself when `f` holds no
`/` or more than one. -/
theorem parsePONList_spec (html : Str) (data : List Str)
    (h : ExtractJSArray html "ponListTable".toList = .ok data) :
    (∃ pons : List PONResponse,
      ParsePONList html = .ok pons ∧
      pons.length = data.length / 2 ∧
      ∀ i, i < data.length / 2 →
        ∃ r, pons[i]? = some r ∧
          r.FullID = data.getD (2 * i) [] ∧
          r.Info = data.getD (2 * i + 1) [] ∧
          (r.FullID.count '/' = 1 → r.PONID = afterFirstSlash r.FullID) ∧
          (r.FullID.count '/' ≠ 1 → r.PONID = r.FullID)) ∧
    (∀ a b : Str, '/' ∉ a → afterFirstSlash (a ++ '/' :: b) = b) ∧
    simplifiedID "0/1".toList = "1".toList := by
  refine ⟨⟨(List.range (data.length / 2)).map (fun j =>
      { PONID := simplifiedID (((data.drop (j * 2)).take 2).getD 0 []),
        FullID := ((data.drop (j * 2)).take 2).getD 0 [],
        Info := ((data.drop (j * 2)).take 2).getD 1 [] }), ?_, by simp, ?_⟩,
    afterFirstSlash_append, by decide⟩
  · unfold ParsePONList
    rw [h]
    simp only
    rw [foldl_appendPON, chunkArray_two, List.nil_append, List.map_map]
    rfl
  · intro i hi
    refine ⟨PONResponse.mk (simplifiedID (((data.drop (i * 2)).take 2).getD 0 []))
        (((data.drop (i * 2)).take 2).getD 0 []) (((data.drop (i * 2)).take 2).getD 1 []), ?_,
      getD_pair data i 0 (by decide), getD_pair data i 1 (by decide),
      (simplifiedID_cases _).1, (simplifiedID_cases _).2⟩
    rw [List.getElem?_map, List.getElem?_range hi]
    rfl

/-- C15, amended, at an instance: a page with the ports `0/1` and `0/2`. -/
theorem parsePONList_spec_witness :
    ParsePONList samplePONPage =
      .ok [{ PONID := "1".toList, FullID := "0/1".toList, Info := "N/A".toList },
           { PONID := "2".toList, FullID := "0/2".toList, Info := "N/A".toList }] ∧
    ∃ pons : List PONResponse, ParsePONList samplePONPage = .ok pons ∧ pons.length = 2 := by
  refine ⟨by decide, ?_⟩
  obtain ⟨⟨pons, h1, h2, _⟩, _⟩ := parsePONList_spec samplePONPage
    ["0/1".toList, "N/A".toList, "0/2".toList, "N/A".toList] (by decide)
  exact ⟨pons, h1, h2⟩

end Parser

namespace database

open gorm

/-- C16: the keys of the cache are the composite strings that the services
build (`pons:...`, `onus:...`, `onu-detail:...`), none of them the empty
string. For every such key, on a table `db` (one row a key) and at the time
`t`, `GetCache key` returns `(v, true)` if and only if an entry `(v, e)` is
stored under `key` and `t` is not after `e`. If an entry is stored and `t` is
strictly after `e`, it reports absence and deletes that entry and no other, so
that every `GetCache key` that follows, at any time, reports absence, whatever
reads and invalidations come between. -/
theorem getCache_spec (db : gorm.DB) (hpk : KeysUnique db) (key : Str) (t : Int)
    (hkey : key ≠ []) :
    (∀ v, (GetCache db t key).1 = (v, true) ↔
      ∃ e, (⟨key, v, e⟩ : CacheEntry) ∈ db ∧ t ≤ e) ∧
    (∀ v e, (⟨key, v, e⟩ : CacheEntry) ∈ db → e < t →
      (GetCache db t key).1 = ([], false) ∧
      (GetCache db t key).2 = db.filter (fun r => r.Key ≠ key) ∧
      NoEntry (GetCache db t key).2 key ∧
      ∀ t', GetCache (GetCache db t key).2 t' key = (([], false), (GetCache db t key).2)) ∧
    (∀ (db1 : gorm.DB) (t1 : Int), NoEntry db1 key →
      GetCache db1 t1 key = (([], false), db1)) ∧
    (∀ (db1 : gorm.DB) (k1 : Str) (t1 : Int), NoEntry db1 key →
      NoEntry (GetCache db1 t1 k1).2 key ∧ NoEntry (gorm.DeleteWhere db1 k1).1 key) ∧
    KeysUnique (GetCache db t key).2 ∧
    (∀ d s : Str, service.ponsKey d ≠ [] ∧ service.onusKey d s ≠ [] ∧
      service.onuDetailKey d s ≠ []) := by
  obtain ⟨h0, h1, h2, h3⟩ := getCache_cases db hpk key t
  refine ⟨?_, ?_, fun db1 t1 h => getCache_absent db1 key t1 h, ?_, ?_, ?_⟩
  · intro v
    constructor
    · intro h
      unfold GetCache at h
      cases hf : gorm.First db key with
      | error e => rw [hf] at h; cases h
      | ok entry =>
        rw [hf] at h
        simp only at h
        obtain ⟨hm, hk⟩ := first_ok_mem hf
        by_cases hx : entry.IsExpired t = true
        · rw [if_pos hx] at h
          cases h
        · rw [if_neg hx] at h
          injection h with hv _
          refine ⟨entry.ExpiresAt, ?_, ?_⟩
          · rw [← hk, ← hv]
            exact hm
          · simpa [CacheEntry.IsExpired] using hx
    · rintro ⟨e, hm, hle⟩
      rw [h1 v e hm hle]
  · intro v e hm hlt
    rw [h2 v e hm hlt hkey]
    refine ⟨rfl, rfl, noEntry_filter db key, ?_⟩
    intro t'
    rw [getCache_absent _ key t' (noEntry_filter db key)]
  · intro db1 k1 t1 h
    constructor
    · rcases getCache_db db1 k1 t1 with e | e
      · rw [e]; exact h
      · rw [e]; exact noEntry_filter_of db1 key k1 h
    · exact noEntry_filter_of db1 key k1 h
  · rcases getCache_db db key t with e | e
    · rw [e]; exact hpk
    · rw [e]; exact keysUnique_filter db _ hpk
  · intro d s
    refine ⟨?_, ?_, ?_⟩ <;> simp [service.ponsKey, service.onusKey, service.onuDetailKey]

/-- C16, at an instance: a fresh entry is read, an expired one is deleted. -/
theorem getCache_spec_witness :
    (GetCache [⟨"k".toList, "v".toList, 5⟩] 5 "k".toList).1 = ("v".toList, true) ∧
    GetCache [⟨"k".toList, "v".toList, 5⟩] 6 "k".toList = (([], false), []) :=
  ⟨((getCache_spec [⟨"k".toList, "v".toList, 5⟩] (by decide) "k".toList 5
      (by decide)).1 "v".toList).mpr ⟨5, by decide, by decide⟩,
    by decide⟩

/-- C17: the keys of the cache are the composite strings that the services
build (`pons:...`, `onus:...`, `onu-detail:...`), none of them the empty
string. For every such key `k`, on a table `db` (one row a key), `SetCache k v
ttl` at the time `t` reports no error and leaves exactly one entry under `k`,
with the value `v` and the expiry `t + ttl`, in the place of any entry stored
under `k` before, fresh or expired; the entries of the other keys are those of
before. Hence a `GetCache k` at any time up to `t + ttl` returns `(v, true)`,
whatever `ttl`, and after a second `SetCache` under `k` a read returns the
second value. -/
theorem setCache_spec (db : gorm.DB) (hpk : KeysUnique db) (k v : Str) (ttl t : Int)
    (hk : k ≠ []) :
    (SetCache db t k v ttl).2 = none ∧
    KeysUnique (SetCache db t k v ttl).1 ∧
    (SetCache db t k v ttl).1.filter (fun r => r.Key = k) = [⟨k, v, t + ttl⟩] ∧
    (∀ r, r.Key ≠ k → (r ∈ (SetCache db t k v ttl).1 ↔ r ∈ db)) ∧
    (∀ t1, t1 ≤ t + ttl → (GetCache (SetCache db t k v ttl).1 t1 k).1 = (v, true)) ∧
    (∀ (v2 : Str) (ttl2 t2 t3 : Int), t3 ≤ t2 + ttl2 →
      (GetCache (SetCache (SetCache db t k v ttl).1 t2 k v2 ttl2).1 t3 k).1 = (v2, true)) ∧
    (∀ d s : Str, service.ponsKey d ≠ [] ∧ service.onusKey d s ≠ [] ∧
      service.onuDetailKey d s ≠ []) := by
  obtain ⟨h1, h2, h3, h4⟩ := setCache_ok db hpk k v ttl t hk
  refine ⟨h1, h2, filter_key_of_mem _ h2 _ h3, h4, ?_, ?_, ?_⟩
  · intro t1 ht
    rw [(getCache_cases _ h2 k t1).2.1 v (t + ttl) h3 ht]
  · intro v2 ttl2 t2 t3 ht
    obtain ⟨_, g2, g3, _⟩ := setCache_ok (SetCache db t k v ttl).1 h2 k v2 ttl2 t2 hk
    rw [(getCache_cases _ g2 k t3).2.1 v2 (t2 + ttl2) g3 ht]
  · intro d s
    refine ⟨?_, ?_, ?_⟩ <;> simp [service.ponsKey, service.onusKey, service.onuDetailKey]

/-- C17, at an instance: an expired entry is replaced, and the new value is
read at the time of its expiry. -/
theorem setCache_spec_witness :
    (SetCache [⟨"k".toList, "old".toList, 0⟩] 10 "k".toList "new".toList 5).1 =
      [⟨"k".toList, "new".toList, 15⟩] ∧
    (GetCache (SetCache [⟨"k".toList, "old".toList, 0⟩] 10 "k".toList "new".toList 5).1 15
      "k".toList).1 = ("new".toList, true) :=
  ⟨by decide,
    (setCache_spec [⟨"k".toList, "old".toList, 0⟩] (by decide) "k".toList "new".toList 5 10
      (by decide)).2.2.2.2.1 15 (by decide)⟩

/-- C18: the delete by key that the mutating operations perform on the cache
reports no error and removes the entry of the key `k`, fresh or expired (no
entry is left under `k`, and a read of `k` at any time reports absence); when
no entry is stored under `k` the table is left as it is; and the entry of every
other key is unchanged: the rows of the other keys are those of before, in
their order, and a read of another key returns what it returned before. It is
the effect on the cache of a run of `UpdateONUName` that returns no error: the
two deletes, of the key of the unit list and of the key of the detail. -/
theorem invalidate_spec (db : gorm.DB) (k : Str) :
    (gorm.DeleteWhere db k).2 = none ∧
    NoEntry (gorm.DeleteWhere db k).1 k ∧
    (∀ t, GetCache (gorm.DeleteWhere db k).1 t k = (([], false), (gorm.DeleteWhere db k).1)) ∧
    (NoEntry db k → (gorm.DeleteWhere db k).1 = db) ∧
    (∀ r, r.Key ≠ k → (r ∈ (gorm.DeleteWhere db k).1 ↔ r ∈ db)) ∧
    (gorm.DeleteWhere db k).1.filter (fun r => r.Key ≠ k) = db.filter (fun r => r.Key ≠ k) ∧
    (∀ k1 t, k1 ≠ k → (GetCache (gorm.DeleteWhere db k).1 t k1).1 = (GetCache db t k1).1) ∧
    (KeysUnique db → KeysUnique (gorm.DeleteWhere db k).1) ∧
    (∀ st : service.State, (service.cacheDelete k st).db = (gorm.DeleteWhere st.db k).1) ∧
    (∀ (env : service.Env) (d port index newName : Str) (st : service.State),
      ':' ∉ port → ':' ∉ index →
      (service.UpdateONUName env d (port ++ ':' :: index) newName st).1 = none →
      (service.UpdateONUName env d (port ++ ':' :: index) newName st).2.db =
        (gorm.DeleteWhere (gorm.DeleteWhere st.db (service.onusKey d port)).1
          (service.onuDetailKey d (port ++ ':' :: index))).1) := by
  refine ⟨rfl, noEntry_filter db k, fun t => getCache_absent _ k t (noEntry_filter db k),
    ?_, ?_, ?_, ?_, fun h => keysUnique_filter db _ h, fun _ => rfl,
    fun env d port index newName st hp hi h =>
      ((service.updateONUName_keys env d port index newName st hp hi).1 h).2⟩
  · intro h
    show db.filter (fun r => r.Key ≠ k) = db
    apply List.filter_eq_self.mpr
    intro r hr
    simpa using h r hr
  · intro r hr
    show r ∈ db.filter (fun r => r.Key ≠ k) ↔ r ∈ db
    rw [List.mem_filter]
    exact ⟨fun h => h.1, fun h => ⟨h, by simpa using hr⟩⟩
  · show (db.filter (fun r => r.Key ≠ k)).filter (fun r => r.Key ≠ k) = _
    rw [List.filter_filter]
    congr 1
    funext r
    simp
  · intro k1 t h
    unfold GetCache
    rw [first_deleteWhere db k k1 h]
    cases gorm.First db k1 with
    | error e => rfl
    | ok entry =>
      simp only
      split <;> rfl

end database

namespace service

/-- C19: for every device id `d` and every unit id `u = port:index` with
exactly one `:`, a run of `UpdateONUName`, `PerformAction` or `DeleteONU` on
`(d, u)` that returns no error deletes from the cache exactly two keys,
`"onus:" + d + ":" + port` and `"onu-detail:" + d + ":" + u`, and leaves no entry
under them; every access to the cache of `GetONUsByPON d port` is a read or a
write of the first key, every access of `GetONUDetail d u` a read or a write of
the second (with the cache enabled each of them starts with the read): the
writer and the invalidator build the same keys. -/
theorem cacheKeys_spec (env : Env) (d port index : Str) (st : State)
    (hp : ':' ∉ port) (hi : ':' ∉ index) :
    onusKey d port = "onus:".toList ++ d ++ ":".toList ++ port ∧
    onuDetailKey d (port ++ ':' :: index) =
      "onu-detail:".toList ++ d ++ ":".toList ++ (port ++ ':' :: index) ∧
    (∀ newName, (UpdateONUName env d (port ++ ':' :: index) newName st).1 = none →
      deletedKeys (UpdateONUName env d (port ++ ':' :: index) newName st).2.trace =
        deletedKeys st.trace ++ [onusKey d port, onuDetailKey d (port ++ ':' :: index)] ∧
      NoEntry (UpdateONUName env d (port ++ ':' :: index) newName st).2.db (onusKey d port) ∧
      NoEntry (UpdateONUName env d (port ++ ':' :: index) newName st).2.db
        (onuDetailKey d (port ++ ':' :: index))) ∧
    (∀ action, (PerformAction env d (port ++ ':' :: index) action st).1 = none →
      deletedKeys (PerformAction env d (port ++ ':' :: index) action st).2.trace =
        deletedKeys st.trace ++ [onusKey d port, onuDetailKey d (port ++ ':' :: index)] ∧
      NoEntry (PerformAction env d (port ++ ':' :: index) action st).2.db (onusKey d port) ∧
      NoEntry (PerformAction env d (port ++ ':' :: index) action st).2.db
        (onuDetailKey d (port ++ ':' :: index))) ∧
    ((DeleteONU env d (port ++ ':' :: index) st).1 = none →
      deletedKeys (DeleteONU env d (port ++ ':' :: index) st).2.trace =
        deletedKeys st.trace ++ [onusKey d port, onuDetailKey d (port ++ ':' :: index)] ∧
      NoEntry (DeleteONU env d (port ++ ':' :: index) st).2.db (onusKey d port) ∧
      NoEntry (DeleteONU env d (port ++ ':' :: index) st).2.db
        (onuDetailKey d (port ++ ':' :: index))) ∧
    (∀ filter, ∃ n, n ≤ 2 ∧
      accessedKeys (GetONUsByPON env d port filter st).2.trace =
        accessedKeys st.trace ++ List.replicate n (onusKey d port) ∧
      (env.CacheEnabled = true → 1 ≤ n)) ∧
    (∃ n, n ≤ 2 ∧
      accessedKeys (GetONUDetail env d (port ++ ':' :: index) st).2.trace =
        accessedKeys st.trace ++ List.replicate n (onuDetailKey d (port ++ ':' :: index)) ∧
      (env.CacheEnabled = true → 1 ≤ n)) := by
  refine ⟨rfl, rfl, ?_, ?_, ?_, fun filter => (getONUsByPON_keys env d port filter st).2, ?_⟩
  · intro newName h
    obtain ⟨h1, h2⟩ := (updateONUName_keys env d port index newName st hp hi).1 h
    rw [h2]
    exact ⟨h1, noEntry_invalidate _ _ _⟩
  · intro action h
    obtain ⟨h1, h2⟩ := (performAction_keys env d port index action st hp hi).1 h
    rw [h2]
    exact ⟨h1, noEntry_invalidate _ _ _⟩
  · intro h
    obtain ⟨h1, h2⟩ := (deleteONU_keys env d port index st hp hi).1 h
    rw [h2]
    exact ⟨h1, noEntry_invalidate _ _ _⟩
  · obtain ⟨n, hn, h1, h2⟩ := (getONUDetail_keys env d (port ++ ':' :: index) st).2
    exact ⟨n, hn, h1, fun he => h2 he (by rw [split_pair ':' port index hp hi]; rfl)⟩

/-- C19, at an instance: the keys that `DeleteONU` deletes for the unit `0/1:8`
of the device `olt1`. -/
theorem cacheKeys_spec_witness :
    deletedKeys (DeleteONU sampleEnv "olt1".toList ("0/1".toList ++ ':' :: "8".toList)
      sampleState).2.trace =
      deletedKeys sampleState.trace ++
        [onusKey "olt1".toList "0/1".toList,
          onuDetailKey "olt1".toList ("0/1".toList ++ ':' :: "8".toList)] ∧
    onusKey "olt1".toList "0/1".toList = "onus:olt1:0/1".toList ∧
    onuDetailKey "olt1".toList "0/1:8".toList = "onu-detail:olt1:0/1:8".toList :=
  ⟨((cacheKeys_spec sampleEnv "olt1".toList "0/1".toList "8".toList sampleState
      (by decide) (by decide)).2.2.2.2.1 (by decide)).1, by decide, by decide⟩

end service

namespace scraper

/-- C20: for every list of `N` items, every mapper `fn` and every number of
workers `W` (also `W < N`), every run of `Process` on a new, open pool that
returns, whatever the interleaving of the steps of its goroutines, returns a
slice of length `N` whose slot `i` is the index `i` with the result and the
error of `fn` on item `i`; a run has at most `4 N + 1` steps and can always be
continued to the return. The writes of the slots give that slice in any order
(any permutation of the tasks), and the slot of an item depends on no other
item: a mapper that fails on one item leaves the other slots what they are. -/
theorem process_spec {T R E : Type} (fn : T → R × Option E) (zero : R) (items : List T)
    (workers : Int) :
    (∀ (schedule : List Action) (q : Pool T R E),
      Process.run fn schedule (Process.start zero (NewWorkerPool T R E workers) items) =
        some q →
      (q.returned = true → q.results = expectedResults fn items) ∧
      schedule.length ≤ 4 * items.length + 1 ∧
      ∃ (rest : List Action) (q1 : Pool T R E),
        Process.run fn (schedule ++ rest)
          (Process.start zero (NewWorkerPool T R E workers) items) = some q1 ∧
        q1.returned = true) ∧
    (∀ order : List (Nat × T), order.Perm items.enum →
      writeSlots fn order
        (List.replicate items.length { Index := 0, Result := zero, Error := none }) =
        expectedResults fn items) ∧
    (expectedResults fn items).length = items.length ∧
    (∀ (i : Nat) (h : i < items.length),
      (expectedResults fn items)[i]? =
        some { Index := i, Result := (fn items[i]).1, Error := (fn items[i]).2 }) ∧
    (∀ (fn1 : T → R × Option E) (i : Nat),
      (∀ (j : Nat) (h : j < items.length), j ≠ i → fn1 items[j] = fn items[j]) →
      ∀ j, j ≠ i → (expectedResults fn1 items)[j]? = (expectedResults fn items)[j]?) := by
  obtain ⟨hinv, hm⟩ := start_inv fn zero items workers
  have hW := (newWorkerPool_workers T R E workers).2.2
  refine ⟨?_, ?_, (expectedResults_slot fn items).1, (expectedResults_slot fn items).2, ?_⟩
  · intro schedule q hrun
    obtain ⟨hq, hlen⟩ := run_inv fn items _ schedule _ q hinv hrun
    refine ⟨returned_results fn items _ q hq, by omega, ?_⟩
    obtain ⟨rest, q1, h1, h2⟩ := complete fn items _ hW _ q rfl hq
    exact ⟨rest, q1, by rw [run_append fn schedule rest _ q hrun]; exact h1, h2⟩
  · intro order hperm
    exact writeSlots_perm fn items order hperm _ (List.length_replicate _ _)
  · intro fn1 i hfn j hj
    by_cases hlt : j < items.length
    · rw [(expectedResults_slot fn1 items).2 j hlt, (expectedResults_slot fn items).2 j hlt,
        hfn j hlt hj]
    · rw [List.getElem?_eq_none (by rw [(expectedResults_slot fn1 items).1]; omega),
        List.getElem?_eq_none (by rw [(expectedResults_slot fn items).1]; omega)]

/-- C20, at an instance: two workers, three items, the mapper failing on the
second one, and the slots written in the order 1, 2, 0. -/
theorem process_spec_witness :
    ∃ q : Pool Nat Nat String,
      Process.run sampleMapper sampleSchedule
        (Process.start 0 (NewWorkerPool Nat Nat String 2) [1, 2, 3]) = some q ∧
      q.results = [⟨0, 10, none⟩, ⟨1, 20, some "bad"⟩, ⟨2, 30, none⟩] := by
  have hsome : (Process.run sampleMapper sampleSchedule
      (Process.start 0 (NewWorkerPool Nat Nat String 2) [1, 2, 3])).isSome = true := by decide
  obtain ⟨q, hq⟩ := Option.isSome_iff_exists.mp hsome
  have hret : (Process.run sampleMapper sampleSchedule
      (Process.start 0 (NewWorkerPool Nat Nat String 2) [1, 2, 3])).map (fun p => p.returned) =
      some true := by decide
  rw [hq] at hret
  have hexp : expectedResults sampleMapper [1, 2, 3] =
      [⟨0, 10, none⟩, ⟨1, 20, some "bad"⟩, ⟨2, 30, none⟩] := by decide
  refine ⟨q, hq, ?_⟩
  rw [← hexp]
  exact ((process_spec sampleMapper 0 [1, 2, 3] 2).1 sampleSchedule q hq).1
    (Option.some.inj hret)

end scraper

namespace service

/-- C21: for every unit id that does not split on `:` into exactly two parts,
`GetONUDetail`, `UpdateONUName`, `PerformAction` and `DeleteONU` return the
error of an invalid unit id and leave the state as it is: the cache is not
read, written or changed, and no access to the device is recorded. For every
unit id that does split into exactly two parts (exactly one `:`), none of them
returns that error, `PerformAction` not even as the cause of the error of its
detail. -/
theorem invalidONUID_spec (env : Env) (d u : Str) (st : State) :
    ((strings.Split u ':').length = 2 ↔
      ∃ port index : Str, ':' ∉ port ∧ ':' ∉ index ∧ u = port ++ ':' :: index) ∧
    ((strings.Split u ':').length ≠ 2 →
      GetONUDetail env d u st = (.error (.invalidONUID u), st) ∧
      (∀ newName, UpdateONUName env d u newName st = (some (.invalidONUID u), st)) ∧
      (∀ action, PerformAction env d u action st = (some (.invalidONUID u), st)) ∧
      DeleteONU env d u st = (some (.invalidONUID u), st)) ∧
    ((strings.Split u ':').length = 2 →
      (∀ x, (GetONUDetail env d u st).1 ≠ .error (.invalidONUID x)) ∧
      (∀ newName x, (UpdateONUName env d u newName st).1 ≠ some (.invalidONUID x)) ∧
      (∀ action x, (PerformAction env d u action st).1 ≠ some (.invalidONUID x) ∧
        (PerformAction env d u action st).1 ≠ some (.detail (.invalidONUID x))) ∧
      (∀ x, (DeleteONU env d u st).1 ≠ some (.invalidONUID x))) := by
  refine ⟨split_length_two ':' u, ?_, ?_⟩
  · intro h
    refine ⟨?_, ?_, ?_, ?_⟩
    · unfold GetONUDetail
      simp only
      rw [if_pos h]
    · intro newName
      unfold UpdateONUName
      simp only
      rw [if_pos h]
    · intro action
      unfold PerformAction
      simp only
      rw [if_pos h]
    · unfold DeleteONU
      simp only
      rw [if_pos h]
  · intro h
    refine ⟨getONUDetail_not_invalid env d u st h, ?_, ?_, ?_⟩
    · intro newName x
      unfold UpdateONUName
      simp only
      rw [if_neg (fun hn => hn h)]
      repeat' split
      all_goals simp
    · intro action x
      have hd := getONUDetail_not_invalid env d u st h x
      unfold PerformAction
      simp only
      rw [if_neg (fun hn => hn h)]
      cases onuOperationOf (strings.ToLower env.unicodeToLower action) with
      | none => simp
      | some op =>
        simp only
        cases hg : GetONUDetail env d u st with
        | mk r st1 =>
          rw [hg] at hd
          cases r with
          | error err =>
            simp only
            refine ⟨by simp, ?_⟩
            intro e
            injection e with e
            injection e with e
            exact hd (by rw [e])
          | ok detail =>
            simp only
            repeat' split
            all_goals simp
    · intro x
      unfold DeleteONU
      simp only
      rw [if_neg (fun hn => hn h)]
      repeat' split
      all_goals simp

end service

namespace Parser

/-- C22, as stated, fails on two documents: a run of white space inside a quoted
value is returned as one blank, and a `//` inside a quoted value is removed as
a comment together with the rest of its line, closing quote and following
fields included. -/
theorem extractJSArray_verbatim_counterexample :
    ExtractJSArray "var a = new Array('Room  12\t B','y');".toList "a".toList =
      .ok ["Room 12 B".toList, "y".toList] ∧
    ExtractJSArray "var a = new Array('http://olt/x','y');".toList "a".toList = .ok [] := by
  refine ⟨?_, ?_⟩ <;> rfl

/-- C22, amended: when the content of the first declaration of the variable is a
sequence of quoted strings, commas, white-space characters and `//` comments
closed by a newline, and every quoted string is non-empty and holds neither its
own quote nor `//`, every field returned by `ExtractJSArray` is the text between
the quotes of the corresponding literal with each run of white space replaced
by one blank, whatever the other literals hold; it is that text character for
character exactly when white space occurs in it only as single blanks. -/
theorem extractJSArray_verbatim (html varName : Str) (items : List Item)
    (hv : ∀ it ∈ items, it.Readable)
    (hd : FirstDeclaration html varName (renderItems items)) :
    ExtractJSArray html varName =
      .ok ((literalValues items).map (collapseSpaces false)) ∧
    ∀ v ∈ literalValues items, (collapseSpaces false v = v ↔ SingleSpaced v) := by
  refine ⟨?_, fun v _ => ?_⟩
  · rw [extractJSArray_of_first hd, parseArrayContent_readable items hv]
  · rw [collapseSpaces_eq_self_iff v false]
    exact ⟨fun h => h.1, fun h => ⟨h, fun hf => by cases hf⟩⟩

/-- C22, amended, at an instance: a literal with a run of blanks and a tab, and
the literal that follows it. -/
theorem extractJSArray_verbatim_witness :
    ExtractJSArray "var x = new Array('a  \tb',\"c d\");".toList "x".toList =
      .ok ["a b".toList, "c d".toList] :=
  (extractJSArray_verbatim "var x = new Array('a  \tb',\"c d\");".toList "x".toList
    [.literal false "a  \tb".toList, .comma, .literal true "c d".toList]
    (by
      intro it hit
      simp only [List.mem_cons, List.mem_singleton, List.not_mem_nil, or_false] at hit
      rcases hit with rfl | rfl | rfl
      · exact ⟨by decide, by decide, by decide⟩
      · trivial
      · exact ⟨by decide, by decide, by decide⟩)
    ⟨[], _, rfl,
      ⟨" ".toList, " ".toList, " ".toList, " ".toList, [], [],
        by decide, by decide, by decide, by decide, by decide, by decide, by decide,
        by decide, rfl⟩,
      by
        intro p q e hq
        have : q = [] := (List.append_eq_nil.mp e.symm).2
        exact absurd this hq⟩).1

end Parser

namespace service

open Parser

/-- C23, as stated, fails on two runs with the cache enabled and no value in the
cache. A unit-overview page with an empty table is fetched and parsed, the
empty list is returned, and no entry is stored: the run makes no write and the
table stays empty. And a run whose fetch fails on a table that holds an expired
entry under the key changes the table: the read has deleted the entry. -/
theorem cacheWrite_counterexample :
    emptyListEnv.CacheEnabled = true ∧
    (GetONUsByPON emptyListEnv "olt".toList "0/1".toList [] sampleState).1 = .ok [] ∧
    (GetONUsByPON emptyListEnv "olt".toList "0/1".toList [] sampleState).2.db = [] ∧
    (GetONUsByPON emptyListEnv "olt".toList "0/1".toList [] sampleState).2.trace =
      [.cacheGet (onusKey "olt".toList "0/1".toList), .getClient "olt".toList,
        .get "olt".toList "/onuOverview.asp".toList [("oltponno".toList, "0/1".toList)]] ∧
    (GetONUsByPON downEnv "olt".toList "0/1".toList []
        { db := [⟨onusKey "olt".toList "0/1".toList, "old".toList, -1⟩],
          ticks := 0, trace := [] }).1 = .error (.client "down".toList) ∧
    (GetONUsByPON downEnv "olt".toList "0/1".toList []
        { db := [⟨onusKey "olt".toList "0/1".toList, "old".toList, -1⟩],
          ticks := 0, trace := [] }).2.db = [] := by
  refine ⟨rfl, ?_, ?_, ?_, ?_, ?_⟩ <;> decide

/-- C23, amended: with the cache enabled and a miss of the read (no value, or a
value that does not decode), a run of `GetONUsByPON`, `GetPONList` or
`GetONUDetail` (on a unit id of two parts) that fetches and parses a result
whose encoding succeeds returns it and, unless it is an empty list, leaves
under the key of the operation exactly one entry, with the encoded result and
the expiry `now + TTL` at the time of the write, the rows of the other keys
being untouched; for an empty list, and for every run that returns an error,
nothing is written: the table is as the read of the cache left it. -/
theorem cacheWrite_spec (env : Env) (codec : PONCodec) (d : Str) (st : State)
    (hen : env.CacheEnabled = true) (hpk : KeysUnique st.db) :
    (∀ pon filter, CacheMiss env (onusKey d pon) env.unmarshalONUs st →
      (∀ html onus data, env.getClient d = none →
        env.get d "/onuOverview.asp".toList [("oltponno".toList, pon)] = .ok html →
        ParseONUList html = .ok onus → env.marshalONUs onus = some data →
        (GetONUsByPON env d pon filter st).1 = .ok (filterONUs env onus filter) ∧
        (onus ≠ [] → Stored (GetONUsByPON env d pon filter st).2.db st.db (onusKey d pon)
          data (env.clock (st.ticks + 1) + env.CacheTTL)) ∧
        (onus = [] → (GetONUsByPON env d pon filter st).2.db =
          (database.GetCache st.db (env.clock st.ticks) (onusKey d pon)).2)) ∧
      (∀ e, (GetONUsByPON env d pon filter st).1 = .error e →
        (GetONUsByPON env d pon filter st).2.db =
          (database.GetCache st.db (env.clock st.ticks) (onusKey d pon)).2)) ∧
    (CacheMiss env (ponsKey d) codec.unmarshalPONs st →
      (∀ html pons data, env.getClient d = none →
        env.get d "/onuOverviewPonList.asp".toList [] = .ok html →
        ParsePONList html = .ok pons → codec.marshalPONs pons = some data →
        (GetPONList env codec d st).1 = .ok pons ∧
        (pons ≠ [] → Stored (GetPONList env codec d st).2.db st.db (ponsKey d) data
          (env.clock (st.ticks + 1) + env.CacheTTL)) ∧
        (pons = [] → (GetPONList env codec d st).2.db =
          (database.GetCache st.db (env.clock st.ticks) (ponsKey d)).2)) ∧
      (∀ e, (GetPONList env codec d st).1 = .error e →
        (GetPONList env codec d st).2.db =
          (database.GetCache st.db (env.clock st.ticks) (ponsKey d)).2)) ∧
    (∀ u, (strings.Split u ':').length = 2 →
      CacheMiss env (onuDetailKey d u) env.unmarshalDetail st →
      (∀ html detail data, env.getClient d = none →
        env.get d "/onuConfig.asp".toList
          [("oltponno".toList, (strings.Split u ':').getD 0 []), ("onuno".toList, u)] =
            .ok html →
        ParseONUDetail html = .ok detail → env.marshalDetail detail = some data →
        (GetONUDetail env d u st).1 = .ok detail ∧
        Stored (GetONUDetail env d u st).2.db st.db (onuDetailKey d u) data
          (env.clock (st.ticks + 1) + env.CacheTTL)) ∧
      (∀ e, (GetONUDetail env d u st).1 = .error e →
        (GetONUDetail env d u st).2.db =
          (database.GetCache st.db (env.clock st.ticks) (onuDetailKey d u)).2)) := by
  refine ⟨fun pon filter hm => ⟨?_, ?_⟩, fun hm => ⟨?_, ?_⟩, fun u hu hm => ⟨?_, ?_⟩⟩
  · intro html onus data hcl hget hparse hmar
    exact getONUsByPON_stored env d pon filter st hen hpk hm html onus data hcl hget hparse hmar
  · exact getONUsByPON_failed env d pon filter st hen hm
  · intro html pons data hcl hget hparse hmar
    exact getPONList_stored env codec d st hen hpk hm html pons data hcl hget hparse hmar
  · exact getPONList_failed env codec d st hen hm
  · intro html detail data hcl hget hparse hmar
    exact getONUDetail_stored env d u st hen hpk hu hm html detail data hcl hget hparse hmar
  · exact getONUDetail_failed env d u st hen hu hm

/-- C23, amended, at an instance: the detail of the unit `0/1:1` is fetched on
an empty cache at time 0, and stored at time 1 with the expiry 101. -/
theorem cacheWrite_spec_witness :
    Stored (GetONUDetail sampleEnv "olt".toList "0/1:1".toList sampleState).2.db []
      (onuDetailKey "olt".toList "0/1:1".toList) "detail".toList 101 :=
  ((((cacheWrite_spec sampleEnv sampleCodec "olt".toList sampleState rfl (by decide)).2.2
    "0/1:1".toList (by decide) (Or.inl (by decide))).1 sampleDetailPage
    (decodeONUDetail sampleDetailFields) "detail".toList rfl rfl (by decide!) rfl).2)

end service

namespace scraper

/-- C24: `Close` sets the flag `closed` and a second `Close` changes nothing;
on a closed pool `Submit` returns at once with the pool as it was: the task is
not enqueued, the counter of `wg` is not incremented, no worker takes the task,
and the call gives no error (the step `submit` of `Process` is that call on the
next item). So on a closed batch processor (a new one, or any closed pool at
rest) every run of `Process` on `N` items is made of passes through `Submit`
and the return of `Wait` only, never of the step that calls the mapper; it has
at most `N + 1` steps, can always be continued to the return, and leaves every
one of the `N` slots at the zero value with a nil error. -/
theorem closed_pool_spec {T R E : Type} (fn : T → R × Option E) (zero : R)
    (items : List T) (workers : Int) :
    (∀ (p : Pool T R E) (t : Nat × T),
      (Close p).closed = true ∧ Close (Close p) = Close p ∧
      Submit t (Close p) = some (Close p)) ∧
    (∀ (p : Pool T R E) (t : Nat × T) (rest : List (Nat × T)),
      p.todo = t :: rest → p.returned = false →
      Process.step fn .submit p = (Submit t p).map (fun q => { q with todo := rest })) ∧
    Process.AtRest (Close (NewWorkerPool T R E workers)) ∧
    (∀ (p : Pool T R E), Process.AtRest p →
      ∀ (schedule : List Action) (q : Pool T R E),
      Process.run fn schedule (Process.start zero p items) = some q →
      q.results = List.replicate items.length { Index := 0, Result := zero, Error := none } ∧
      (∀ a ∈ schedule, a = .submit ∨ a = .wait) ∧
      q.wg = 0 ∧ q.taskQueue = [] ∧ q.workers = p.workers ∧
      schedule.length ≤ items.length + 1 ∧
      ∃ (rest : List Action) (q1 : Pool T R E),
        Process.run fn (schedule ++ rest) (Process.start zero p items) = some q1 ∧
        q1.returned = true) := by
  refine ⟨fun p t => ⟨?_, close_close p, submit_close t p⟩, fun p t rest ht hr =>
    step_submit fn p t rest ht hr, atRest_close_new T R E workers, ?_⟩
  · unfold Close
    cases h : p.closed <;> simp [h]
  · intro p hp schedule q hrun
    obtain ⟨hall, hq, hres, hw, hm⟩ :=
      run_atRest fn schedule _ q (atRest_start zero p items hp) hrun
    have hlen : (Process.start zero p items).todo.length = items.length := by
      simp [Process.start]
    have hret : (Process.start zero p items).returned = false := rfl
    rw [hlen, hret] at hm
    refine ⟨hres, hall, hq.2.2.1, hq.2.1, hw, ?_, ?_⟩
    · simp at hm
      omega
    · cases hqr : q.returned with
      | true => exact ⟨[], q, by rw [List.append_nil]; exact hrun, hqr⟩
      | false =>
        obtain ⟨q1, h1, h2⟩ := finish_atRest fn q.todo.length q rfl hq hqr
        exact ⟨_, q1, by rw [run_append fn schedule _ _ q hrun]; exact h1, h2⟩

end scraper

namespace scraper

/-- C25, as stated, fails on a response of status 204, and on one of status 201
with a body: both are 2xx, and `Get` returns the error of the status, not the
body. -/
theorem get_counterexample :
    (Client.Get (NewClient "http://olt/".toList "admin".toList "pw".toList) noContentNetwork
      "/onuOverview.asp".toList []).1 = .error (.httpStatus 204) ∧
    (Client.Get (NewClient "http://olt/".toList "admin".toList "pw".toList)
      { validURL := fun _ => true, roundTrip := fun _ => .response 201 (.ok "done".toList) }
      "/onuOverview.asp".toList []).1 = .error (.httpStatus 201) := by
  constructor <;> decide

/-- C25, amended: `Get` returns the body as text for every response whose status
is 200 and whose body is read, and for no other outcome: it fails for every
other status (the other 2xx included), for every transport error and for a
body that cannot be read. A call hands at most one request to the network, and
exactly one, to the URL `baseURL + endpoint`, whenever the request can be built
(else it fails without a request); no outcome leads to a second request. -/
theorem get_spec (c : Client) (net : Network) (endpoint : Str) (params : List (Str × Str)) :
    (Client.Get c net endpoint params).2.length ≤ 1 ∧
    (net.validURL (c.baseURL ++ endpoint) = false →
      Client.Get c net endpoint params = (.error .createRequest, [])) ∧
    (net.validURL (c.baseURL ++ endpoint) = true →
      (Client.Get c net endpoint params).2 = [c.getRequest endpoint params] ∧
      (c.getRequest endpoint params).url = c.baseURL ++ endpoint ∧
      (∀ text, (Client.Get c net endpoint params).1 = .ok text ↔
        net.roundTrip (c.getRequest endpoint params) = .response 200 (.ok text)) ∧
      (∀ status body, net.roundTrip (c.getRequest endpoint params) = .response status body →
        status ≠ 200 → (Client.Get c net endpoint params).1 = .error (.httpStatus status)) ∧
      (∀ err, net.roundTrip (c.getRequest endpoint params) = .transportError err →
        (Client.Get c net endpoint params).1 = .error (.requestFailed err)) ∧
      (∀ err, net.roundTrip (c.getRequest endpoint params) = .response 200 (.error err) →
        (Client.Get c net endpoint params).1 = .error (.readResponse err))) := by
  refine ⟨?_, ?_, ?_⟩
  · unfold Client.Get
    simp only
    repeat' split
    all_goals simp
  · intro h
    unfold Client.Get
    simp only
    rw [if_pos h]
  · intro h
    have hv : ¬ net.validURL (c.baseURL ++ endpoint) = false := by simp [h]
    refine ⟨?_, rfl, ?_, ?_, ?_, ?_⟩
    · unfold Client.Get
      simp only
      rw [if_neg hv]
      repeat' split
      all_goals rfl
    · intro text
      unfold Client.Get
      simp only
      rw [if_neg hv]
      cases hr : net.roundTrip (c.getRequest endpoint params) with
      | transportError err => simp
      | response status body =>
        by_cases hs : status = StatusOK
        · subst hs
          cases body with
          | error err => simp [StatusOK]
          | ok t => simp [StatusOK]
        · have hs2 : status ≠ 200 := hs
          simp [hs, hs2]
    · intro status body hr hs
      unfold Client.Get
      simp only
      rw [if_neg hv, hr]
      simp only
      rw [if_pos (show status ≠ StatusOK from hs)]
    · intro err hr
      unfold Client.Get
      simp only
      rw [if_neg hv, hr]
    · intro err hr
      unfold Client.Get
      simp only
      rw [if_neg hv, hr]
      simp [StatusOK]

end scraper

namespace service

open Parser

/-- C26, as stated, fails on an action that is none of the five together with a
unit id that does not split into two parts: the check of the unit id comes
first, and the error is that of the invalid unit id, not that of the
unsupported action. -/
theorem performAction_counterexample :
    onuOperationOf (strings.ToLower sampleEnv.unicodeToLower "explode".toList) = none ∧
    PerformAction sampleEnv "olt".toList "bad".toList "explode".toList sampleState =
      (some (.invalidONUID "bad".toList), sampleState) ∧
    (PerformAction sampleEnv "olt".toList "bad".toList "explode".toList sampleState).1 ≠
      some (.unsupportedAction "explode".toList) := by
  refine ⟨by decide, rfl, by decide⟩

/-- C26, amended: `PerformAction` maps the action lower-cased by
`strings.ToLower` (for an ASCII name: the name with its letters `A-Z` in lower
case, so whatever the case it is written in) to `onuOperation` by the table
reboot, activate, deactivate, factory, cleanloop to rebootOp, activeOp,
noactiveOp, restoreOp, cleanLoopOp. For every other action it returns an error
and leaves the state as it is, no request issued and the cache unchanged: the
error of the unsupported action when the unit id has two parts, else the error
of the invalid unit id. A run posts nothing or one form to `/goform/setOnu`
whose `onuOperation` is the value of the table, and posts it when it succeeds;
`UpdateONUName` likewise posts nothing or one form, with `nonOp`. -/
theorem performAction_spec (env : Env) (d u action : Str) (st : State) :
    (∀ op, onuOperationOf (strings.ToLower env.unicodeToLower action) = some op ↔
      (strings.ToLower env.unicodeToLower action, op) ∈ actionTable) ∧
    ((∀ c ∈ action, c.toNat < 128) →
      strings.ToLower env.unicodeToLower action = action.map asciiLower) ∧
    (onuOperationOf (strings.ToLower env.unicodeToLower action) = none →
      PerformAction env d u action st =
        (some (if (strings.Split u ':').length = 2 then .unsupportedAction action
          else .invalidONUID u), st)) ∧
    (∀ op, onuOperationOf (strings.ToLower env.unicodeToLower action) = some op →
      op ∈ ["rebootOp".toList, "activeOp".toList, "noactiveOp".toList, "restoreOp".toList,
        "cleanLoopOp".toList] ∧
      (postedForms (PerformAction env d u action st).2.trace = postedForms st.trace ∨
        ∃ name, postedForms (PerformAction env d u action st).2.trace =
          postedForms st.trace ++ [("/goform/setOnu".toList,
            [("onuId".toList, u), ("onuName".toList, name), ("onuOperation".toList, op)])]) ∧
      ((PerformAction env d u action st).1 = none →
        ∃ name, postedForms (PerformAction env d u action st).2.trace =
          postedForms st.trace ++ [("/goform/setOnu".toList,
            [("onuId".toList, u), ("onuName".toList, name), ("onuOperation".toList, op)])])) ∧
    (∀ newName,
      (postedForms (UpdateONUName env d u newName st).2.trace = postedForms st.trace ∨
        postedForms (UpdateONUName env d u newName st).2.trace =
          postedForms st.trace ++ [("/goform/setOnu".toList,
            [("oltponno".toList, (strings.Split u ':').getD 0 []), ("onuId".toList, u),
              ("onuName".toList, newName), ("onuOperation".toList, "nonOp".toList)])]) ∧
      ((UpdateONUName env d u newName st).1 = none →
        postedForms (UpdateONUName env d u newName st).2.trace =
          postedForms st.trace ++ [("/goform/setOnu".toList,
            [("oltponno".toList, (strings.Split u ':').getD 0 []), ("onuId".toList, u),
              ("onuName".toList, newName), ("onuOperation".toList, "nonOp".toList)])])) := by
  refine ⟨fun op => onuOperationOf_iff _ op, toLower_ascii _ action, ?_, ?_, ?_⟩
  · intro h
    unfold PerformAction
    simp only
    by_cases hu : (strings.Split u ':').length = 2
    · rw [if_neg (fun h => h hu), h, if_pos hu]
    · rw [if_pos hu, if_neg hu]
  · intro op hop
    have hmem : op ∈ ["rebootOp".toList, "activeOp".toList, "noactiveOp".toList,
        "restoreOp".toList, "cleanLoopOp".toList] := by
      have := (onuOperationOf_iff _ op).mp hop
      simp only [actionTable, List.mem_cons, Prod.mk.injEq, List.mem_singleton,
        List.not_mem_nil, or_false] at this ⊢
      rcases this with ⟨_, h⟩ | ⟨_, h⟩ | ⟨_, h⟩ | ⟨_, h⟩ | ⟨_, h⟩ <;> simp [h]
    refine ⟨hmem, ?_⟩
    by_cases hu : (strings.Split u ':').length = 2
    · obtain ⟨h1, h2⟩ := performAction_posts env d u action op st hu hop
      refine ⟨?_, h2⟩
      by_cases hr : (PerformAction env d u action st).1 = none
      · exact .inr (h2 hr)
      · exact h1 hr
    · have he : PerformAction env d u action st = (some (.invalidONUID u), st) := by
        unfold PerformAction
        simp only
        rw [if_pos hu]
      rw [he]
      exact ⟨.inl rfl, fun h => by cases h⟩
  · intro newName
    by_cases hu : (strings.Split u ':').length = 2
    · obtain ⟨h1, h2⟩ := updateONUName_posts env d u newName st hu
      refine ⟨?_, h2⟩
      by_cases hr : (UpdateONUName env d u newName st).1 = none
      · exact .inr (h2 hr)
      · exact h1 hr
    · have he : UpdateONUName env d u newName st = (some (.invalidONUID u), st) := by
        unfold UpdateONUName
        simp only
        rw [if_pos hu]
      rw [he]
      exact ⟨.inl rfl, fun h => by cases h⟩

end service

namespace service

open Parser

/-- C27, which the code does not meet: after a port listing `pons`, the
unit-overview requests of `GetAllONUs` are one for each listed port, in the
order of the listing, and each carries as `oltponno` the short id `PONID` of
the port, not its `FullID`. On the device with the ports `0/1` and `0/2` the
requests carry `1` and `2`, while `GetONUsByPON` behind the normalisation of
the boundary sends `0/1` for the port `1`. -/
theorem getAllONUs_requests (env : Env) (codec : PONCodec) (d filter : Str) (st : State) :
    (∀ pons st1, GetPONList env codec d st = (.ok pons, st1) → env.getClient d = none →
      getRequests (GetAllONUs env codec d filter st).2.trace =
        getRequests st1.trace ++
          pons.map (fun pon =>
            ("/onuOverview.asp".toList, [("oltponno".toList, pon.PONID)]))) ∧
    (GetPONList portsEnv sampleCodec "olt".toList sampleState).1 =
      .ok [⟨"1".toList, "0/1".toList, "N/A".toList⟩, ⟨"2".toList, "0/2".toList, "N/A".toList⟩] ∧
    getRequests (GetAllONUs portsEnv sampleCodec "olt".toList [] sampleState).2.trace =
      [("/onuOverviewPonList.asp".toList, []),
       ("/onuOverview.asp".toList, [("oltponno".toList, "1".toList)]),
       ("/onuOverview.asp".toList, [("oltponno".toList, "2".toList)])] ∧
    getRequests (GetONUsByPON portsEnv "olt".toList (handlers.normalizePONID "1".toList) []
        sampleState).2.trace =
      [("/onuOverview.asp".toList, [("oltponno".toList, "0/1".toList)])] := by
  refine ⟨?_, by decide!, by decide!, by decide!⟩
  intro pons st1 hp hcl
  unfold GetAllONUs
  rw [hp]
  simp only [hcl]
  rw [foldl_fetchPort_requests]
  simp [record, getRequests]

end service

namespace handlers

/-- C28: `normalizeONUID` is idempotent. An id that it rewrites has one `:` and
a port part that `strconv.Atoi` accepts, and becomes the id with the port part
`0/<port>`, which holds a `/` and which `strconv.Atoi` refuses; so the second
pass returns its argument. -/
theorem normalizeONUID_idempotent (id : Str) :
    normalizeONUID (normalizeONUID id) = normalizeONUID id ∧
    (normalizeONUID id ≠ id →
      ∃ port index, ':' ∉ port ∧ ':' ∉ index ∧ id = port ++ ':' :: index ∧
        normalizeONUID id = ("0/".toList ++ port) ++ ':' :: index ∧
        (strconv.Atoi port).2 = .nil ∧
        (strconv.Atoi ("0/".toList ++ port)).2 ≠ .nil) := by
  have key : normalizeONUID id = id ∨
      ∃ port index, ':' ∉ port ∧ ':' ∉ index ∧ id = port ++ ':' :: index ∧
        normalizeONUID id = ("0/".toList ++ port) ++ ':' :: index ∧
        (strconv.Atoi port).2 = .nil ∧
        (strconv.Atoi ("0/".toList ++ port)).2 ≠ .nil := by
    by_cases h2 : (strings.Split id ':').length = 2
    · obtain ⟨port, index, hp, hi, rfl⟩ := (split_length_two ':' id).mp h2
      by_cases hint : IsPlainInteger port
      · refine .inr ⟨port, index, hp, hi, rfl, ?_, (atoi_ok_iff port).mpr hint, ?_⟩
        · rw [(normalizeONUID_pair port index hp hi).1 hint]
          simp
        · intro h
          exact not_isPlainInteger_of_slash (p := "0/".toList ++ port) (by simp)
            ((atoi_ok_iff _).mp h)
      · exact .inl ((normalizeONUID_pair port index hp hi).2 hint)
    · refine .inl ?_
      unfold normalizeONUID
      simp only
      rw [if_neg h2]
  constructor
  · rcases key with h | ⟨port, index, hp, hi, _, hn, _, hno⟩
    · rw [h, h]
    · rw [hn]
      have hp2 : ':' ∉ "0/".toList ++ port := by
        intro hm
        rcases List.mem_append.mp hm with h | h
        · revert h; decide
        · exact hp h
      exact (normalizeONUID_pair ("0/".toList ++ port) index hp2 hi).2
        (fun h => hno ((atoi_ok_iff _).mpr h))
  · intro hne
    rcases key with h | h
    · exact absurd h hne
    · exact h

end handlers

namespace service

/-- C29, as stated, fails on device ids that hold a `:`: the device `a:b` with
the port `c` and the device `a` with the port `b:c` have the same key. -/
theorem cacheKey_counterexample :
    onusKey "a:b".toList "c".toList = onusKey "a".toList "b:c".toList ∧
    ("a:b".toList, "c".toList) ≠ ("a".toList, "b:c".toList) := by
  constructor <;> decide

/-- C29, amended: the keys built from `(d1, s1)` and `(d2, s2)` are equal only
if `d1 = d2` and `s1 = s2`, for both kinds when the device ids hold no `:`, and
also with a `:` in the device ids when the scopes are well formed: port ids
without `:` for the `onus:` kind, unit ids with exactly one `:` for the
`onu-detail:` kind. The `pons:` key determines its device id, and keys of
different kinds never coincide, whatever the ids. -/
theorem cacheKey_spec (d1 d2 s1 s2 : Str) :
    ((':' ∉ d1 ∧ ':' ∉ d2) ∨ (':' ∉ s1 ∧ ':' ∉ s2) →
      onusKey d1 s1 = onusKey d2 s2 → d1 = d2 ∧ s1 = s2) ∧
    ((':' ∉ d1 ∧ ':' ∉ d2) ∨ (s1.count ':' = 1 ∧ s2.count ':' = 1) →
      onuDetailKey d1 s1 = onuDetailKey d2 s2 → d1 = d2 ∧ s1 = s2) ∧
    (ponsKey d1 = ponsKey d2 → d1 = d2) ∧
    ponsKey d1 ≠ onusKey d2 s2 ∧ ponsKey d1 ≠ onuDetailKey d2 s2 ∧
    onusKey d1 s1 ≠ onuDetailKey d2 s2 := by
  refine ⟨?_, ?_, ?_, ?_, ?_, ?_⟩
  · intro h e
    rw [onusKey_eq, onusKey_eq] at e
    have e2 := List.append_cancel_left e
    rcases h with ⟨h1, h2⟩ | ⟨h1, h2⟩
    · exact append_sep_inj_left ':' d1 d2 s1 s2 h1 h2 e2
    · exact append_sep_inj_right ':' d1 d2 s1 s2 h1 h2 e2
  · intro h e
    rw [onuDetailKey_eq, onuDetailKey_eq] at e
    have e2 := List.append_cancel_left e
    rcases h with ⟨h1, h2⟩ | ⟨h1, h2⟩
    · exact append_sep_inj_left ':' d1 d2 s1 s2 h1 h2 e2
    · obtain ⟨p1, i1, hp1, hi1, rfl⟩ :=
        (split_length_two ':' s1).mp (by rw [split_length, h1])
      obtain ⟨p2, i2, hp2, hi2, rfl⟩ :=
        (split_length_two ':' s2).mp (by rw [split_length, h2])
      have e3 : (d1 ++ ':' :: p1) ++ ':' :: i1 = (d2 ++ ':' :: p2) ++ ':' :: i2 := by
        simpa using e2
      obtain ⟨e4, hi⟩ := append_sep_inj_right ':' _ _ i1 i2 hi1 hi2 e3
      obtain ⟨hd, hp⟩ := append_sep_inj_right ':' d1 d2 p1 p2 hp1 hp2 e4
      exact ⟨hd, by rw [hp, hi]⟩
  · intro e
    exact List.append_cancel_left e
  · intro e
    simp [ponsKey, onusKey] at e
  · intro e
    simp [ponsKey, onuDetailKey] at e
  · intro e
    simp [onusKey, onuDetailKey] at e

end service

namespace service

/-- C30, which the code does not meet: `GetClient` appends `:` and the port to
the stored base URL before `NewClient` trims the trailing `/`, so the effective
base URL is the trimmed text of `BaseURL:port`. It never ends in `/`, and it is
the base URL of the specification when the port is not set or is 80, and when
the stored base URL does not end in `/`; with the port set it is the stored
base URL, its trailing `/` kept, followed by `:` and the port. For the stored
device with the base URL `http://olt/` and the port 8080 the effective base URL
is `http://olt/:8080`, not `http://olt:8080`, and the request of the
unit-overview page goes to `http://olt/:8080/onuOverview.asp`. -/
theorem getClient_baseURL (devices : List database.Device) (id : Str) :
    (∀ device, GetByID devices id = .ok device →
      ∃ c, GetClient devices id = .ok c ∧
        c.baseURL = strings.TrimRight (clientURL device) "/".toList ∧
        c.baseURL.getLast? ≠ some '/' ∧
        (¬ (device.Port > 0 ∧ device.Port ≠ 80) →
          c.baseURL = specBaseURL device.BaseURL device.Port) ∧
        (device.BaseURL.getLast? ≠ some '/' →
          c.baseURL = specBaseURL device.BaseURL device.Port) ∧
        (device.Port > 0 ∧ device.Port ≠ 80 →
          c.baseURL = device.BaseURL ++ ":".toList ++ strconv.FormatInt device.Port)) ∧
    (GetClient [sampleDevice] "olt".toList).map (fun c => c.baseURL) =
      .ok "http://olt/:8080".toList ∧
    specBaseURL sampleDevice.BaseURL sampleDevice.Port = "http://olt:8080".toList ∧
    (GetClient [sampleDevice] "olt".toList).map
        (fun c => (c.getRequest "/onuOverview.asp".toList []).url) =
      .ok "http://olt/:8080/onuOverview.asp".toList := by
  refine ⟨?_, by decide, by decide, by decide⟩
  intro device hd
  refine ⟨scraper.NewClient (clientURL device) device.Username device.Password, ?_, rfl,
    trimRight_getLast _, ?_, ?_, ?_⟩
  · unfold GetClient
    rw [hd]
  · intro hp
    show strings.TrimRight (clientURL device) "/".toList = _
    unfold clientURL specBaseURL
    rw [if_neg hp, if_neg hp, List.append_nil]
  · intro hb
    show strings.TrimRight (clientURL device) "/".toList = _
    unfold clientURL specBaseURL
    by_cases hp : device.Port > 0 ∧ device.Port ≠ 80
    · rw [if_pos hp, if_pos hp, trimRight_of_getLast _ (getLast_formatInt _ _ hp.1),
        trimRight_of_getLast _ hb, List.append_assoc]
    · rw [if_neg hp, if_neg hp, List.append_nil]
  · intro hp
    show strings.TrimRight (clientURL device) "/".toList = _
    unfold clientURL
    rw [if_pos hp, trimRight_of_getLast _ (getLast_formatInt _ _ hp.1)]

end service

end Hioso
